import Mathlib

/-!
Verification of `Vector<T>` from `ds_implement/dynamic_array.cpp`

The class is embedded over an explicit memory model.

* The free store is a list of array blocks.  A pointer is a natural number:
  `0` is `nullptr`, and `q + 1` names block `q`.  `new T[n]` appends a block
  (addresses are never reused), `delete[]` marks the block as released.
* Every array slot is a `Cell`: `some x` holds the value `x`, `none` is an
  indeterminate value (what `new T[n]` without an initializer leaves behind).
* `Vector` objects live in an object store; an object is identified by its
  position, which plays the role of its address (`this`, `&rhs`).
* `size_t` is 64 bits wide: `size_t` arithmetic is taken modulo `2 ^ 64`.
* `new` can fail: it throws when the request exceeds the largest array the
  implementation supports or when the allocator has no room left.
-/

namespace DynamicArray

/-- Modulus of `size_t` arithmetic. -/
def SIZE_MOD : Nat := 2 ^ 64

/-- Largest number of elements an array can have (`PTRDIFF_MAX`, as every
element occupies at least one byte). -/
def MAX_ALLOC : Nat := 2 ^ 63 - 1

/-- Largest value of `int`. -/
def INT_MAX : Int := 2 ^ 31 - 1

/-- One array slot: `none` is an indeterminate value. -/
abbrev Cell (T : Type) := Option T

/-- The free store: `blocks[q]` is the array at address `q + 1`, `none` once it
has been released; `room` is the number of elements the allocator can still
hand out. -/
structure Heap (T : Type) where
  blocks : List (Option (List (Cell T)))
  room : Nat
deriving DecidableEq, Repr

/-- The three data members of a `Vector<T>` object. -/
structure Vector where
  /-- pointer to the first element of a heap array; `0` is `nullptr` -/
  data_ : Nat
  size_ : Nat
  capacity_ : Nat
deriving DecidableEq, Repr

/-- Program state: the free store and the `Vector` objects created so far. -/
structure State (T : Type) where
  heap : Heap T
  objs : List Vector
deriving DecidableEq, Repr

/-- How a member function call ends. -/
inductive Outcome (σ : Type) where
  /-- normal return, in the given state -/
  | ok : σ → Outcome σ
  /-- an allocation failure (`std::bad_alloc`) leaves the function; the state
  is the one at the throw -/
  | threw : σ → Outcome σ
  /-- undefined behaviour: access outside a live array, or an invalid `delete[]` -/
  | undefined : Outcome σ
deriving DecidableEq, Repr

/-- Contents of the live array `p` points to. -/
def Heap.cells {T : Type} (h : Heap T) (p : Nat) : Option (List (Cell T)) :=
  match p with
  | 0 => none
  | q + 1 =>
    match h.blocks[q]? with
    | some (some cs) => some cs
    | _ => none

/-- The allocation `new T[n]`: every slot starts as `init`.  Gives `none` when
the allocation throws. -/
def Heap.alloc {T : Type} (h : Heap T) (n : Nat) (init : Cell T) : Option (Nat × Heap T) :=
  if n ≤ MAX_ALLOC ∧ n ≤ h.room then
    some (h.blocks.length + 1,
      { blocks := h.blocks ++ [some (List.replicate n init)], room := h.room - n })
  else none

/-- The release `delete[] p`: nothing happens for `nullptr`; `none` is undefined
behaviour (the pointer names no live array). -/
def Heap.free {T : Type} (h : Heap T) (p : Nat) : Option (Heap T) :=
  match p with
  | 0 => some h
  | q + 1 =>
    match h.blocks[q]? with
    | some (some cs) => some { blocks := h.blocks.set q none, room := h.room + cs.length }
    | _ => none

/-- Reading `p[i]`; `none` is undefined behaviour (outside a live array). -/
def Heap.load {T : Type} (h : Heap T) (p : Nat) (i : Nat) : Option (Cell T) :=
  match h.cells p with
  | some cs => cs[i]?
  | none => none

/-- Writing `p[i] = c`; `none` is undefined behaviour (outside a live array). -/
def Heap.store {T : Type} (h : Heap T) (p : Nat) (i : Nat) (c : Cell T) : Option (Heap T) :=
  match p with
  | 0 => none
  | q + 1 =>
    match h.blocks[q]? with
    | some (some cs) =>
      if i < cs.length then some { h with blocks := h.blocks.set q (some (cs.set i c)) }
      else none
    | _ => none

/-- The loop `for (; i < n; i++) dst[i] = src[i];` with `k = n - i` iterations
left to run. -/
def copyLoop {T : Type} (h : Heap T) (dst src : Nat) : Nat → Nat → Option (Heap T)
  | _, 0 => some h
  | i, k + 1 =>
    match h.load src i with
    | none => none
    | some c =>
      match h.store dst i c with
      | none => none
      | some h1 => copyLoop h1 dst src (i + 1) k

/-- `Vector()`: the default constructor creates a new object. -/
def Vector_default {T : Type} (s : State T) : Outcome (State T) :=
  .ok { s with objs := s.objs ++ [{ data_ := 0, size_ := 0, capacity_ := 0 }] }

/-- `Vector(int size)`: `new T[size]{}` value-initializes every element; a
negative `size` makes `new` throw. -/
def Vector_sized {T : Type} [Inhabited T] (s : State T) (size : Int) : Outcome (State T) :=
  if size < 0 then .threw s
  else
    match s.heap.alloc size.toNat (some default) with
    | none => .threw s
    | some (p, h1) =>
      .ok { heap := h1,
            objs := s.objs ++ [{ data_ := p, size_ := size.toNat % SIZE_MOD,
                                 capacity_ := size.toNat % SIZE_MOD }] }

/-- `Vector(const Vector<T>& rhs)`: the copy constructor creates a new object. -/
def Vector_copy {T : Type} [Inhabited T] (s : State T) (rhs : Nat) : Outcome (State T) :=
  match s.objs[rhs]? with
  | none => .undefined
  | some r =>
    match s.heap.alloc r.size_ (some default) with
    | none => .threw s
    | some (p, h1) =>
      match copyLoop h1 p r.data_ 0 r.size_ with
      | none => .undefined
      | some h2 =>
        .ok { heap := h2,
              objs := s.objs ++ [{ data_ := p, size_ := r.size_, capacity_ := r.size_ }] }

/-- `operator=(const Vector<T>& rhs)`.  The replacement buffer is `new int[size_]{}`,
so the member function exists for `T = int` only. -/
def operator_assign (s : State Int) (this rhs : Nat) : Outcome (State Int) :=
  if rhs = this then .ok s
  else
    match s.objs[this]?, s.objs[rhs]? with
    | some v, some r =>
      match s.heap.free v.data_ with
      | none => .undefined
      | some h1 =>
        let v1 : Vector := { v with size_ := r.size_, capacity_ := r.size_ }
        match h1.alloc r.size_ (some 0) with
        | none => .threw { heap := h1, objs := s.objs.set this v1 }
        | some (p, h2) =>
          match copyLoop h2 p r.data_ 0 r.size_ with
          | none => .undefined
          | some h3 => .ok { heap := h3, objs := s.objs.set this { v1 with data_ := p } }
    | _, _ => .undefined

/-- `~Vector()`. -/
def destructor {T : Type} (s : State T) (this : Nat) : Outcome (State T) :=
  match s.objs[this]? with
  | none => .undefined
  | some v =>
    match s.heap.free v.data_ with
    | none => .undefined
    | some h1 => .ok { s with heap := h1 }

/-- `operator[](int i)` used as a value: reads `data_[i]`; `none` is undefined
behaviour. -/
def index {T : Type} (s : State T) (this : Nat) (i : Int) : Option (Cell T) :=
  match s.objs[this]? with
  | none => none
  | some v => if i < 0 then none else s.heap.load v.data_ i.toNat

/-- `operator[](int i)` used as the target of an assignment: `v[i] = x`. -/
def index_assign {T : Type} (s : State T) (this : Nat) (i : Int) (x : T) : Outcome (State T) :=
  match s.objs[this]? with
  | none => .undefined
  | some v =>
    if i < 0 then .undefined
    else
      match s.heap.store v.data_ i.toNat (some x) with
      | none => .undefined
      | some h1 => .ok { s with heap := h1 }

/-- `Size()`. -/
def Size {T : Type} (s : State T) (this : Nat) : Option Nat :=
  (s.objs[this]?).map (fun v => v.size_)

/-- `Capacity()`. -/
def Capacity {T : Type} (s : State T) (this : Nat) : Option Nat :=
  (s.objs[this]?).map (fun v => v.capacity_)

/-- The tail of `PushBack`: `data_[size_] = elem; ++size_;`. -/
def PushBack_store {T : Type} (h : Heap T) (objs : List Vector) (this : Nat) (v : Vector)
    (elem : T) : Outcome (State T) :=
  match h.store v.data_ v.size_ (some elem) with
  | none => .undefined
  | some h1 =>
    .ok { heap := h1, objs := objs.set this { v with size_ := (v.size_ + 1) % SIZE_MOD } }

/-- `PushBack(T elem)`. -/
def PushBack {T : Type} (s : State T) (this : Nat) (elem : T) : Outcome (State T) :=
  match s.objs[this]? with
  | none => .undefined
  | some v =>
    if v.capacity_ ≤ v.size_ then
      let cap := (v.capacity_ * 2 + 1) % SIZE_MOD
      match s.heap.alloc cap none with
      | none => .threw { s with objs := s.objs.set this { v with capacity_ := cap } }
      | some (newData, h1) =>
        match copyLoop h1 newData v.data_ 0 v.size_ with
        | none => .undefined
        | some h2 =>
          match h2.free v.data_ with
          | none => .undefined
          | some h3 =>
            PushBack_store h3 s.objs this { v with data_ := newData, capacity_ := cap } elem
    else PushBack_store s.heap s.objs this v elem

/-- Calls `PushBack` with each element of the list in order (as the first loop
of `main` does); a call that does not return normally ends the run. -/
def pushAll {T : Type} (s : State T) (this : Nat) : List T → Outcome (State T)
  | [] => .ok s
  | x :: xs =>
    match PushBack s this x with
    | .ok s1 => pushAll s1 this xs
    | o => o

/-- A mutation of one object through its public interface. -/
inductive Mutation (T : Type) where
  /-- the indexed write `v[i] = x` -/
  | write : Int → T → Mutation T
  /-- the append `v.PushBack(x)` -/
  | push : T → Mutation T

/-- Applies one mutation to object `this`. -/
def mutate {T : Type} (s : State T) (this : Nat) : Mutation T → Outcome (State T)
  | .write i x => index_assign s this i x
  | .push x => PushBack s this x

/-- Applies a sequence of mutations to object `this`, in order; a call that does
not return normally ends the run. -/
def mutateAll {T : Type} (s : State T) (this : Nat) : List (Mutation T) → Outcome (State T)
  | [] => .ok s
  | m :: ms =>
    match mutate s this m with
    | .ok s1 => mutateAll s1 this ms
    | o => o

/-- The data-model invariant of object `a`: `size_ ≤ capacity_`, and `data_` is
either `nullptr` with `capacity_ = 0` or points to a live array of exactly
`capacity_` slots (which therefore has at most `MAX_ALLOC` elements). -/
def Valid {T : Type} (s : State T) (a : Nat) : Prop :=
  match s.objs[a]? with
  | none => False
  | some v =>
    v.size_ ≤ v.capacity_ ∧ v.capacity_ ≤ MAX_ALLOC ∧
      if v.data_ = 0 then v.capacity_ = 0
      else (s.heap.cells v.data_).map List.length = some v.capacity_

instance {T : Type} (s : State T) (a : Nat) : Decidable (Valid s a) := by
  unfold Valid
  split <;> infer_instance

/-- Objects `a` and `b` are different objects that do not share a buffer. -/
def Disjoint {T : Type} (s : State T) (a b : Nat) : Prop :=
  a ≠ b ∧
    match s.objs[a]?, s.objs[b]? with
    | some v, some w => v.data_ = w.data_ → v.data_ = 0
    | _, _ => True

instance {T : Type} (s : State T) (a b : Nat) : Decidable (Disjoint s a b) := by
  unfold Disjoint
  split <;> infer_instance

/-- What the slots of a destination array hold after the copy loop has run `k`
iterations from index `i`, reading from an array with slots `sc`. -/
def copyCells {T : Type} (dc sc : List (Cell T)) : Nat → Nat → List (Cell T)
  | _, 0 => dc
  | i, k + 1 =>
    match sc[i]? with
    | some c => copyCells (dc.set i c) sc (i + 1) k
    | none => dc

/-- The heap in which the block at `p` has been replaced. -/
def Heap.put {T : Type} (h : Heap T) (p : Nat) (b : Option (List (Cell T))) : Heap T :=
  { h with blocks := h.blocks.set (p - 1) b }

/-- The slots of the array that `data_` of object `a` points to (no slots for
`nullptr`). -/
def buffer {T : Type} (s : State T) (a : Nat) : List (Cell T) :=
  match s.objs[a]? with
  | some v => (s.heap.cells v.data_).getD []
  | none => []

/-- The logical contents of object `a`: its first `size_` slots. -/
def elems {T : Type} (s : State T) (a : Nat) : List (Cell T) :=
  match s.objs[a]? with
  | some v => (buffer s a).take v.size_
  | none => []

/-- The array `sc` is the buffer of an object with data members `v`. -/
def Backs {T : Type} (h : Heap T) (v : Vector) (sc : List (Cell T)) : Prop :=
  sc.length = v.capacity_ ∧
    ((v.data_ = 0 ∧ sc = []) ∨ (v.data_ ≠ 0 ∧ h.cells v.data_ = some sc))

/-- The step from `s` to `s1` touches no object other than `a` and no live array
other than the buffer of `a`. -/
def Confined {T : Type} (s s1 : State T) (a : Nat) : Prop :=
  (∀ b, b ≠ a → s1.objs[b]? = s.objs[b]?) ∧
    ∀ p cs, s.heap.cells p = some cs → (∀ v, s.objs[a]? = some v → p ≠ v.data_) →
      s1.heap.cells p = some cs

/-- The growth rule as the specification words it: on an append the capacity
becomes `2 * cap + 1` exactly when `size == cap`, otherwise it is unchanged. -/
def growStep (size cap : Nat) : Nat :=
  if size = cap then 2 * cap + 1 else cap

/-- The reference recurrence of the specification: the capacity after `k`
consecutive appends to an empty container (`cap` starts at `0`; before the
`k + 1`-st append the size is `k`). -/
def refCapacity : Nat → Nat
  | 0 => 0
  | k + 1 => growStep k (refCapacity k)

/-- The capacity reached from size `size` and capacity `cap` by `n` appends. -/
def capAfter (size cap : Nat) : Nat → Nat
  | 0 => cap
  | n + 1 => capAfter (size + 1) (growStep size cap) n

/-- The state `main` reaches after its first loop: object `0` (`v`) holds
`0, 1, 2, 3, 4` in a buffer of capacity 7. -/
def demoFive : State Int :=
  { heap := { blocks := [none, none,
                some [some 0, some 1, some 2, some 3, some 4, none, none]],
              room := 93 },
    objs := [{ data_ := 3, size_ := 5, capacity_ := 7 }] }

/-- The data members of `v` in `demoFive`. -/
def demoV : Vector := { data_ := 3, size_ := 5, capacity_ := 7 }

/-- The state `main` reaches after `Vector<int> n = v; v[0] = 6;`: object `0`
(`v`) holds `6, 1, 2, 3, 4`, object `1` (`n`) holds `0, 1, 2, 3, 4`. -/
def demoTwo : State Int :=
  { heap := { blocks := [none, none,
                some [some 6, some 1, some 2, some 3, some 4, none, none],
                some [some 0, some 1, some 2, some 3, some 4]],
              room := 88 },
    objs := [{ data_ := 3, size_ := 5, capacity_ := 7 },
             { data_ := 4, size_ := 5, capacity_ := 5 }] }

/-- The data members of `n` in `demoTwo`. -/
def demoN : Vector := { data_ := 4, size_ := 5, capacity_ := 5 }

/-- What the print loops of `main` read: `n[i]` for every `i < n.Size()`. -/
def readAll {T : Type} (s : State T) (this : Nat) : List (Option (Cell T)) :=
  match Size s this with
  | none => []
  | some n => (List.range n).map (fun i => index s this (i : Int))

/-- Object `b` is observed to be the same in `s` and `s1`: same `Size()`, same
`Capacity()`, and the same element at every index. -/
def SameView {T : Type} (s s1 : State T) (b : Nat) : Prop :=
  Size s1 b = Size s b ∧ Capacity s1 b = Capacity s b ∧ ∀ i : Int, index s1 b i = index s b i

/-- A state with no object, an empty free store and room for 100 elements. -/
def demoState : State Int := { heap := { blocks := [], room := 100 }, objs := [] }

/-- The values `main` appends. -/
def demoValues : List Int := [0, 1, 2, 3, 4]

/-- One call of the public interface of `Vector<int>`; objects are named by
their position in the object store. -/
inductive Op where
  /-- the declaration `Vector<int> v;` -/
  | construct : Op
  /-- the declaration `Vector<int> v(n);` -/
  | constructSized : Int → Op
  /-- the declaration `Vector<int> v = rhs;` -/
  | constructCopy : Nat → Op
  /-- the assignment `dst = src;` (first the target, then the source) -/
  | assign : Nat → Nat → Op
  /-- the indexed write `a[i] = x;` -/
  | write : Nat → Int → Int → Op
  /-- the append `a.PushBack(x);` -/
  | push : Nat → Int → Op

/-- Executes one call. -/
def step (s : State Int) : Op → Outcome (State Int)
  | .construct => Vector_default s
  | .constructSized n => Vector_sized s n
  | .constructCopy rhs => Vector_copy s rhs
  | .assign dst src => operator_assign s dst src
  | .write a i x => index_assign s a i x
  | .push a x => PushBack s a x

/-- Executes a sequence of calls in order; a call that does not return normally
ends the run. -/
def run (s : State Int) : List Op → Outcome (State Int)
  | [] => .ok s
  | o :: os =>
    match step s o with
    | .ok s1 => run s1 os
    | r => r

/-- The data-model invariant of a whole state: every object is valid and no two
objects share a buffer. -/
def WellFormed {T : Type} (s : State T) : Prop :=
  (∀ a, a < s.objs.length → Valid s a) ∧
    ∀ a b, a < s.objs.length → b < s.objs.length → a ≠ b → Disjoint s a b

/-- What is observable of one object: its size, its capacity and its logical
contents. -/
abbrev AbsObj := Nat × Nat × List (Cell Int)

/-- What is observable of a state: the room left in the allocator and the
observable part of every object. -/
abbrev AbsState := Nat × List AbsObj

/-- The observable part of object `a`. -/
def objView (s : State Int) (a : Nat) : AbsObj :=
  match s.objs[a]? with
  | some v => (v.size_, v.capacity_, elems s a)
  | none => (0, 0, [])

/-- The observable part of a state. -/
def abs (s : State Int) : AbsState :=
  (s.heap.room, (List.range s.objs.length).map (objView s))

/-- Replaces entry `a` of a list, or appends when `a` is not an index of it. -/
def upd {α : Type} (l : List α) (a : Nat) (x : α) : List α :=
  if a < l.length then l.set a x else l ++ [x]

/-- The effect of one call on the observable part of a state: a container of
values with a size, a capacity and an allocator budget, and no pointers. -/
def absStep (w : AbsState) : Op → Option AbsState
  | .construct => some (w.1, w.2 ++ [(0, 0, [])])
  | .constructSized n =>
    if 0 ≤ n ∧ n.toNat ≤ MAX_ALLOC ∧ n.toNat ≤ w.1 then
      some (w.1 - n.toNat, w.2 ++ [(n.toNat, n.toNat, List.replicate n.toNat (some 0))])
    else none
  | .constructCopy src =>
    match w.2[src]? with
    | some (sz, _, es) => if sz ≤ w.1 then some (w.1 - sz, w.2 ++ [(sz, sz, es)]) else none
    | none => none
  | .assign dst src =>
    if src = dst then some w
    else
      match w.2[dst]?, w.2[src]? with
      | some (_, cap, _), some (sz, _, es) =>
        if sz ≤ w.1 + cap then some (w.1 + cap - sz, w.2.set dst (sz, sz, es)) else none
      | _, _ => none
  | .write a i x =>
    match w.2[a]? with
    | some (sz, cap, es) =>
      if 0 ≤ i ∧ i.toNat < cap then some (w.1, w.2.set a (sz, cap, es.set i.toNat (some x)))
      else none
    | none => none
  | .push a x =>
    match w.2[a]? with
    | some (sz, cap, es) =>
      if sz = cap then
        if 2 * cap + 1 ≤ MAX_ALLOC ∧ 2 * cap + 1 ≤ w.1 then
          some (w.1 + cap - (2 * cap + 1), w.2.set a (sz + 1, 2 * cap + 1, es ++ [some x]))
        else none
      else some (w.1, w.2.set a (sz + 1, cap, es ++ [some x]))
    | none => none

/-- The step from `s` to `s1` is a change of object `a` alone (an existing
object, or a new one at the end of the object store) that leaves it valid with
data members `v1`, its buffer being null, a new array, or the one it had. -/
def Effect {T : Type} (s s1 : State T) (a : Nat) (v1 : Vector) : Prop :=
  s1.objs.length = max s.objs.length (a + 1) ∧ a ≤ s.objs.length ∧
    Confined s s1 a ∧ Valid s1 a ∧ s1.objs[a]? = some v1 ∧
    (v1.data_ = 0 ∨ s.heap.blocks.length < v1.data_ ∨
      ∃ v, s.objs[a]? = some v ∧ v1.data_ = v.data_)

/-- The effect of a sequence of calls on the observable part of a state. -/
def absRun (w : AbsState) : List Op → Option AbsState
  | [] => some w
  | o :: os =>
    match absStep w o with
    | some w1 => absRun w1 os
    | none => none

/-- The calls of `main`, in order: `v` is object `0` and `n` is object `1`. -/
def mainOps : List Op :=
  [.construct, .push 0 0, .push 0 1, .push 0 2, .push 0 3, .push 0 4,
   .constructCopy 0, .write 0 0 6, .assign 1 0]

/-- A state with no object and an allocator that has room for 10 elements only. -/
def tightState : State Int := { heap := { blocks := [], room := 10 }, objs := [] }

/-- Calls that end in a copy-assignment whose allocation fails when started in
`tightState`: object `0` receives five appends (capacity 7), object `1` is
`Vector<int>(1)`, then `object 1 = object 0` needs 5 elements where 3 are left. -/
def tightOps : List Op :=
  [.construct, .push 0 0, .push 0 1, .push 0 2, .push 0 3, .push 0 4,
   .constructSized 1, .assign 1 0]

/-- Attaches a count to the state an outcome carries. -/
def Outcome.withCount {σ : Type} (o : Outcome σ) (n : Nat) : Outcome (σ × Nat) :=
  match o with
  | .ok s => .ok (s, n)
  | .threw s => .threw (s, n)
  | .undefined => .undefined

/-- Forgets the count an outcome carries. -/
def Outcome.erase {σ : Type} (o : Outcome (σ × Nat)) : Outcome σ :=
  match o with
  | .ok r => .ok r.1
  | .threw r => .threw r.1
  | .undefined => .undefined

/-- The loop `copyLoop`, which also counts the element copies `dst[i] = src[i]`
it performs. -/
def copyLoopCount {T : Type} (h : Heap T) (dst src : Nat) : Nat → Nat → Option (Heap T × Nat)
  | _, 0 => some (h, 0)
  | i, k + 1 =>
    match h.load src i with
    | none => none
    | some c =>
      match h.store dst i c with
      | none => none
      | some h1 =>
        match copyLoopCount h1 dst src (i + 1) k with
        | none => none
        | some (h2, n) => some (h2, n + 1)

/-- The function `PushBack`, which also reports how many existing elements its
reallocation loop copied during the call. -/
def PushBackCount {T : Type} (s : State T) (this : Nat) (elem : T) : Outcome (State T × Nat) :=
  match s.objs[this]? with
  | none => .undefined
  | some v =>
    if v.capacity_ ≤ v.size_ then
      let cap := (v.capacity_ * 2 + 1) % SIZE_MOD
      match s.heap.alloc cap none with
      | none => .threw ({ s with objs := s.objs.set this { v with capacity_ := cap } }, 0)
      | some (newData, h1) =>
        match copyLoopCount h1 newData v.data_ 0 v.size_ with
        | none => .undefined
        | some (h2, n) =>
          match h2.free v.data_ with
          | none => .undefined
          | some h3 =>
            (PushBack_store h3 s.objs this { v with data_ := newData, capacity_ := cap }
              elem).withCount n
    else (PushBack_store s.heap s.objs this v elem).withCount 0

/-- The run `pushAll`, which also reports the total number of element copies
performed by the reallocation loops of its calls. -/
def pushAllCount {T : Type} (s : State T) (this : Nat) : List T → Outcome (State T × Nat)
  | [] => .ok (s, 0)
  | x :: xs =>
    match PushBackCount s this x with
    | .ok (s1, n) =>
      match pushAllCount s1 this xs with
      | .ok (s2, m) => .ok (s2, n + m)
      | .threw (s2, m) => .threw (s2, n + m)
      | .undefined => .undefined
    | .threw r => .threw r
    | .undefined => .undefined

/-- Two states are observed to be the same: every object position reports the
same `Size()`, the same `Capacity()` and the same elements at the indices below
its size (and hence both states have the same number of objects). -/
def ObsEq {T : Type} (s1 s2 : State T) : Prop :=
  ∀ b : Nat, Size s1 b = Size s2 b ∧ Capacity s1 b = Capacity s2 b ∧
    readAll s1 b = readAll s2 b

/-- Runs the destructors of the objects at positions below `n`, the one
constructed last first, as at the end of the scope that declared them. -/
def destroyAll {T : Type} (s : State T) : Nat → Outcome (State T)
  | 0 => .ok s
  | n + 1 =>
    match destructor s n with
    | .ok s1 => destroyAll s1 n
    | o => o

/-- Every live array of the free store is the buffer of one of the objects at
positions below `n`. -/
def OwnedBelow {T : Type} (s : State T) (n : Nat) : Prop :=
  ∀ p, (s.heap.cells p).isSome →
    ∃ a v, a < n ∧ s.objs[a]? = some v ∧ v.data_ = p

/-- The state reached from `tightState` by all calls of `tightOps` but the last:
object `0` holds five values in a buffer of capacity 7, object `1` holds one
value, and the allocator has room for 2 more elements. -/
def tightTwo : State Int :=
  { heap := { blocks := [none, none,
                some [some 0, some 1, some 2, some 3, some 4, none, none],
                some [some 0]],
              room := 2 },
    objs := [{ data_ := 3, size_ := 5, capacity_ := 7 },
             { data_ := 4, size_ := 1, capacity_ := 1 }] }

end DynamicArray

namespace DynamicArray

/-! ## Lists of slots -/

theorem copyCells_length {T : Type} (sc : List (Cell T)) (k : Nat) :
    ∀ (dc : List (Cell T)) (i : Nat), (copyCells dc sc i k).length = dc.length := by
  induction k with
  | zero => intro dc i; rfl
  | succ k ih =>
    intro dc i
    unfold copyCells
    split
    · rw [ih]; simp
    · rfl

theorem copyCells_getElem? {T : Type} (sc : List (Cell T)) (k : Nat) :
    ∀ (dc : List (Cell T)) (i : Nat), i + k ≤ sc.length → i + k ≤ dc.length →
      ∀ j, (copyCells dc sc i k)[j]? = if i ≤ j ∧ j < i + k then sc[j]? else dc[j]? := by
  induction k with
  | zero =>
    intro dc i _ _ j
    have : ¬ (i ≤ j ∧ j < i) := by omega
    simp [copyCells, this]
  | succ k ih =>
    intro dc i hs hd j
    have hi : i < sc.length := by omega
    unfold copyCells
    rw [List.getElem?_eq_getElem hi]
    simp only
    rw [ih (dc.set i sc[i]) (i + 1) (by omega) (by simp; omega) j]
    by_cases h1 : i + 1 ≤ j ∧ j < i + 1 + k
    · have h2 : i ≤ j ∧ j < i + (k + 1) := by omega
      simp [h1, h2]
    · by_cases h3 : j = i
      · subst h3
        have h2 : j ≤ j ∧ j < j + (k + 1) := by omega
        have hjd : j < dc.length := by omega
        simp [h1, h2, List.getElem?_eq_getElem hi, hjd]
      · have h2 : ¬ (i ≤ j ∧ j < i + (k + 1)) := by omega
        have h4 : i ≠ j := fun h => h3 h.symm
        simp [h1, h2, List.getElem?_set_ne h4]

theorem set_of_getElem? {α : Type} (l : List α) (i : Nat) (a : α) (h : l[i]? = some a) :
    l.set i a = l := by
  induction l generalizing i with
  | nil => rfl
  | cons x xs ih =>
    cases i with
    | zero => simp at h; simp [h]
    | succ j => simp at h; simp [ih j h]

/-! ## The free store -/

theorem cells_zero {T : Type} (h : Heap T) : h.cells 0 = none := rfl

theorem cells_succ {T : Type} (h : Heap T) (q : Nat) :
    h.cells (q + 1) = (h.blocks[q]?).join := by
  unfold Heap.cells
  rcases hq : h.blocks[q]? with _ | (_ | cs) <;> simp [hq]

theorem cells_some {T : Type} {h : Heap T} {p : Nat} {cs : List (Cell T)}
    (hc : h.cells p = some cs) : p ≠ 0 ∧ p ≤ h.blocks.length ∧ h.blocks[p - 1]? = some (some cs) := by
  cases p with
  | zero => simp [cells_zero] at hc
  | succ q =>
    rw [cells_succ] at hc
    rcases hq : h.blocks[q]? with _ | (_ | cs1)
    · simp [hq] at hc
    · simp [hq] at hc
    · simp [hq] at hc
      subst hc
      refine ⟨by omega, ?_, by simpa using hq⟩
      obtain ⟨hlt, _⟩ := List.getElem?_eq_some_iff.mp hq
      omega

theorem cells_put {T : Type} (h : Heap T) (p p0 : Nat) (b : Option (List (Cell T)))
    (hp : p ≠ 0) (hlen : p ≤ h.blocks.length) :
    (h.put p b).cells p0 = if p0 = p then b else h.cells p0 := by
  cases p0 with
  | zero => simp [cells_zero, hp.symm]
  | succ q0 =>
    cases p with
    | zero => exact absurd rfl hp
    | succ q =>
      rw [cells_succ, cells_succ]
      simp only [Heap.put, Nat.add_sub_cancel, Nat.add_right_cancel_iff]
      by_cases hq : q0 = q
      · subst hq
        have : q0 < h.blocks.length := by omega
        simp [this]
      · have hq2 : q ≠ q0 := fun e => hq e.symm
        simp [hq, List.getElem?_set_ne hq2]

theorem cells_congr {T : Type} (h1 h2 : Heap T) (hb : h1.blocks = h2.blocks) (p : Nat) :
    h1.cells p = h2.cells p := by
  cases p with
  | zero => rfl
  | succ q => rw [cells_succ, cells_succ, hb]

theorem put_self {T : Type} {h : Heap T} {p : Nat} {cs : List (Cell T)}
    (hc : h.cells p = some cs) : h.put p (some cs) = h := by
  obtain ⟨_, _, hb⟩ := cells_some hc
  cases h with
  | mk blocks room =>
    simp only [Heap.put, Heap.mk.injEq, and_true]
    exact set_of_getElem? _ _ _ hb

theorem put_put {T : Type} (h : Heap T) (p : Nat) (b1 b2 : Option (List (Cell T))) :
    (h.put p b1).put p b2 = h.put p b2 := by
  simp [Heap.put]

theorem put_room {T : Type} (h : Heap T) (p : Nat) (b : Option (List (Cell T))) :
    (h.put p b).room = h.room := rfl

theorem put_length {T : Type} (h : Heap T) (p : Nat) (b : Option (List (Cell T))) :
    (h.put p b).blocks.length = h.blocks.length := by
  simp [Heap.put]

theorem load_eq {T : Type} {h : Heap T} {p : Nat} {cs : List (Cell T)}
    (hc : h.cells p = some cs) (i : Nat) : h.load p i = cs[i]? := by
  simp [Heap.load, hc]

theorem load_null {T : Type} (h : Heap T) (i : Nat) : h.load 0 i = none := rfl

theorem store_eq {T : Type} {h : Heap T} {p : Nat} {cs : List (Cell T)}
    (hc : h.cells p = some cs) (i : Nat) (hi : i < cs.length) (c : Cell T) :
    h.store p i c = some (h.put p (some (cs.set i c))) := by
  obtain ⟨hp, _, hb⟩ := cells_some hc
  cases p with
  | zero => exact absurd rfl hp
  | succ q =>
    simp only [Nat.add_sub_cancel] at hb
    simp [Heap.store, hb, hi, Heap.put]

theorem free_eq {T : Type} {h : Heap T} {p : Nat} {cs : List (Cell T)}
    (hc : h.cells p = some cs) :
    h.free p = some { blocks := (h.put p none).blocks, room := h.room + cs.length } := by
  obtain ⟨hp, _, hb⟩ := cells_some hc
  cases p with
  | zero => exact absurd rfl hp
  | succ q =>
    simp only [Nat.add_sub_cancel] at hb
    simp [Heap.free, hb, Heap.put]

theorem alloc_eq {T : Type} (h : Heap T) {n : Nat} (init : Cell T)
    (hmax : n ≤ MAX_ALLOC) (hroom : n ≤ h.room) :
    h.alloc n init = some (h.blocks.length + 1,
      { blocks := h.blocks ++ [some (List.replicate n init)], room := h.room - n }) := by
  simp [Heap.alloc, hmax, hroom]

theorem cells_snoc {T : Type} (bs : List (Option (List (Cell T)))) (r1 r2 : Nat)
    (b : Option (List (Cell T))) (p : Nat) :
    (Heap.mk (bs ++ [b]) r1).cells p =
      if p = bs.length + 1 then b else (Heap.mk bs r2).cells p := by
  cases p with
  | zero => simp [cells_zero]
  | succ q =>
    rw [cells_succ, cells_succ]
    simp only [Nat.add_right_cancel_iff]
    by_cases hq : q = bs.length
    · subst hq; simp
    · by_cases hlt : q < bs.length
      · simp [hq, List.getElem?_append_left hlt]
      · have h1 : bs.length + 1 ≤ q := by omega
        have h2 : (bs ++ [b])[q]? = none := by
          apply List.getElem?_eq_none; simp; omega
        have h3 : bs[q]? = none := by
          apply List.getElem?_eq_none; omega
        simp [hq, h2, h3]

theorem copyLoop_eq {T : Type} (dst src : Nat) (sc : List (Cell T)) (hne : dst ≠ src) (k : Nat) :
    ∀ (h : Heap T) (dc : List (Cell T)) (i : Nat),
      h.cells dst = some dc → h.cells src = some sc →
      i + k ≤ dc.length → i + k ≤ sc.length →
      copyLoop h dst src i k = some (h.put dst (some (copyCells dc sc i k))) := by
  induction k with
  | zero =>
    intro h dc i hd _ _ _
    simp [copyLoop, copyCells, put_self hd]
  | succ k ih =>
    intro h dc i hd hs hdl hsl
    have hi : i < sc.length := by omega
    have hid : i < dc.length := by omega
    obtain ⟨hp, hlen, _⟩ := cells_some hd
    unfold copyLoop copyCells
    rw [load_eq hs, List.getElem?_eq_getElem hi]
    simp only
    rw [store_eq hd i hid]
    simp only
    have hd1 : (h.put dst (some (dc.set i sc[i]))).cells dst = some (dc.set i sc[i]) := by
      rw [cells_put h dst dst _ hp hlen]; simp
    have hs1 : (h.put dst (some (dc.set i sc[i]))).cells src = some sc := by
      rw [cells_put h dst src _ hp hlen]; simp [hne.symm, hs]
    rw [ih _ _ _ hd1 hs1 (by simp; omega) (by omega), put_put]

theorem copyCells_take {T : Type} (dc sc : List (Cell T)) (n : Nat)
    (hs : n ≤ sc.length) (hd : n ≤ dc.length) :
    (copyCells dc sc 0 n).take n = sc.take n := by
  apply List.ext_getElem?
  intro j
  by_cases hj : j < n
  · rw [List.getElem?_take_of_lt hj, List.getElem?_take_of_lt hj,
      copyCells_getElem? sc n dc 0 (by omega) (by omega) j]
    simp [hj]
  · rw [List.getElem?_take_eq_none (by omega), List.getElem?_take_eq_none (by omega)]

theorem take_set_succ {α : Type} (l : List α) (n : Nat) (x : α) (hn : n < l.length) :
    (l.set n x).take (n + 1) = l.take n ++ [x] := by
  rw [List.take_succ]
  have h1 : (l.set n x).take n = l.take n := by
    apply List.ext_getElem?
    intro j
    by_cases hj : j < n
    · rw [List.getElem?_take_of_lt hj, List.getElem?_take_of_lt hj,
        List.getElem?_set_ne (by omega)]
    · rw [List.getElem?_take_eq_none (by omega), List.getElem?_take_eq_none (by omega)]
  rw [h1]
  simp [hn]

theorem max_alloc_lt : MAX_ALLOC < SIZE_MOD := by decide

theorem copyLoop_zero {T : Type} (h : Heap T) (dst src : Nat) (dc sc : List (Cell T)) (n : Nat)
    (hd : h.cells dst = some dc) (hdl : n ≤ dc.length)
    (hsrc : n = 0 ∨ (h.cells src = some sc ∧ n ≤ sc.length ∧ dst ≠ src)) :
    copyLoop h dst src 0 n = some (h.put dst (some (copyCells dc sc 0 n))) := by
  rcases hsrc with h0 | ⟨hs, hsl, hne⟩
  · subst h0
    simp [copyLoop, copyCells, put_self hd]
  · exact copyLoop_eq dst src sc hne n h dc 0 hd hs (by omega) (by omega)

theorem free_backs {T : Type} {h : Heap T} {v : Vector} {sc : List (Cell T)}
    (hb : Backs h v sc) :
    ∃ h1, h.free v.data_ = some h1 ∧ h1.room = h.room + v.capacity_ ∧
      h1.blocks.length = h.blocks.length ∧ ∀ q, q ≠ v.data_ → h1.cells q = h.cells q := by
  obtain ⟨hlen, ⟨h0, hnil⟩ | ⟨hne, hc⟩⟩ := hb
  · subst hnil
    refine ⟨h, by rw [h0]; rfl, by rw [← hlen]; rfl, rfl, fun _ _ => rfl⟩
  · obtain ⟨_, hle, _⟩ := cells_some hc
    refine ⟨_, free_eq hc, by rw [hlen], by simp [Heap.put], ?_⟩
    intro q hq
    have e := cells_congr (Heap.mk (h.put v.data_ none).blocks (h.room + sc.length))
      (h.put v.data_ none) rfl q
    rw [e, cells_put h v.data_ q none hne hle]
    simp [hq]

theorem valid_backs {T : Type} {s : State T} {a : Nat} {v : Vector}
    (hv : s.objs[a]? = some v) (hval : Valid s a) :
    v.size_ ≤ v.capacity_ ∧ v.capacity_ ≤ MAX_ALLOC ∧ Backs s.heap v (buffer s a) := by
  simp only [Valid, hv] at hval
  obtain ⟨h1, h2, h3⟩ := hval
  refine ⟨h1, h2, ?_⟩
  simp only [Backs, buffer, hv]
  by_cases h0 : v.data_ = 0
  · simp [h0] at h3
    simp [h0, cells_zero, h3]
  · simp only [h0, if_false] at h3
    rcases hc : s.heap.cells v.data_ with _ | cs
    · simp [hc] at h3
    · simp [hc] at h3
      simp [h0, h3]

theorem backs_valid {T : Type} (s : State T) (sc : List (Cell T)) {a : Nat} {v : Vector}
    (hv : s.objs[a]? = some v) (hsz : v.size_ ≤ v.capacity_) (hmax : v.capacity_ ≤ MAX_ALLOC)
    (hb : Backs s.heap v sc) : Valid s a ∧ buffer s a = sc := by
  simp only [Valid, hv, buffer]
  obtain ⟨hlen, ⟨h0, hnil⟩ | ⟨hne, hc⟩⟩ := hb
  · subst hnil
    simp at hlen
    simp [h0, hsz, hmax, hlen.symm, cells_zero]
    omega
  · simp [hne, hc, hlen, hsz, hmax]

/-! ## `PushBack` -/

theorem PushBack_spec {T : Type} (s : State T) (a : Nat) (v : Vector) (elem : T)
    (hv : s.objs[a]? = some v) (hval : Valid s a)
    (hfit : v.size_ = v.capacity_ →
      2 * v.capacity_ + 1 ≤ MAX_ALLOC ∧ 2 * v.capacity_ + 1 ≤ s.heap.room) :
    ∃ s1 v1, PushBack s a elem = .ok s1 ∧ s1.objs = s.objs.set a v1 ∧
      v1.size_ = v.size_ + 1 ∧
      v1.capacity_ = (if v.size_ = v.capacity_ then 2 * v.capacity_ + 1 else v.capacity_) ∧
      Valid s1 a ∧ elems s1 a = elems s a ++ [some elem] ∧
      Confined s s1 a ∧
      s1.heap.room + v1.capacity_ = s.heap.room + v.capacity_ ∧
      (v1.data_ = v.data_ ∨ s.heap.blocks.length < v1.data_) ∧
      s.heap.blocks.length ≤ s1.heap.blocks.length := by
  obtain ⟨hsz, hmax, hb⟩ := valid_backs hv hval
  have hM := max_alloc_lt
  have ha : a < s.objs.length := (List.getElem?_eq_some_iff.mp hv).1
  have helems : elems s a = (buffer s a).take v.size_ := by simp [elems, hv]
  obtain ⟨hlen, hcase⟩ := hb
  by_cases hfull : v.capacity_ ≤ v.size_
  · -- the buffer is full: reallocate
    have heq : v.size_ = v.capacity_ := by omega
    obtain ⟨hf1, hf2⟩ := hfit heq
    have hcap : (v.capacity_ * 2 + 1) % SIZE_MOD = 2 * v.capacity_ + 1 := by
      rw [Nat.mod_eq_of_lt (by omega)]; omega
    have hsize1 : (v.size_ + 1) % SIZE_MOD = v.size_ + 1 := Nat.mod_eq_of_lt (by omega)
    -- the allocation
    have halloc := alloc_eq s.heap (none : Cell T) hf1 hf2
    generalize hh1 : (Heap.mk (s.heap.blocks ++ [some (List.replicate (2 * v.capacity_ + 1) none)])
      (s.heap.room - (2 * v.capacity_ + 1)) : Heap T) = h1 at halloc
    have hc1 : ∀ q, h1.cells q = if q = s.heap.blocks.length + 1
        then some (List.replicate (2 * v.capacity_ + 1) none) else s.heap.cells q := by
      intro q
      rw [← hh1, cells_snoc s.heap.blocks _ s.heap.room]
    have hl1 : h1.blocks.length = s.heap.blocks.length + 1 := by rw [← hh1]; simp
    have hr1 : h1.room = s.heap.room - (2 * v.capacity_ + 1) := by rw [← hh1]
    have hfresh : h1.cells (s.heap.blocks.length + 1)
        = some (List.replicate (2 * v.capacity_ + 1) none) := by rw [hc1]; simp
    have hdata_le : v.data_ ≤ s.heap.blocks.length := by
      rcases hcase with ⟨h0, _⟩ | ⟨_, hc⟩
      · omega
      · exact (cells_some hc).2.1
    have hdata_ne : s.heap.blocks.length + 1 ≠ v.data_ := by omega
    -- the copy loop
    have hcopy := copyLoop_zero h1 (s.heap.blocks.length + 1) v.data_ _ (buffer s a)
      v.size_ hfresh (by simp; omega)
      (by
        rcases hcase with ⟨h0, hnil⟩ | ⟨_, hc⟩
        · left; rw [hnil] at hlen; simp at hlen; omega
        · right
          refine ⟨?_, by omega, hdata_ne⟩
          rw [hc1]; simp [hdata_ne.symm, hc])
    generalize hnc : copyCells (List.replicate (2 * v.capacity_ + 1) none) (buffer s a) 0 v.size_
      = nc at hcopy
    have hncl : nc.length = 2 * v.capacity_ + 1 := by rw [← hnc, copyCells_length]; simp
    have hc2 : ∀ q, (h1.put (s.heap.blocks.length + 1) (some nc)).cells q
        = if q = s.heap.blocks.length + 1 then some nc else s.heap.cells q := by
      intro q
      rw [cells_put h1 _ q _ (by omega) (by omega), hc1]
      by_cases hq : q = s.heap.blocks.length + 1 <;> simp [hq]
    -- the release of the old buffer
    have hb2 : Backs (h1.put (s.heap.blocks.length + 1) (some nc)) v (buffer s a) := by
      refine ⟨hlen, ?_⟩
      rcases hcase with ⟨h0, hnil⟩ | ⟨hne, hc⟩
      · exact Or.inl ⟨h0, hnil⟩
      · right
        refine ⟨hne, ?_⟩
        rw [hc2]; simp [hdata_ne.symm, hc]
    obtain ⟨h3, hfree, hr3, hl3, hc3⟩ := free_backs hb2
    have hc3f : h3.cells (s.heap.blocks.length + 1) = some nc := by
      rw [hc3 _ hdata_ne, hc2]; simp
    -- the store of the new element
    have hstore := store_eq hc3f v.size_ (by omega) (some elem)
    refine ⟨State.mk (h3.put (s.heap.blocks.length + 1) (some (nc.set v.size_ (some elem))))
        (s.objs.set a ⟨s.heap.blocks.length + 1, v.size_ + 1, 2 * v.capacity_ + 1⟩),
      ⟨s.heap.blocks.length + 1, v.size_ + 1, 2 * v.capacity_ + 1⟩, ?_, rfl, rfl,
      by simp [heq], ?_⟩
    · simp only [PushBack, hv, hfull, if_true, hcap, halloc, hcopy, hfree, PushBack_store,
        hstore, hsize1]
    · have hobj : (s.objs.set a ⟨s.heap.blocks.length + 1, v.size_ + 1, 2 * v.capacity_ + 1⟩)[a]?
          = some ⟨s.heap.blocks.length + 1, v.size_ + 1, 2 * v.capacity_ + 1⟩ := by
        simp [ha]
      have hl3le : s.heap.blocks.length + 1 ≤ h3.blocks.length := by
        rw [hl3, put_length, hl1]
      have hcf : (h3.put (s.heap.blocks.length + 1) (some (nc.set v.size_ (some elem)))).cells
          (s.heap.blocks.length + 1) = some (nc.set v.size_ (some elem)) := by
        rw [cells_put h3 _ _ _ (by omega) hl3le]; simp
      have hbv := backs_valid (State.mk
          (h3.put (s.heap.blocks.length + 1) (some (nc.set v.size_ (some elem))))
          (s.objs.set a ⟨s.heap.blocks.length + 1, v.size_ + 1, 2 * v.capacity_ + 1⟩))
        (nc.set v.size_ (some elem)) hobj (by simp; omega) (by simpa using hf1)
        ⟨by simp [hncl], Or.inr ⟨by simp, hcf⟩⟩
      refine ⟨hbv.1, ?_, ⟨?_, ?_⟩, ?_, Or.inr (by simp), ?_⟩
      · rw [helems]
        simp only [elems, hobj, hbv.2]
        rw [take_set_succ nc v.size_ (some elem) (by omega), ← hnc,
          copyCells_take _ _ _ (by omega) (by simp; omega)]
      · intro b hb
        simp only
        rw [List.getElem?_set_ne (fun e => hb e.symm)]
      · intro p cs hp hnot
        have hpd : p ≠ v.data_ := hnot v hv
        have hple : p ≤ s.heap.blocks.length := (cells_some hp).2.1
        simp only
        rw [cells_put h3 _ p _ (by omega) hl3le, hc3 p hpd, hc2]
        have : p ≠ s.heap.blocks.length + 1 := by omega
        simp [this, hp]
      · simp only [put_room]
        rw [hr3, put_room, hr1]
        omega
      · simp only [put_length]
        omega
  · -- there is a spare slot: store in place
    have hlt : v.size_ < v.capacity_ := by omega
    have hsize1 : (v.size_ + 1) % SIZE_MOD = v.size_ + 1 := Nat.mod_eq_of_lt (by omega)
    have hne : v.size_ ≠ v.capacity_ := by omega
    rcases hcase with ⟨_, hnil⟩ | ⟨hd0, hc⟩
    · rw [hnil] at hlen; simp at hlen; omega
    · obtain ⟨_, hdle, _⟩ := cells_some hc
      have hstore := store_eq hc v.size_ (by omega) (some elem)
      refine ⟨State.mk (s.heap.put v.data_ (some ((buffer s a).set v.size_ (some elem))))
          (s.objs.set a ⟨v.data_, v.size_ + 1, v.capacity_⟩),
        ⟨v.data_, v.size_ + 1, v.capacity_⟩, ?_, rfl, rfl, by simp [hne], ?_⟩
      · simp only [PushBack, hv, hfull, if_false, PushBack_store, hstore, hsize1]
      · have hobj : (s.objs.set a ⟨v.data_, v.size_ + 1, v.capacity_⟩)[a]?
            = some ⟨v.data_, v.size_ + 1, v.capacity_⟩ := by
          simp [ha]
        have hcf : (s.heap.put v.data_ (some ((buffer s a).set v.size_ (some elem)))).cells v.data_
            = some ((buffer s a).set v.size_ (some elem)) := by
          rw [cells_put s.heap _ _ _ hd0 hdle]; simp
        have hbv := backs_valid (State.mk
            (s.heap.put v.data_ (some ((buffer s a).set v.size_ (some elem))))
            (s.objs.set a ⟨v.data_, v.size_ + 1, v.capacity_⟩))
          ((buffer s a).set v.size_ (some elem)) hobj (by simp; omega) (by simpa using hmax)
          ⟨by simp [hlen], Or.inr ⟨hd0, hcf⟩⟩
        refine ⟨hbv.1, ?_, ⟨?_, ?_⟩, ?_, Or.inl rfl, ?_⟩
        · rw [helems]
          simp only [elems, hobj, hbv.2]
          rw [take_set_succ _ v.size_ (some elem) (by omega)]
        · intro b hb
          simp only
          rw [List.getElem?_set_ne (fun e => hb e.symm)]
        · intro p cs hp hnot
          have hpd : p ≠ v.data_ := hnot v hv
          simp only
          rw [cells_put s.heap _ p _ hd0 hdle]
          simp [hpd, hp]
        · simp [put_room]
        · simp [put_length]

/-! ## Observations of a valid object -/

theorem Size_eq {T : Type} {s : State T} {a : Nat} {v : Vector} (hv : s.objs[a]? = some v) :
    Size s a = some v.size_ := by
  simp [Size, hv]

theorem Capacity_eq {T : Type} {s : State T} {a : Nat} {v : Vector} (hv : s.objs[a]? = some v) :
    Capacity s a = some v.capacity_ := by
  simp [Capacity, hv]

theorem index_buffer {T : Type} {s : State T} {a : Nat} {v : Vector}
    (hv : s.objs[a]? = some v) (hval : Valid s a) (i : Nat) :
    index s a (i : Int) = (buffer s a)[i]? := by
  obtain ⟨_, _, hlen, hcase⟩ := valid_backs hv hval
  have hneg : ¬ ((i : Int) < 0) := by omega
  simp only [index, hv, hneg, if_false, Int.toNat_ofNat]
  rcases hcase with ⟨h0, hnil⟩ | ⟨_, hc⟩
  · rw [h0, hnil]; simp [load_null]
  · rw [load_eq hc]

theorem index_elems {T : Type} {s : State T} {a : Nat} {v : Vector}
    (hv : s.objs[a]? = some v) (hval : Valid s a) (i : Nat) (hi : i < v.size_) :
    index s a (i : Int) = (elems s a)[i]? := by
  rw [index_buffer hv hval]
  simp only [elems, hv]
  rw [List.getElem?_take_of_lt hi]

theorem elems_length {T : Type} {s : State T} {a : Nat} {v : Vector}
    (hv : s.objs[a]? = some v) (hval : Valid s a) : (elems s a).length = v.size_ := by
  obtain ⟨hsz, _, hlen, _⟩ := valid_backs hv hval
  simp only [elems, hv, List.length_take]
  omega

/-! ## Sequences of appends -/

theorem capAfter_succ (n : Nat) : ∀ size cap : Nat,
    capAfter size cap (n + 1) = growStep (size + n) (capAfter size cap n) := by
  induction n with
  | zero => intro size cap; rfl
  | succ n ih =>
    intro size cap
    have e : size + (n + 1) = size + 1 + n := by omega
    rw [capAfter, ih (size + 1) (growStep size cap), e]
    rfl

theorem capAfter_zero (n : Nat) : capAfter 0 0 n = refCapacity n := by
  induction n with
  | zero => rfl
  | succ n ih => rw [capAfter_succ, ih, Nat.zero_add]; rfl

theorem pushAll_spec {T : Type} (a : Nat) (xs : List T) :
    ∀ (s : State T) (v : Vector), s.objs[a]? = some v → Valid s a →
      3 * (v.size_ + xs.length) ≤ s.heap.room + v.capacity_ →
      2 * (v.size_ + xs.length) ≤ MAX_ALLOC →
      ∃ s1 v1, pushAll s a xs = .ok s1 ∧ s1.objs[a]? = some v1 ∧ Valid s1 a ∧
        v1.size_ = v.size_ + xs.length ∧
        v1.capacity_ = capAfter v.size_ v.capacity_ xs.length ∧
        elems s1 a = elems s a ++ xs.map some := by
  induction xs with
  | nil =>
    intro s v hv hval _ _
    exact ⟨s, v, rfl, hv, hval, rfl, rfl, by simp⟩
  | cons x xs ih =>
    intro s v hv hval hroom hmax
    have ha : a < s.objs.length := (List.getElem?_eq_some_iff.mp hv).1
    obtain ⟨hsz, _, _⟩ := valid_backs hv hval
    simp only [List.length_cons] at hroom hmax
    obtain ⟨s1, v1, hpush, hobjs, hsize, hcap, hval1, hel, _, hr, _, _⟩ :=
      PushBack_spec s a v x hv hval (by intro heq; omega)
    have hv1 : s1.objs[a]? = some v1 := by rw [hobjs]; simp [ha]
    have hcap1 : v1.capacity_ = growStep v.size_ v.capacity_ := by rw [hcap]; rfl
    obtain ⟨s2, v2, hall, hv2, hval2, hsize2, hcap2, hel2⟩ :=
      ih s1 v1 hv1 hval1 (by rw [hsize]; omega) (by rw [hsize]; omega)
    refine ⟨s2, v2, ?_, hv2, hval2, ?_, ?_, ?_⟩
    · simp only [pushAll, hpush, hall]
    · rw [hsize2, hsize, List.length_cons]; omega
    · rw [hcap2, hsize, hcap1, List.length_cons]; rfl
    · rw [hel2, hel]; simp

/-! ## Appending to an empty container -/

theorem default_valid {T : Type} (s : State T) :
    (State.mk s.heap (s.objs ++ [⟨0, 0, 0⟩])).objs[s.objs.length]? = some ⟨0, 0, 0⟩ ∧
      Valid (State.mk s.heap (s.objs ++ [⟨0, 0, 0⟩])) s.objs.length ∧
      elems (State.mk s.heap (s.objs ++ [⟨0, 0, 0⟩])) s.objs.length = [] := by
  have h : (s.objs ++ [(⟨0, 0, 0⟩ : Vector)])[s.objs.length]? = some ⟨0, 0, 0⟩ := by simp
  refine ⟨h, ?_, ?_⟩
  · simp [Valid, h]
  · simp [elems, h]

/-- C1: for every list `xs`, default construction followed by `PushBack` of each
element of `xs` in order returns normally (given an allocator with room for the
reallocations), and then `Size()` is the length of `xs` and the element at every
index `i` below it is `xs[i]`. -/
theorem C1_pushAll_size_and_elements {T : Type} (s : State T) (xs : List T)
    (hroom : 3 * xs.length ≤ s.heap.room) (hmax : 2 * xs.length ≤ MAX_ALLOC) :
    ∃ s0 s1, Vector_default s = .ok s0 ∧ pushAll s0 s.objs.length xs = .ok s1 ∧
      Size s1 s.objs.length = some xs.length ∧
      ∀ (i : Nat) (hi : i < xs.length), index s1 s.objs.length (i : Int) = some (some xs[i]) := by
  obtain ⟨hv0, hval0, hel0⟩ := default_valid s
  obtain ⟨s1, v1, hall, hv1, hval1, hsize, _, hel⟩ :=
    pushAll_spec s.objs.length xs _ _ hv0 hval0 (by simpa using hroom) (by simpa using hmax)
  refine ⟨_, s1, rfl, hall, ?_, ?_⟩
  · rw [Size_eq hv1, hsize]; simp
  · intro i hi
    rw [index_elems hv1 hval1 i (by rw [hsize]; simpa using hi), hel, hel0]
    simp [hi]

theorem C1_witness :
    (3 * demoValues.length ≤ demoState.heap.room ∧ 2 * demoValues.length ≤ MAX_ALLOC) ∧
    ∃ s0 s1, Vector_default demoState = .ok s0 ∧
      pushAll s0 demoState.objs.length demoValues = .ok s1 ∧
      Size s1 demoState.objs.length = some demoValues.length ∧
      ∀ (i : Nat) (hi : i < demoValues.length),
        index s1 demoState.objs.length (i : Int) = some (some demoValues[i]) :=
  ⟨⟨by decide, by decide⟩,
    C1_pushAll_size_and_elements demoState demoValues (by decide) (by decide)⟩

/-- C2: after `k` consecutive `PushBack` calls on a default-constructed container
(`k` the length of `xs`), `Capacity()` is the value of the reference recurrence
(`cap` starts at `0` and becomes `2 * cap + 1` exactly when `size == cap` before an
append); for 1 to 8 appends that recurrence gives 1, 3, 3, 7, 7, 7, 7, 15. -/
theorem C2_capacity_follows_recurrence {T : Type} (s : State T) (xs : List T)
    (hroom : 3 * xs.length ≤ s.heap.room) (hmax : 2 * xs.length ≤ MAX_ALLOC) :
    (∃ s0 s1, Vector_default s = .ok s0 ∧ pushAll s0 s.objs.length xs = .ok s1 ∧
      Capacity s1 s.objs.length = some (refCapacity xs.length)) ∧
    List.map refCapacity [1, 2, 3, 4, 5, 6, 7, 8] = [1, 3, 3, 7, 7, 7, 7, 15] := by
  obtain ⟨hv0, hval0, _⟩ := default_valid s
  obtain ⟨s1, v1, hall, hv1, _, _, hcap, _⟩ :=
    pushAll_spec s.objs.length xs _ _ hv0 hval0 (by simpa using hroom) (by simpa using hmax)
  refine ⟨⟨_, s1, rfl, hall, ?_⟩, by decide⟩
  rw [Capacity_eq hv1, hcap]
  exact congrArg some (capAfter_zero xs.length)

theorem C2_witness :
    (3 * (demoValues ++ [5, 6, 7]).length ≤ demoState.heap.room ∧
      2 * (demoValues ++ [5, 6, 7]).length ≤ MAX_ALLOC) ∧
    ((∃ s0 s1, Vector_default demoState = .ok s0 ∧
      pushAll s0 demoState.objs.length (demoValues ++ [5, 6, 7]) = .ok s1 ∧
      Capacity s1 demoState.objs.length = some (refCapacity (demoValues ++ [5, 6, 7]).length)) ∧
    List.map refCapacity [1, 2, 3, 4, 5, 6, 7, 8] = [1, 3, 3, 7, 7, 7, 7, 15]) ∧
    List.map
      (fun k =>
        match pushAll (State.mk demoState.heap [⟨0, 0, 0⟩]) 0 (List.replicate k (0 : Int)) with
        | .ok s1 => Capacity s1 0
        | _ => none)
      [1, 2, 3, 4, 5, 6, 7, 8]
      = [some 1, some 3, some 3, some 7, some 7, some 7, some 7, some 15] :=
  ⟨⟨by decide, by decide⟩,
    C2_capacity_follows_recurrence demoState (demoValues ++ [5, 6, 7]) (by decide) (by decide),
    by decide⟩

/-! ## Frame reasoning -/

theorem valid_obj {T : Type} {s : State T} {a : Nat} (hval : Valid s a) :
    ∃ v, s.objs[a]? = some v := by
  unfold Valid at hval
  rcases h : s.objs[a]? with _ | v
  · simp [h] at hval
  · exact ⟨v, rfl⟩

theorem valid_data_le {T : Type} {s : State T} {a : Nat} {v : Vector}
    (hv : s.objs[a]? = some v) (hval : Valid s a) : v.data_ ≤ s.heap.blocks.length := by
  obtain ⟨_, _, _, ⟨h0, _⟩ | ⟨_, hc⟩⟩ := valid_backs hv hval
  · omega
  · exact (cells_some hc).2.1

theorem disjoint_symm {T : Type} {s : State T} {a b : Nat} (hd : Disjoint s a b) :
    Disjoint s b a := by
  obtain ⟨hne, hm⟩ := hd
  refine ⟨fun e => hne e.symm, ?_⟩
  rcases ha : s.objs[a]? with _ | v <;> rcases hb : s.objs[b]? with _ | w <;>
    simp only [ha, hb] at hm ⊢
  intro e
  rw [e]
  exact hm e.symm

theorem confined_frame {T : Type} {s s1 : State T} {a b : Nat}
    (hc : Confined s s1 a) (hd : Disjoint s a b) (hval : Valid s b) :
    Valid s1 b ∧ SameView s s1 b ∧ s1.objs[b]? = s.objs[b]? ∧ buffer s1 b = buffer s b := by
  obtain ⟨w, hw⟩ := valid_obj hval
  obtain ⟨hne, hm⟩ := hd
  have hobj : s1.objs[b]? = s.objs[b]? := hc.1 b (fun e => hne e.symm)
  have hcells : s1.heap.cells w.data_ = s.heap.cells w.data_ := by
    obtain ⟨_, _, _, ⟨h0, _⟩ | ⟨hn0, hcs⟩⟩ := valid_backs hw hval
    · rw [h0, cells_zero, cells_zero]
    · rw [hcs]
      apply hc.2 _ _ hcs
      intro v hv e
      simp only [hv, hw] at hm
      exact hn0 (e ▸ hm e.symm)
  refine ⟨?_, ⟨?_, ?_, ?_⟩, hobj, ?_⟩
  · simp only [Valid, hobj, hw, hcells]
    simpa only [Valid, hw] using hval
  · simp [Size, hobj]
  · simp [Capacity, hobj]
  · intro i
    simp only [index, hobj, hw, Heap.load, hcells]
  · simp only [buffer, hobj, hw, hcells]

/-! ## Indexed write -/

theorem index_assign_spec {T : Type} (s : State T) (a : Nat) (v : Vector) (i : Int) (x : T)
    (hv : s.objs[a]? = some v) (hval : Valid s a) (h0 : 0 ≤ i) (hi : i.toNat < v.capacity_) :
    ∃ s1, index_assign s a i x = .ok s1 ∧ s1.objs = s.objs ∧ Valid s1 a ∧ Confined s s1 a ∧
      buffer s1 a = (buffer s a).set i.toNat (some x) ∧ s1.heap.room = s.heap.room ∧
      s1.heap.blocks.length = s.heap.blocks.length := by
  obtain ⟨hsz, hmax, hlen, hcase⟩ := valid_backs hv hval
  rcases hcase with ⟨_, hnil⟩ | ⟨hd0, hc⟩
  · rw [hnil] at hlen; simp at hlen; omega
  · obtain ⟨_, hdle, _⟩ := cells_some hc
    have hneg : ¬ (i < 0) := by omega
    have hstore := store_eq hc i.toNat (by omega) (some x)
    have hcf : (s.heap.put v.data_ (some ((buffer s a).set i.toNat (some x)))).cells v.data_
        = some ((buffer s a).set i.toNat (some x)) := by
      rw [cells_put s.heap _ _ _ hd0 hdle]; simp
    have hbv := backs_valid (State.mk
        (s.heap.put v.data_ (some ((buffer s a).set i.toNat (some x)))) s.objs)
      ((buffer s a).set i.toNat (some x)) hv hsz hmax ⟨by simp [hlen], Or.inr ⟨hd0, hcf⟩⟩
    refine ⟨State.mk (s.heap.put v.data_ (some ((buffer s a).set i.toNat (some x)))) s.objs,
      ?_, rfl, hbv.1, ⟨fun _ _ => rfl, ?_⟩, hbv.2, rfl, by simp [put_length]⟩
    · simp only [index_assign, hv, hneg, if_false, hstore]
    · intro p cs hp hnot
      have hpd : p ≠ v.data_ := hnot v hv
      simp only
      rw [cells_put s.heap _ p _ hd0 hdle]
      simp [hpd, hp]

/-! ## Sequences of mutations -/

theorem store_some {T : Type} {h h1 : Heap T} {p i : Nat} {c : Cell T}
    (hs : h.store p i c = some h1) : ∃ cs, h.cells p = some cs ∧ i < cs.length := by
  cases p with
  | zero => simp [Heap.store] at hs
  | succ q =>
    rcases hq : h.blocks[q]? with _ | (_ | cs)
    · simp [Heap.store, hq] at hs
    · simp [Heap.store, hq] at hs
    · refine ⟨cs, by rw [cells_succ, hq]; rfl, ?_⟩
      by_contra hlt
      simp [Heap.store, hq, hlt] at hs

theorem index_assign_ok {T : Type} {s s1 : State T} {a : Nat} {v : Vector} {i : Int} {x : T}
    (hv : s.objs[a]? = some v) (hval : Valid s a) (hw : index_assign s a i x = .ok s1) :
    0 ≤ i ∧ i.toNat < v.capacity_ := by
  obtain ⟨_, _, hlen, hcase⟩ := valid_backs hv hval
  by_cases hneg : i < 0
  · simp [index_assign, hv, hneg] at hw
  · refine ⟨by omega, ?_⟩
    simp only [index_assign, hv, hneg, if_false] at hw
    rcases hst : s.heap.store v.data_ i.toNat (some x) with _ | h1
    · simp [hst] at hw
    · obtain ⟨cs, hcs, hlt⟩ := store_some hst
      rcases hcase with ⟨h0, _⟩ | ⟨_, hc⟩
      · rw [h0, cells_zero] at hcs; cases hcs
      · rw [hc] at hcs
        cases hcs
        omega

theorem PushBack_ok_fit {T : Type} {s s1 : State T} {a : Nat} {v : Vector} {x : T}
    (hv : s.objs[a]? = some v) (hval : Valid s a) (hp : PushBack s a x = .ok s1) :
    v.size_ = v.capacity_ →
      2 * v.capacity_ + 1 ≤ MAX_ALLOC ∧ 2 * v.capacity_ + 1 ≤ s.heap.room := by
  intro heq
  obtain ⟨_, hmax, _⟩ := valid_backs hv hval
  have hM := max_alloc_lt
  have hfull : v.capacity_ ≤ v.size_ := by omega
  have hcap : (v.capacity_ * 2 + 1) % SIZE_MOD = 2 * v.capacity_ + 1 := by
    rw [Nat.mod_eq_of_lt (by unfold MAX_ALLOC SIZE_MOD at *; omega)]; omega
  by_contra hno
  have halloc : s.heap.alloc (2 * v.capacity_ + 1) (none : Cell T) = none := by
    simp only [Heap.alloc, hno, if_false]
  simp [PushBack, hv, hfull, hcap, halloc] at hp

theorem sameView_trans {T : Type} {s s1 s2 : State T} {b : Nat}
    (h1 : SameView s s1 b) (h2 : SameView s1 s2 b) : SameView s s2 b :=
  ⟨h2.1.trans h1.1, h2.2.1.trans h1.2.1, fun i => (h2.2.2 i).trans (h1.2.2 i)⟩

theorem mutate_step {T : Type} {s s1 : State T} {a b : Nat} (m : Mutation T)
    (hvalA : Valid s a) (hvalB : Valid s b) (hdis : Disjoint s a b)
    (hm : mutate s a m = .ok s1) :
    Valid s1 a ∧ Valid s1 b ∧ Disjoint s1 a b ∧ SameView s s1 b := by
  obtain ⟨v, hv⟩ := valid_obj hvalA
  obtain ⟨w, hw⟩ := valid_obj hvalB
  have ha : a < s.objs.length := (List.getElem?_eq_some_iff.mp hv).1
  have hwle := valid_data_le hw hvalB
  cases m with
  | write i x =>
    obtain ⟨h0, hi⟩ := index_assign_ok hv hvalA hm
    obtain ⟨s2, hw2, hobjs, hval2, hc2, _⟩ := index_assign_spec s a v i x hv hvalA h0 hi
    have e : s1 = s2 := by
      have := hm.symm.trans hw2
      cases this
      rfl
    subst e
    obtain ⟨hvB, hsame, _, _⟩ := confined_frame hc2 hdis hvalB
    refine ⟨hval2, hvB, ⟨hdis.1, ?_⟩, hsame⟩
    have := hdis.2
    rw [hobjs]
    exact this
  | push x =>
    obtain ⟨s2, v2, hp2, hobjs, _, _, hval2, _, hc2, _, hdata, _⟩ :=
      PushBack_spec s a v x hv hvalA (PushBack_ok_fit hv hvalA hm)
    have e : s1 = s2 := by
      have := hm.symm.trans hp2
      cases this
      rfl
    subst e
    obtain ⟨hvB, hsame, hobjB, _⟩ := confined_frame hc2 hdis hvalB
    have hv2 : s1.objs[a]? = some v2 := by rw [hobjs]; simp [ha]
    refine ⟨hval2, hvB, ⟨hdis.1, ?_⟩, hsame⟩
    have hd := hdis.2
    simp only [hv, hw] at hd
    simp only [hv2, hobjB, hw]
    intro e
    rcases hdata with h1 | h1
    · rw [h1]; exact hd (h1 ▸ e)
    · omega

theorem mutateAll_frame {T : Type} (a b : Nat) (ms : List (Mutation T)) :
    ∀ s s1 : State T, Valid s a → Valid s b → Disjoint s a b →
      mutateAll s a ms = .ok s1 → SameView s s1 b := by
  induction ms with
  | nil =>
    intro s s1 _ _ _ h
    simp only [mutateAll] at h
    cases h
    exact ⟨rfl, rfl, fun _ => rfl⟩
  | cons m ms ih =>
    intro s s1 hvalA hvalB hdis h
    rcases hm : mutate s a m with s2 | s2 | _
    · simp only [mutateAll, hm] at h
      obtain ⟨hA, hB, hD, hS⟩ := mutate_step m hvalA hvalB hdis hm
      exact sameView_trans hS (ih s2 s1 hA hB hD h)
    · simp [mutateAll, hm] at h
    · simp [mutateAll, hm] at h

/-! ## The copy constructor -/

theorem Vector_copy_spec {T : Type} [Inhabited T] (s : State T) (a : Nat) (v : Vector)
    (hv : s.objs[a]? = some v) (hval : Valid s a) (hroom : v.size_ ≤ s.heap.room) :
    ∃ s1, Vector_copy s a = .ok s1 ∧
      s1.objs = s.objs ++ [⟨s.heap.blocks.length + 1, v.size_, v.size_⟩] ∧
      Valid s1 s.objs.length ∧ buffer s1 s.objs.length = elems s a ∧
      Confined s s1 s.objs.length ∧ s1.heap.room = s.heap.room - v.size_ ∧
      s1.heap.blocks.length = s.heap.blocks.length + 1 := by
  obtain ⟨hsz, hmax, hlen, hcase⟩ := valid_backs hv hval
  have helems : elems s a = (buffer s a).take v.size_ := by simp [elems, hv]
  have halloc := alloc_eq s.heap (some (default : T)) (Nat.le_trans hsz hmax) hroom
  generalize hh1 : (Heap.mk (s.heap.blocks ++ [some (List.replicate v.size_ (some default))])
    (s.heap.room - v.size_) : Heap T) = h1 at halloc
  have hc1 : ∀ q, h1.cells q = if q = s.heap.blocks.length + 1
      then some (List.replicate v.size_ (some default)) else s.heap.cells q := by
    intro q
    rw [← hh1, cells_snoc s.heap.blocks _ s.heap.room]
  have hl1 : h1.blocks.length = s.heap.blocks.length + 1 := by rw [← hh1]; simp
  have hr1 : h1.room = s.heap.room - v.size_ := by rw [← hh1]
  have hfresh : h1.cells (s.heap.blocks.length + 1)
      = some (List.replicate v.size_ (some default)) := by rw [hc1]; simp
  have hdata_ne : s.heap.blocks.length + 1 ≠ v.data_ := by
    have := valid_data_le hv hval
    omega
  have hcopy := copyLoop_zero h1 (s.heap.blocks.length + 1) v.data_ _ (buffer s a)
    v.size_ hfresh (by simp)
    (by
      rcases hcase with ⟨h0, hnil⟩ | ⟨_, hc⟩
      · left; rw [hnil] at hlen; simp at hlen; omega
      · right
        refine ⟨?_, by omega, hdata_ne⟩
        rw [hc1]; simp [hdata_ne.symm, hc])
  have hnc : copyCells (List.replicate v.size_ (some default)) (buffer s a) 0 v.size_
      = elems s a := by
    have h1 := copyCells_take (List.replicate v.size_ (some (default : T))) (buffer s a) v.size_
      (by omega) (by simp)
    rw [List.take_of_length_le (by rw [copyCells_length]; simp)] at h1
    rw [h1, helems]
  rw [hnc] at hcopy
  have hobj : (s.objs ++ [(⟨s.heap.blocks.length + 1, v.size_, v.size_⟩ : Vector)])[s.objs.length]?
      = some ⟨s.heap.blocks.length + 1, v.size_, v.size_⟩ := by simp
  have hcf : (h1.put (s.heap.blocks.length + 1) (some (elems s a))).cells
      (s.heap.blocks.length + 1) = some (elems s a) := by
    rw [cells_put h1 _ _ _ (by omega) (by omega)]; simp
  have hbv := backs_valid (State.mk (h1.put (s.heap.blocks.length + 1) (some (elems s a)))
      (s.objs ++ [⟨s.heap.blocks.length + 1, v.size_, v.size_⟩])) (elems s a) hobj
    (Nat.le_refl _) (Nat.le_trans hsz hmax)
    ⟨by simpa using elems_length hv hval, Or.inr ⟨by simp, hcf⟩⟩
  refine ⟨State.mk (h1.put (s.heap.blocks.length + 1) (some (elems s a)))
      (s.objs ++ [⟨s.heap.blocks.length + 1, v.size_, v.size_⟩]),
    ?_, rfl, hbv.1, hbv.2, ⟨?_, ?_⟩, by simp [put_room, hr1], by simp [put_length, hl1]⟩
  · simp only [Vector_copy, hv, halloc, hcopy]
  · intro b hb
    simp only
    by_cases hlt : b < s.objs.length
    · rw [List.getElem?_append_left hlt]
    · rw [List.getElem?_eq_none (by simp; omega), List.getElem?_eq_none (by omega)]
  · intro p cs hp _
    have hple : p ≤ s.heap.blocks.length := (cells_some hp).2.1
    have hpn : p ≠ s.heap.blocks.length + 1 := by omega
    simp only
    rw [cells_put h1 _ p _ (by omega) (by omega), hc1]
    simp [hpn, hp]

theorem disjoint_new {T : Type} (s : State T) (a : Nat) (ha : a < s.objs.length) :
    Disjoint s s.objs.length a := by
  refine ⟨by omega, ?_⟩
  have : s.objs[s.objs.length]? = none := List.getElem?_eq_none (Nat.le_refl _)
  simp [this]

/-- C3: the copy constructor, applied to any source object that satisfies the
data-model invariant (with room for `size_` elements in the allocator), returns
normally with a new object whose `Size()` and `Capacity()` both equal the size
of the source, whatever spare capacity the source held, and whose element at
every index below that size is the element of the source at that index. -/
theorem C3_copy_constructor {T : Type} [Inhabited T] (s : State T) (src : Nat) (v : Vector)
    (hv : s.objs[src]? = some v) (hval : Valid s src) (hroom : v.size_ ≤ s.heap.room) :
    ∃ s1, Vector_copy s src = .ok s1 ∧
      Size s1 s.objs.length = some v.size_ ∧ Capacity s1 s.objs.length = some v.size_ ∧
      ∀ i : Nat, i < v.size_ → index s1 s.objs.length (i : Int) = index s src (i : Int) := by
  obtain ⟨s1, hcopy, hobjs, hval1, hbuf, _, _, _⟩ := Vector_copy_spec s src v hv hval hroom
  have hobj : s1.objs[s.objs.length]? = some ⟨s.heap.blocks.length + 1, v.size_, v.size_⟩ := by
    rw [hobjs]; simp
  refine ⟨s1, hcopy, by rw [Size_eq hobj], by rw [Capacity_eq hobj], ?_⟩
  intro i hi
  rw [index_buffer hobj hval1, hbuf, index_elems hv hval i hi]

theorem demoFive_reached :
    pushAll (State.mk demoState.heap [⟨0, 0, 0⟩]) 0 demoValues = .ok demoFive := by
  decide

theorem C3_witness :
    (demoFive.objs[0]? = some ⟨3, 5, 7⟩ ∧ Valid demoFive 0 ∧ 5 ≤ demoFive.heap.room) ∧
    ∃ s1, Vector_copy demoFive 0 = .ok s1 ∧
      Size s1 demoFive.objs.length = some 5 ∧ Capacity s1 demoFive.objs.length = some 5 ∧
      ∀ i : Nat, i < 5 → index s1 demoFive.objs.length (i : Int) = index demoFive 0 (i : Int) :=
  ⟨⟨by decide, by decide, by decide⟩,
    C3_copy_constructor demoFive 0 ⟨3, 5, 7⟩ (by decide) (by decide) (by decide)⟩

theorem copy_disjoint {T : Type} {s s1 : State T} {a : Nat} {v w : Vector}
    (hv : s.objs[a]? = some v) (hval : Valid s a)
    (hv1 : s1.objs[a]? = some v) (hw1 : s1.objs[s.objs.length]? = some w)
    (hw : s.heap.blocks.length < w.data_) : Disjoint s1 a s.objs.length := by
  have ha : a < s.objs.length := (List.getElem?_eq_some_iff.mp hv).1
  have hle := valid_data_le hv hval
  refine ⟨by omega, ?_⟩
  simp only [hv1, hw1]
  intro e
  omega

/-- C4: copy independence.  When `B` is copy-constructed from a valid object `A`,
then in the resulting state an indexed write `A[i] = x` (`0 ≤ i < size`) and a
`PushBack` on `A` (with room to grow) return normally and leave `Size()`,
`Capacity()` and the element at every index of `B` unchanged; symmetrically, an
indexed write to `B` and a `PushBack` on `B` leave `A` unchanged.  The same holds
for every finite sequence of indexed writes and appends applied to one of the two
objects that runs to completion. -/
theorem C4_copy_independence {T : Type} [Inhabited T] (s : State T) (a : Nat) (v : Vector)
    (hv : s.objs[a]? = some v) (hval : Valid s a) (hroom : v.size_ ≤ s.heap.room) :
    ∃ s1, Vector_copy s a = .ok s1 ∧
      (∀ (i : Int) (x : T), 0 ≤ i → i < (v.size_ : Int) →
        ∃ s2, index_assign s1 a i x = .ok s2 ∧ SameView s1 s2 s.objs.length) ∧
      (∀ x : T, (v.size_ = v.capacity_ →
          2 * v.capacity_ + 1 ≤ MAX_ALLOC ∧ 2 * v.capacity_ + 1 ≤ s1.heap.room) →
        ∃ s2, PushBack s1 a x = .ok s2 ∧ SameView s1 s2 s.objs.length) ∧
      (∀ (i : Int) (x : T), 0 ≤ i → i < (v.size_ : Int) →
        ∃ s2, index_assign s1 s.objs.length i x = .ok s2 ∧ SameView s1 s2 a) ∧
      (∀ x : T, 2 * v.size_ + 1 ≤ MAX_ALLOC ∧ 2 * v.size_ + 1 ≤ s1.heap.room →
        ∃ s2, PushBack s1 s.objs.length x = .ok s2 ∧ SameView s1 s2 a) ∧
      (∀ (ms : List (Mutation T)) (s2 : State T),
        mutateAll s1 a ms = .ok s2 → SameView s1 s2 s.objs.length) ∧
      (∀ (ms : List (Mutation T)) (s2 : State T),
        mutateAll s1 s.objs.length ms = .ok s2 → SameView s1 s2 a) := by
  obtain ⟨hsz, _, _⟩ := valid_backs hv hval
  have ha : a < s.objs.length := (List.getElem?_eq_some_iff.mp hv).1
  obtain ⟨s1, hcopy, hobjs, hvalB, _, hconf, _, _⟩ := Vector_copy_spec s a v hv hval hroom
  have hobjB : s1.objs[s.objs.length]? = some ⟨s.heap.blocks.length + 1, v.size_, v.size_⟩ := by
    rw [hobjs]; simp
  obtain ⟨hvalA, _, hobjA0, _⟩ := confined_frame hconf (disjoint_new s a ha) hval
  have hobjA : s1.objs[a]? = some v := by rw [hobjA0, hv]
  have hdis : Disjoint s1 a s.objs.length :=
    copy_disjoint hv hval hobjA hobjB (Nat.lt_succ_self _)
  refine ⟨s1, hcopy, ?_, ?_, ?_, ?_,
    fun ms s2 h => mutateAll_frame a s.objs.length ms s1 s2 hvalA hvalB hdis h,
    fun ms s2 h => mutateAll_frame s.objs.length a ms s1 s2 hvalB hvalA (disjoint_symm hdis) h⟩
  · intro i x h0 hi
    obtain ⟨s2, hw, _, _, hc2, _⟩ :=
      index_assign_spec s1 a v i x hobjA hvalA h0 (by omega)
    exact ⟨s2, hw, (confined_frame hc2 hdis hvalB).2.1⟩
  · intro x hfit
    obtain ⟨s2, _, hp, _, _, _, _, _, hc2, _⟩ := PushBack_spec s1 a v x hobjA hvalA hfit
    exact ⟨s2, hp, (confined_frame hc2 hdis hvalB).2.1⟩
  · intro i x h0 hi
    obtain ⟨s2, hw, _, _, hc2, _⟩ :=
      index_assign_spec s1 s.objs.length _ i x hobjB hvalB h0 (by simp; omega)
    exact ⟨s2, hw, (confined_frame hc2 (disjoint_symm hdis) hvalA).2.1⟩
  · intro x hfit
    obtain ⟨s2, _, hp, _, _, _, _, _, hc2, _⟩ :=
      PushBack_spec s1 s.objs.length _ x hobjB hvalB (fun _ => hfit)
    exact ⟨s2, hp, (confined_frame hc2 (disjoint_symm hdis) hvalA).2.1⟩

/-! ## Copy assignment -/

theorem operator_assign_spec (s : State Int) (a b : Nat) (v r : Vector) (hne : b ≠ a)
    (hv : s.objs[a]? = some v) (hr : s.objs[b]? = some r)
    (hvalA : Valid s a) (hvalB : Valid s b) (hdis : Disjoint s a b)
    (hroom : r.size_ ≤ s.heap.room + v.capacity_) :
    ∃ s1, operator_assign s a b = .ok s1 ∧
      s1.objs = s.objs.set a ⟨s.heap.blocks.length + 1, r.size_, r.size_⟩ ∧
      Valid s1 a ∧ buffer s1 a = elems s b ∧ Confined s s1 a ∧
      s1.heap.room + r.size_ = s.heap.room + v.capacity_ ∧
      s1.heap.blocks.length = s.heap.blocks.length + 1 := by
  obtain ⟨_, _, hbA⟩ := valid_backs hv hvalA
  obtain ⟨hszB, hmaxB, hlenB, hcaseB⟩ := valid_backs hr hvalB
  have ha : a < s.objs.length := (List.getElem?_eq_some_iff.mp hv).1
  have helems : elems s b = (buffer s b).take r.size_ := by simp [elems, hr]
  have hdleA := valid_data_le hv hvalA
  have hdleB := valid_data_le hr hvalB
  -- the release of the old buffer
  obtain ⟨h1, hfree, hr1, hl1, hc1⟩ := free_backs hbA
  -- the allocation of the replacement
  have halloc := alloc_eq h1 (some (0 : Int)) (Nat.le_trans hszB hmaxB) (by omega)
  rw [hl1] at halloc
  generalize hh2 : (Heap.mk (h1.blocks ++ [some (List.replicate r.size_ (some (0 : Int)))])
    (h1.room - r.size_) : Heap Int) = h2 at halloc
  have hc2 : ∀ q, h2.cells q = if q = s.heap.blocks.length + 1
      then some (List.replicate r.size_ (some 0)) else h1.cells q := by
    intro q
    rw [← hh2, cells_snoc h1.blocks _ h1.room, hl1]
  have hl2 : h2.blocks.length = s.heap.blocks.length + 1 := by rw [← hh2]; simp [hl1]
  have hr2 : h2.room = h1.room - r.size_ := by rw [← hh2]
  have hfresh : h2.cells (s.heap.blocks.length + 1)
      = some (List.replicate r.size_ (some 0)) := by rw [hc2]; simp
  have hfresh_ne : s.heap.blocks.length + 1 ≠ r.data_ := by omega
  -- the copy loop
  have hcopy := copyLoop_zero h2 (s.heap.blocks.length + 1) r.data_ _ (buffer s b)
    r.size_ hfresh (by simp)
    (by
      rcases hcaseB with ⟨h0, hnil⟩ | ⟨hn0, hc⟩
      · left; rw [hnil] at hlenB; simp at hlenB; omega
      · right
        refine ⟨?_, by omega, hfresh_ne⟩
        have hrv : r.data_ ≠ v.data_ := by
          intro e
          have := hdis.2
          simp only [hv, hr] at this
          have h0 := this e.symm
          omega
        rw [hc2, if_neg hfresh_ne.symm, hc1 _ hrv, hc])
  have hnc : copyCells (List.replicate r.size_ (some (0 : Int))) (buffer s b) 0 r.size_
      = elems s b := by
    have h1 := copyCells_take (List.replicate r.size_ (some (0 : Int))) (buffer s b) r.size_
      (by omega) (by simp)
    rw [List.take_of_length_le (by rw [copyCells_length]; simp)] at h1
    rw [h1, helems]
  rw [hnc] at hcopy
  have hobj : (s.objs.set a ⟨s.heap.blocks.length + 1, r.size_, r.size_⟩)[a]?
      = some ⟨s.heap.blocks.length + 1, r.size_, r.size_⟩ := by simp [ha]
  have hcf : (h2.put (s.heap.blocks.length + 1) (some (elems s b))).cells
      (s.heap.blocks.length + 1) = some (elems s b) := by
    rw [cells_put h2 _ _ _ (by omega) (by omega)]; simp
  have hbv := backs_valid (State.mk (h2.put (s.heap.blocks.length + 1) (some (elems s b)))
      (s.objs.set a ⟨s.heap.blocks.length + 1, r.size_, r.size_⟩)) (elems s b) hobj
    (Nat.le_refl _) (Nat.le_trans hszB hmaxB)
    ⟨by simpa using elems_length hr hvalB, Or.inr ⟨by simp, hcf⟩⟩
  refine ⟨State.mk (h2.put (s.heap.blocks.length + 1) (some (elems s b)))
      (s.objs.set a ⟨s.heap.blocks.length + 1, r.size_, r.size_⟩),
    ?_, rfl, hbv.1, hbv.2, ⟨?_, ?_⟩, ?_, by simp [put_length, hl2]⟩
  · simp only [operator_assign, hne, if_false, hv, hr, hfree, halloc, hcopy]
  · intro c hc
    simp only
    rw [List.getElem?_set_ne (fun e => hc e.symm)]
  · intro p cs hp hnot
    have hpd : p ≠ v.data_ := hnot v hv
    have hple : p ≤ s.heap.blocks.length := (cells_some hp).2.1
    have hpn : p ≠ s.heap.blocks.length + 1 := by omega
    simp only
    rw [cells_put h2 _ p _ (by omega) (by omega), if_neg hpn, hc2, if_neg hpn, hc1 _ hpd, hp]
  · simp only [put_room]
    rw [hr2, hr1]
    omega

/-- C5: copy assignment `dst = src` between two valid objects that are different
objects owning different buffers (with room for `src.size_` elements once the old
buffer of `dst` is released) returns normally; afterwards `Size()` and
`Capacity()` of `dst` both equal the size of `src` and the element of `dst` at
every index below it is the element of `src` at that index, whatever `dst` held
before; `src` is observed unchanged. -/
theorem C5_copy_assignment (s : State Int) (dst src : Nat) (v r : Vector) (hne : src ≠ dst)
    (hv : s.objs[dst]? = some v) (hr : s.objs[src]? = some r)
    (hvalD : Valid s dst) (hvalS : Valid s src) (hdis : Disjoint s dst src)
    (hroom : r.size_ ≤ s.heap.room + v.capacity_) :
    ∃ s1, operator_assign s dst src = .ok s1 ∧
      Size s1 dst = some r.size_ ∧ Capacity s1 dst = some r.size_ ∧
      (∀ i : Nat, i < r.size_ → index s1 dst (i : Int) = index s src (i : Int)) ∧
      SameView s s1 src := by
  obtain ⟨s1, hasg, hobjs, hval1, hbuf, hconf, _, _⟩ :=
    operator_assign_spec s dst src v r hne hv hr hvalD hvalS hdis hroom
  have ha : dst < s.objs.length := (List.getElem?_eq_some_iff.mp hv).1
  have hobj : s1.objs[dst]? = some ⟨s.heap.blocks.length + 1, r.size_, r.size_⟩ := by
    rw [hobjs]; simp [ha]
  refine ⟨s1, hasg, by rw [Size_eq hobj], by rw [Capacity_eq hobj], ?_,
    (confined_frame hconf hdis hvalS).2.1⟩
  intro i hi
  rw [index_buffer hobj hval1, hbuf, index_elems hr hvalS i hi]

theorem C4_witness :
    (demoFive.objs[0]? = some demoV ∧ Valid demoFive 0 ∧ demoV.size_ ≤ demoFive.heap.room) ∧
    (∃ s1, Vector_copy demoFive 0 = .ok s1 ∧
      (∀ (i : Int) (x : Int), 0 ≤ i → i < (demoV.size_ : Int) →
        ∃ s2, index_assign s1 0 i x = .ok s2 ∧ SameView s1 s2 demoFive.objs.length) ∧
      (∀ x : Int, (demoV.size_ = demoV.capacity_ →
          2 * demoV.capacity_ + 1 ≤ MAX_ALLOC ∧ 2 * demoV.capacity_ + 1 ≤ s1.heap.room) →
        ∃ s2, PushBack s1 0 x = .ok s2 ∧ SameView s1 s2 demoFive.objs.length) ∧
      (∀ (i : Int) (x : Int), 0 ≤ i → i < (demoV.size_ : Int) →
        ∃ s2, index_assign s1 demoFive.objs.length i x = .ok s2 ∧ SameView s1 s2 0) ∧
      (∀ x : Int, 2 * demoV.size_ + 1 ≤ MAX_ALLOC ∧ 2 * demoV.size_ + 1 ≤ s1.heap.room →
        ∃ s2, PushBack s1 demoFive.objs.length x = .ok s2 ∧ SameView s1 s2 0) ∧
      (∀ (ms : List (Mutation Int)) (s2 : State Int),
        mutateAll s1 0 ms = .ok s2 → SameView s1 s2 demoFive.objs.length) ∧
      (∀ (ms : List (Mutation Int)) (s2 : State Int),
        mutateAll s1 demoFive.objs.length ms = .ok s2 → SameView s1 s2 0)) ∧
    (∃ s1, Vector_copy demoFive 0 = .ok s1 ∧ index_assign s1 0 0 6 = .ok demoTwo ∧
      readAll s1 1 = [some (some 0), some (some 1), some (some 2), some (some 3), some (some 4)] ∧
      readAll demoTwo 1 =
        [some (some 0), some (some 1), some (some 2), some (some 3), some (some 4)]) :=
  ⟨⟨by decide, by decide, by decide⟩,
    C4_copy_independence demoFive 0 demoV (by decide) (by decide) (by decide),
    ⟨_, rfl, by decide, by decide, by decide⟩⟩

theorem C5_witness :
    (1 ≠ 0 ∧ demoTwo.objs[1]? = some demoN ∧ demoTwo.objs[0]? = some demoV ∧
      Valid demoTwo 1 ∧ Valid demoTwo 0 ∧ Disjoint demoTwo 1 0 ∧
      demoV.size_ ≤ demoTwo.heap.room + demoN.capacity_) ∧
    (∃ s1, operator_assign demoTwo 1 0 = .ok s1 ∧
      Size s1 1 = some demoV.size_ ∧ Capacity s1 1 = some demoV.size_ ∧
      (∀ i : Nat, i < demoV.size_ → index s1 1 (i : Int) = index demoTwo 0 (i : Int)) ∧
      SameView demoTwo s1 0) ∧
    (∃ s1, operator_assign demoTwo 1 0 = .ok s1 ∧
      readAll s1 1 =
        [some (some 6), some (some 1), some (some 2), some (some 3), some (some 4)]) :=
  ⟨⟨by decide, by decide, by decide, by decide, by decide, by decide, by decide⟩,
    C5_copy_assignment demoTwo 1 0 demoN demoV (by decide) (by decide) (by decide)
      (by decide) (by decide) (by decide) (by decide),
    ⟨_, rfl, by decide⟩⟩

theorem assign_disjoint {T : Type} {s1 : State T} {a b : Nat} {v w : Vector} {n : Nat}
    (hab : a ≠ b) (hv1 : s1.objs[a]? = some v) (hw1 : s1.objs[b]? = some w)
    (hle : v.data_ ≤ n) (hw : n < w.data_) : Disjoint s1 a b := by
  refine ⟨hab, ?_⟩
  simp only [hv1, hw1]
  intro e
  omega

/-- C7: self-assignment is a no-op.  For every state and every object `a`,
`a = a` returns normally in the very same state: no data member of any object
changes (so a spare capacity stays), and the free store is untouched (so no
buffer is released and no element changes). -/
theorem C7_self_assignment (s : State Int) (a : Nat) :
    operator_assign s a a = .ok s ∧
      ∀ s1, operator_assign s a a = .ok s1 →
        s1.heap = s.heap ∧ s1.objs = s.objs ∧ SameView s s1 a := by
  have h : operator_assign s a a = .ok s := by simp [operator_assign]
  refine ⟨h, ?_⟩
  intro s1 h1
  rw [h] at h1
  cases h1
  exact ⟨rfl, rfl, rfl, rfl, fun _ => rfl⟩

/-! ## The sized constructor -/

theorem int_max_le : INT_MAX.toNat ≤ MAX_ALLOC := by decide

/-- C8: for every `int` value `n ≥ 0` (and an allocator with room for `n`
elements), `Vector(n)` returns normally with a new object whose `Size()` and
`Capacity()` are both `n` and whose element at every index below `n` is the
value-initialized element. -/
theorem C8_sized_constructor {T : Type} [Inhabited T] (s : State T) (n : Int)
    (h0 : 0 ≤ n) (hint : n ≤ INT_MAX) (hroom : n.toNat ≤ s.heap.room) :
    ∃ s1, Vector_sized s n = .ok s1 ∧
      Size s1 s.objs.length = some n.toNat ∧ Capacity s1 s.objs.length = some n.toNat ∧
      ∀ i : Nat, i < n.toNat → index s1 s.objs.length (i : Int) = some (some default) := by
  have hneg : ¬ (n < 0) := by omega
  have hmax : n.toNat ≤ MAX_ALLOC := Nat.le_trans (Int.toNat_le_toNat hint) int_max_le
  have hmod : n.toNat % SIZE_MOD = n.toNat :=
    Nat.mod_eq_of_lt (Nat.lt_of_le_of_lt hmax max_alloc_lt)
  have halloc := alloc_eq s.heap (some (default : T)) hmax hroom
  have hobj : (s.objs ++ [(⟨s.heap.blocks.length + 1, n.toNat, n.toNat⟩ : Vector)])[s.objs.length]?
      = some ⟨s.heap.blocks.length + 1, n.toNat, n.toNat⟩ := by simp
  refine ⟨State.mk (Heap.mk (s.heap.blocks ++ [some (List.replicate n.toNat (some default))])
      (s.heap.room - n.toNat)) (s.objs ++ [⟨s.heap.blocks.length + 1, n.toNat, n.toNat⟩]),
    ?_, by rw [Size_eq hobj], by rw [Capacity_eq hobj], ?_⟩
  · simp only [Vector_sized, hneg, if_false, halloc, hmod]
  · intro i hi
    have hi0 : ¬ ((i : Int) < 0) := by omega
    simp only [index, hobj, hi0, if_false, Int.toNat_ofNat, Heap.load]
    rw [cells_snoc s.heap.blocks _ s.heap.room]
    simp [hi]

theorem C8_witness :
    ((0 : Int) ≤ 5 ∧ (5 : Int) ≤ INT_MAX ∧ (5 : Int).toNat ≤ demoState.heap.room) ∧
    (∃ s1, Vector_sized demoState 5 = .ok s1 ∧
      Size s1 demoState.objs.length = some (5 : Int).toNat ∧
      Capacity s1 demoState.objs.length = some (5 : Int).toNat ∧
      ∀ i : Nat, i < (5 : Int).toNat →
        index s1 demoState.objs.length (i : Int) = some (some default)) ∧
    (∃ s1, Vector_sized demoState 5 = .ok s1 ∧ Size s1 0 = some 5 ∧ Capacity s1 0 = some 5 ∧
      readAll s1 0 = [some (some 0), some (some 0), some (some 0), some (some 0), some (some 0)]) :=
  ⟨⟨by decide, by decide, by decide⟩,
    C8_sized_constructor demoState 5 (by decide) (by decide) (by decide),
    ⟨_, rfl, by decide, by decide, by decide⟩⟩

/-! ## A single append -/

/-- C9: growth policy of one append.  On a valid object (`size_ ≤ capacity_`, with
room in the allocator when the buffer is full) `PushBack` returns normally, and
the capacity changes if and only if `size_ == capacity_` held before the call;
then it is exactly `2 * capacity_ + 1`, and with `size_ < capacity_` it is
unchanged.  In both cases the capacity does not decrease. -/
theorem C9_growth_policy {T : Type} (s : State T) (a : Nat) (v : Vector) (x : T)
    (hv : s.objs[a]? = some v) (hval : Valid s a)
    (hfit : v.size_ = v.capacity_ →
      2 * v.capacity_ + 1 ≤ MAX_ALLOC ∧ 2 * v.capacity_ + 1 ≤ s.heap.room) :
    ∃ s1 c1, PushBack s a x = .ok s1 ∧ Capacity s1 a = some c1 ∧
      (c1 ≠ v.capacity_ ↔ v.size_ = v.capacity_) ∧
      (v.size_ = v.capacity_ → c1 = 2 * v.capacity_ + 1) ∧
      (v.size_ < v.capacity_ → c1 = v.capacity_) ∧
      v.capacity_ ≤ c1 := by
  have ha : a < s.objs.length := (List.getElem?_eq_some_iff.mp hv).1
  obtain ⟨s1, v1, hp, hobjs, _, hcap, _⟩ := PushBack_spec s a v x hv hval hfit
  have hv1 : s1.objs[a]? = some v1 := by rw [hobjs]; simp [ha]
  refine ⟨s1, v1.capacity_, hp, Capacity_eq hv1, ?_, ?_, ?_, ?_⟩
  · rw [hcap]; split <;> constructor <;> intro h <;> omega
  · intro h; rw [hcap, if_pos h]
  · intro h; rw [hcap, if_neg (by omega)]
  · rw [hcap]; split <;> omega

theorem C9_witness :
    (demoTwo.objs[1]? = some demoN ∧ Valid demoTwo 1 ∧
      (demoN.size_ = demoN.capacity_ →
        2 * demoN.capacity_ + 1 ≤ MAX_ALLOC ∧ 2 * demoN.capacity_ + 1 ≤ demoTwo.heap.room)) ∧
    (∃ s1 c1, PushBack demoTwo 1 5 = .ok s1 ∧ Capacity s1 1 = some c1 ∧
      (c1 ≠ demoN.capacity_ ↔ demoN.size_ = demoN.capacity_) ∧
      (demoN.size_ = demoN.capacity_ → c1 = 2 * demoN.capacity_ + 1) ∧
      (demoN.size_ < demoN.capacity_ → c1 = demoN.capacity_) ∧
      demoN.capacity_ ≤ c1) ∧
    (∃ s1, PushBack demoTwo 1 5 = .ok s1 ∧ Capacity demoTwo 1 = some 5 ∧
      Capacity s1 1 = some 11) ∧
    (∃ s1, PushBack demoTwo 0 5 = .ok s1 ∧ Capacity demoTwo 0 = some 7 ∧
      Capacity s1 0 = some 7) :=
  ⟨⟨by decide, by decide, by decide⟩,
    C9_growth_policy demoTwo 1 demoN 5 (by decide) (by decide) (by decide),
    ⟨_, rfl, by decide, by decide⟩, ⟨_, rfl, by decide, by decide⟩⟩

/-- C10: postcondition of one append from any valid state.  On a valid object
(with room in the allocator when the buffer is full) `PushBack(x)` returns
normally; afterwards `Size()` is the old size plus one, the element at index
`old size` is `x`, and the element at every index below the old size is the one
that was there before the call, whether or not the call reallocated. -/
theorem C10_append_postcondition {T : Type} (s : State T) (a : Nat) (v : Vector) (x : T)
    (hv : s.objs[a]? = some v) (hval : Valid s a)
    (hfit : v.size_ = v.capacity_ →
      2 * v.capacity_ + 1 ≤ MAX_ALLOC ∧ 2 * v.capacity_ + 1 ≤ s.heap.room) :
    ∃ s1, PushBack s a x = .ok s1 ∧ Size s1 a = some (v.size_ + 1) ∧
      index s1 a (v.size_ : Int) = some (some x) ∧
      ∀ i : Nat, i < v.size_ → index s1 a (i : Int) = index s a (i : Int) := by
  have ha : a < s.objs.length := (List.getElem?_eq_some_iff.mp hv).1
  obtain ⟨s1, v1, hp, hobjs, hsize, _, hval1, hel, _⟩ := PushBack_spec s a v x hv hval hfit
  have hv1 : s1.objs[a]? = some v1 := by rw [hobjs]; simp [ha]
  have hlen := elems_length hv hval
  refine ⟨s1, hp, by rw [Size_eq hv1, hsize], ?_, ?_⟩
  · rw [index_elems hv1 hval1 v.size_ (by omega), hel,
      List.getElem?_append_right (by omega)]
    simp [hlen]
  · intro i hi
    rw [index_elems hv1 hval1 i (by omega), hel, index_elems hv hval i hi,
      List.getElem?_append_left (by omega)]

theorem C10_witness :
    (demoTwo.objs[1]? = some demoN ∧ Valid demoTwo 1 ∧
      (demoN.size_ = demoN.capacity_ →
        2 * demoN.capacity_ + 1 ≤ MAX_ALLOC ∧ 2 * demoN.capacity_ + 1 ≤ demoTwo.heap.room)) ∧
    (∃ s1, PushBack demoTwo 1 5 = .ok s1 ∧ Size s1 1 = some (demoN.size_ + 1) ∧
      index s1 1 (demoN.size_ : Int) = some (some 5) ∧
      ∀ i : Nat, i < demoN.size_ → index s1 1 (i : Int) = index demoTwo 1 (i : Int)) ∧
    (∃ s1, PushBack demoTwo 1 5 = .ok s1 ∧
      readAll s1 1 = [some (some 0), some (some 1), some (some 2), some (some 3),
        some (some 4), some (some 5)]) ∧
    (∃ s1, PushBack demoTwo 0 5 = .ok s1 ∧
      readAll s1 0 = [some (some 6), some (some 1), some (some 2), some (some 3),
        some (some 4), some (some 5)]) :=
  ⟨⟨by decide, by decide, by decide⟩,
    C10_append_postcondition demoTwo 1 demoN 5 (by decide) (by decide) (by decide),
    ⟨_, rfl, by decide⟩, ⟨_, rfl, by decide⟩⟩

/-! ## The invariant of a whole state -/

theorem disjoint_absent {T : Type} (s : State T) (a b : Nat) (hab : a ≠ b)
    (ha : s.objs[a]? = none) : Disjoint s a b := by
  refine ⟨hab, ?_⟩
  simp [ha]

theorem wf_step {T : Type} {s s1 : State T} {a : Nat} (hwf : WellFormed s)
    (hlen : s1.objs.length = max s.objs.length (a + 1)) (hle : a ≤ s.objs.length)
    (hconf : Confined s s1 a) (hval : Valid s1 a)
    (hdata : ∀ v1, s1.objs[a]? = some v1 →
      v1.data_ = 0 ∨ s.heap.blocks.length < v1.data_ ∨
        ∃ v, s.objs[a]? = some v ∧ v1.data_ = v.data_) :
    WellFormed s1 := by
  have hold : ∀ b, b < s1.objs.length → b ≠ a → b < s.objs.length := by
    intro b hb hba
    rw [hlen] at hb
    omega
  have hdisA : ∀ b, b < s.objs.length → b ≠ a → Disjoint s a b := by
    intro b hb hba
    by_cases ha : a < s.objs.length
    · exact hwf.2 a b ha hb (fun e => hba e.symm)
    · exact disjoint_absent s a b (fun e => hba e.symm) (List.getElem?_eq_none (by omega))
  have hnew : ∀ b, b < s1.objs.length → b ≠ a → Disjoint s1 a b := by
    intro b hb hba
    have hb0 := hold b hb hba
    obtain ⟨v1, hv1⟩ := valid_obj hval
    obtain ⟨w, hw⟩ := valid_obj (hwf.1 b hb0)
    have hwle := valid_data_le hw (hwf.1 b hb0)
    have hw1 : s1.objs[b]? = some w := by rw [hconf.1 b hba, hw]
    refine ⟨fun e => hba e.symm, ?_⟩
    simp only [hv1, hw1]
    intro e
    rcases hdata v1 hv1 with h0 | hfresh | ⟨v, hv, hsame⟩
    · exact h0
    · omega
    · have hd := (hdisA b hb0 hba).2
      simp only [hv, hw] at hd
      rw [hsame]
      exact hd (hsame ▸ e)
  refine ⟨?_, ?_⟩
  · intro b hb
    by_cases hba : b = a
    · rw [hba]; exact hval
    · exact (confined_frame hconf (hdisA b (hold b hb hba) hba) (hwf.1 b (hold b hb hba))).1
  · intro b c hb hc hbc
    by_cases hba : b = a
    · subst hba
      exact hnew c hc (fun e => hbc e.symm)
    · by_cases hca : c = a
      · subst hca
        exact disjoint_symm (hnew b hb hba)
      · have hd := hwf.2 b c (hold b hb hba) (hold c hc hca) hbc
        refine ⟨hbc, ?_⟩
        rw [hconf.1 b hba, hconf.1 c hca]
        exact hd.2

theorem effect_wf {T : Type} {s s1 : State T} {a : Nat} {v1 : Vector}
    (hwf : WellFormed s) (he : Effect s s1 a v1) : WellFormed s1 := by
  obtain ⟨hlen, hle, hconf, hval, hv1, hdata⟩ := he
  refine wf_step hwf hlen hle hconf hval ?_
  intro v2 hv2
  rw [hv1] at hv2
  cases hv2
  exact hdata

theorem effect_frame {T : Type} {s s1 : State T} {a b : Nat} {v1 : Vector}
    (hwf : WellFormed s) (he : Effect s s1 a v1) (hb : b < s.objs.length) (hba : b ≠ a) :
    s1.objs[b]? = s.objs[b]? ∧ buffer s1 b = buffer s b ∧ elems s1 b = elems s b ∧
      SameView s s1 b := by
  obtain ⟨_, hle, hconf, _, _, _⟩ := he
  have hdis : Disjoint s a b := by
    by_cases ha : a < s.objs.length
    · exact hwf.2 a b ha hb (fun e => hba e.symm)
    · exact disjoint_absent s a b (fun e => hba e.symm) (List.getElem?_eq_none (by omega))
  obtain ⟨_, hsame, hobj, hbuf⟩ := confined_frame hconf hdis (hwf.1 b hb)
  refine ⟨hobj, hbuf, ?_, hsame⟩
  simp only [elems, hobj, hbuf]

theorem abs_getElem? (s : State Int) (b : Nat) :
    (abs s).2[b]? = if b < s.objs.length then some (objView s b) else none := by
  simp only [abs, List.getElem?_map, List.getElem?_range]
  by_cases hb : b < s.objs.length
  · simp [hb, List.getElem?_range hb]
  · have hb2 : s.objs.length ≤ b := by omega
    simp [hb, hb2]

theorem abs_length (s : State Int) : (abs s).2.length = s.objs.length := by
  simp [abs]

theorem abs_effect {s s1 : State Int} {a : Nat} {v1 : Vector}
    (hwf : WellFormed s) (he : Effect s s1 a v1) :
    (abs s1).2 = upd (abs s).2 a (v1.size_, v1.capacity_, elems s1 a) := by
  have he0 := he
  obtain ⟨hlen, hle, _, _, hv1, _⟩ := he
  apply List.ext_getElem?
  intro b
  rw [abs_getElem?]
  have hviewA : objView s1 a = (v1.size_, v1.capacity_, elems s1 a) := by
    simp [objView, hv1]
  have hviewB : ∀ b, b < s.objs.length → b ≠ a → objView s1 b = objView s b := by
    intro b hb hba
    obtain ⟨hobj, _, hel, _⟩ := effect_frame hwf he0 hb hba
    simp only [objView, hobj, hel]
  unfold upd
  rw [abs_length]
  by_cases ha : a < s.objs.length
  · have hl : s1.objs.length = s.objs.length := by
      rw [hlen]; exact Nat.max_eq_left ha
    rw [if_pos ha, hl, List.getElem?_set, abs_length, abs_getElem?]
    by_cases hab : a = b
    · subst hab
      simp [ha, hviewA]
    · by_cases hb : b < s.objs.length
      · simp [hab, hb, hviewB b hb (fun e => hab e.symm)]
      · simp [hab, hb]
  · have ha2 : a = s.objs.length := by omega
    have hl : s1.objs.length = s.objs.length + 1 := by
      rw [hlen, ha2]; exact Nat.max_eq_right (Nat.le_succ _)
    rw [if_neg ha, hl]
    by_cases hb : b < s.objs.length
    · rw [List.getElem?_append_left (by rw [abs_length]; exact hb), abs_getElem?]
      have hb1 : b < s.objs.length + 1 := by omega
      simp [hb, hb1, hviewB b hb (by omega)]
    · rw [List.getElem?_append_right (by rw [abs_length]; omega), abs_length]
      by_cases hb2 : b = s.objs.length
      · subst hb2
        rw [← ha2]
        simp [hviewA]
      · have hb3 : ¬ (b < s.objs.length + 1) := by omega
        have hb4 : b - s.objs.length ≠ 0 := by omega
        simp [hb3]
        cases hk : b - s.objs.length with
        | zero => exact absurd hk hb4
        | succ k => omega

/-! ## What a normal return tells about the state before the call -/

theorem alloc_none {T : Type} (h : Heap T) (n : Nat) (init : Cell T)
    (hno : ¬ (n ≤ MAX_ALLOC ∧ n ≤ h.room)) : h.alloc n init = none := by
  simp only [Heap.alloc, hno, if_false]

theorem Vector_sized_ok {T : Type} [Inhabited T] {s s1 : State T} {n : Int}
    (h : Vector_sized s n = .ok s1) :
    0 ≤ n ∧ n.toNat ≤ MAX_ALLOC ∧ n.toNat ≤ s.heap.room := by
  by_cases hneg : n < 0
  · simp [Vector_sized, hneg] at h
  · refine ⟨by omega, ?_⟩
    by_contra hno
    simp [Vector_sized, hneg, alloc_none s.heap n.toNat (some default) hno] at h

theorem Vector_copy_ok {T : Type} [Inhabited T] {s s1 : State T} {a : Nat}
    (h : Vector_copy s a = .ok s1) :
    ∃ v, s.objs[a]? = some v ∧ v.size_ ≤ s.heap.room := by
  rcases hv : s.objs[a]? with _ | v
  · simp [Vector_copy, hv] at h
  · refine ⟨v, rfl, ?_⟩
    by_contra hno
    have hno2 : ¬ (v.size_ ≤ MAX_ALLOC ∧ v.size_ ≤ s.heap.room) := fun e => hno e.2
    simp [Vector_copy, hv, alloc_none s.heap v.size_ (some default) hno2] at h

theorem operator_assign_ok {s s1 : State Int} {dst src : Nat} (hne : src ≠ dst)
    (hval : Valid s dst) (h : operator_assign s dst src = .ok s1) :
    ∃ v r, s.objs[dst]? = some v ∧ s.objs[src]? = some r ∧
      r.size_ ≤ s.heap.room + v.capacity_ := by
  obtain ⟨v, hv⟩ := valid_obj hval
  rcases hr : s.objs[src]? with _ | r
  · simp [operator_assign, hne, hv, hr] at h
  · refine ⟨v, r, hv, rfl, ?_⟩
    obtain ⟨_, _, hb⟩ := valid_backs hv hval
    obtain ⟨h1, hfree, hroom1, _, _⟩ := free_backs hb
    by_contra hno
    have hno2 : ¬ (r.size_ ≤ MAX_ALLOC ∧ r.size_ ≤ h1.room) := by
      intro e
      rw [hroom1] at e
      exact hno e.2
    simp [operator_assign, hne, hv, hr, hfree, alloc_none h1 r.size_ (some 0) hno2] at h

theorem ok_inj {σ : Type} {o : Outcome σ} {x y : σ} (hx : o = .ok x) (hy : o = .ok y) :
    x = y := by
  have := hx.symm.trans hy
  cases this
  rfl

/-! ## The sized constructor as a step -/

theorem Vector_sized_spec {T : Type} [Inhabited T] (s : State T) (n : Int)
    (h0 : 0 ≤ n) (hmax : n.toNat ≤ MAX_ALLOC) (hroom : n.toNat ≤ s.heap.room) :
    ∃ s1, Vector_sized s n = .ok s1 ∧
      s1.objs = s.objs ++ [⟨s.heap.blocks.length + 1, n.toNat, n.toNat⟩] ∧
      Valid s1 s.objs.length ∧
      buffer s1 s.objs.length = List.replicate n.toNat (some default) ∧
      Confined s s1 s.objs.length ∧ s1.heap.room = s.heap.room - n.toNat ∧
      s1.heap.blocks.length = s.heap.blocks.length + 1 := by
  have hneg : ¬ (n < 0) := by omega
  have hmod : n.toNat % SIZE_MOD = n.toNat :=
    Nat.mod_eq_of_lt (Nat.lt_of_le_of_lt hmax max_alloc_lt)
  have halloc := alloc_eq s.heap (some (default : T)) hmax hroom
  have hobj : (s.objs ++ [(⟨s.heap.blocks.length + 1, n.toNat, n.toNat⟩ : Vector)])[s.objs.length]?
      = some ⟨s.heap.blocks.length + 1, n.toNat, n.toNat⟩ := by simp
  have hcells : ∀ q, (Heap.mk (s.heap.blocks ++ [some (List.replicate n.toNat (some (default : T)))])
      (s.heap.room - n.toNat)).cells q = if q = s.heap.blocks.length + 1
        then some (List.replicate n.toNat (some default)) else s.heap.cells q := by
    intro q
    rw [cells_snoc s.heap.blocks _ s.heap.room]
  have hbv := backs_valid (State.mk
      (Heap.mk (s.heap.blocks ++ [some (List.replicate n.toNat (some (default : T)))])
        (s.heap.room - n.toNat))
      (s.objs ++ [⟨s.heap.blocks.length + 1, n.toNat, n.toNat⟩]))
    (List.replicate n.toNat (some default)) hobj (Nat.le_refl _) hmax
    ⟨by simp, Or.inr ⟨by simp, by rw [hcells]; simp⟩⟩
  refine ⟨_, ?_, rfl, hbv.1, hbv.2, ⟨?_, ?_⟩, rfl, by simp⟩
  · simp only [Vector_sized, hneg, if_false, halloc, hmod]
  · intro b hb
    simp only
    by_cases hlt : b < s.objs.length
    · rw [List.getElem?_append_left hlt]
    · rw [List.getElem?_eq_none (by simp; omega), List.getElem?_eq_none (by omega)]
  · intro p cs hp _
    have hple : p ≤ s.heap.blocks.length := (cells_some hp).2.1
    have hpn : p ≠ s.heap.blocks.length + 1 := by omega
    simp only
    rw [hcells, if_neg hpn, hp]

/-! ## Every call refines its effect on the observable state -/

theorem effect_of_append {T : Type} {s s1 : State T} {v1 : Vector}
    (hobjs : s1.objs = s.objs ++ [v1]) (hconf : Confined s s1 s.objs.length)
    (hval : Valid s1 s.objs.length)
    (hdata : v1.data_ = 0 ∨ s.heap.blocks.length < v1.data_) :
    Effect s s1 s.objs.length v1 := by
  refine ⟨?_, Nat.le_refl _, hconf, hval, by rw [hobjs]; simp, ?_⟩
  · rw [hobjs, List.length_append, List.length_singleton]
    exact (Nat.max_eq_right (Nat.le_succ _)).symm
  · rcases hdata with h | h
    · exact Or.inl h
    · exact Or.inr (Or.inl h)

theorem effect_of_set {T : Type} {s s1 : State T} {a : Nat} {v v1 : Vector}
    (hv : s.objs[a]? = some v) (hobjs : s1.objs = s.objs.set a v1) (hconf : Confined s s1 a)
    (hval : Valid s1 a)
    (hdata : v1.data_ = v.data_ ∨ s.heap.blocks.length < v1.data_) :
    Effect s s1 a v1 := by
  have ha : a < s.objs.length := (List.getElem?_eq_some_iff.mp hv).1
  refine ⟨?_, Nat.le_of_lt ha, hconf, hval, by rw [hobjs]; simp [ha], ?_⟩
  · rw [hobjs, List.length_set]
    exact (Nat.max_eq_left ha).symm
  · rcases hdata with h | h
    · exact Or.inr (Or.inr ⟨v, hv, h⟩)
    · exact Or.inr (Or.inl h)

theorem abs_new {s s1 : State Int} {v1 : Vector} (hwf : WellFormed s)
    (he : Effect s s1 s.objs.length v1) :
    abs s1 = (s1.heap.room, (abs s).2 ++ [(v1.size_, v1.capacity_, elems s1 s.objs.length)]) := by
  have h := abs_effect hwf he
  simp only [upd, abs_length, Nat.lt_irrefl, if_false] at h
  rw [← h]
  rfl

theorem abs_old {s s1 : State Int} {a : Nat} {v1 : Vector} (hwf : WellFormed s)
    (he : Effect s s1 a v1) (ha : a < s.objs.length) :
    abs s1 = (s1.heap.room, (abs s).2.set a (v1.size_, v1.capacity_, elems s1 a)) := by
  have h := abs_effect hwf he
  simp only [upd, abs_length, ha, if_true] at h
  rw [← h]
  rfl

theorem abs_lookup {s : State Int} {a : Nat} {v : Vector} (hv : s.objs[a]? = some v) :
    (abs s).2[a]? = some (v.size_, v.capacity_, elems s a) := by
  have ha : a < s.objs.length := (List.getElem?_eq_some_iff.mp hv).1
  rw [abs_getElem?, if_pos ha]
  simp [objView, hv]

theorem abs_lookup_some {s : State Int} {a : Nat} {x : AbsObj} (h : (abs s).2[a]? = some x) :
    ∃ v, s.objs[a]? = some v ∧ x = (v.size_, v.capacity_, elems s a) := by
  rw [abs_getElem?] at h
  by_cases ha : a < s.objs.length
  · rw [if_pos ha] at h
    refine ⟨s.objs[a], List.getElem?_eq_getElem ha, ?_⟩
    cases h
    simp [objView, List.getElem?_eq_getElem ha]
  · rw [if_neg ha] at h
    cases h

theorem elems_of_buffer {T : Type} {s : State T} {a : Nat} {v : Vector}
    (hv : s.objs[a]? = some v) : elems s a = (buffer s a).take v.size_ := by
  simp [elems, hv]

theorem elems_full {T : Type} {s : State T} {a : Nat} {v : Vector} {es : List (Cell T)}
    (hv : s.objs[a]? = some v) (hbuf : buffer s a = es) (hlen : es.length = v.size_) :
    elems s a = es := by
  rw [elems_of_buffer hv, hbuf, List.take_of_length_le (by omega)]

theorem sound_construct {s s1 : State Int} (hwf : WellFormed s)
    (h : Vector_default s = .ok s1) :
    WellFormed s1 ∧ absStep (abs s) .construct = some (abs s1) := by
  have e : s1 = State.mk s.heap (s.objs ++ [⟨0, 0, 0⟩]) := ok_inj h rfl
  subst e
  obtain ⟨_, hval, hel⟩ := default_valid s
  have hconf : Confined s (State.mk s.heap (s.objs ++ [⟨0, 0, 0⟩])) s.objs.length := by
    refine ⟨?_, fun p cs hp _ => hp⟩
    intro b hb
    simp only
    by_cases hlt : b < s.objs.length
    · rw [List.getElem?_append_left hlt]
    · rw [List.getElem?_eq_none (by simp; omega), List.getElem?_eq_none (by omega)]
  have he := effect_of_append
    (show (State.mk s.heap (s.objs ++ [⟨0, 0, 0⟩])).objs = s.objs ++ [⟨0, 0, 0⟩] from rfl)
    hconf hval (Or.inl rfl)
  refine ⟨effect_wf hwf he, ?_⟩
  rw [abs_new hwf he, hel]
  rfl

theorem sound_sized {s s1 : State Int} {n : Int} (hwf : WellFormed s)
    (h : Vector_sized s n = .ok s1) :
    WellFormed s1 ∧ absStep (abs s) (.constructSized n) = some (abs s1) := by
  obtain ⟨h0, hmax, hroom⟩ := Vector_sized_ok h
  obtain ⟨s2, hok, hobjs, hval, hbuf, hconf, hr, _⟩ := Vector_sized_spec s n h0 hmax hroom
  have e : s1 = s2 := ok_inj h hok
  subst e
  have he := effect_of_append hobjs hconf hval (Or.inr (Nat.lt_succ_self _))
  have hv1 : s1.objs[s.objs.length]? = some ⟨s.heap.blocks.length + 1, n.toNat, n.toNat⟩ := by
    rw [hobjs]; simp
  have hel := elems_full hv1 hbuf (by simp)
  refine ⟨effect_wf hwf he, ?_⟩
  rw [abs_new hwf he, hel, hr]
  have hw1 : (abs s).1 = s.heap.room := rfl
  simp only [absStep, hw1, h0, hmax, hroom, and_self, if_true]
  rfl

theorem sound_copy {s s1 : State Int} {a : Nat} (hwf : WellFormed s)
    (h : Vector_copy s a = .ok s1) :
    WellFormed s1 ∧ absStep (abs s) (.constructCopy a) = some (abs s1) := by
  obtain ⟨v, hv, hroom⟩ := Vector_copy_ok h
  have ha : a < s.objs.length := (List.getElem?_eq_some_iff.mp hv).1
  have hvalA := hwf.1 a ha
  obtain ⟨s2, hok, hobjs, hval, hbuf, hconf, hr, _⟩ := Vector_copy_spec s a v hv hvalA hroom
  have e : s1 = s2 := ok_inj h hok
  subst e
  have he := effect_of_append hobjs hconf hval (Or.inr (Nat.lt_succ_self _))
  have hv1 : s1.objs[s.objs.length]? = some ⟨s.heap.blocks.length + 1, v.size_, v.size_⟩ := by
    rw [hobjs]; simp
  have hel := elems_full hv1 hbuf (by rw [elems_length hv hvalA])
  refine ⟨effect_wf hwf he, ?_⟩
  rw [abs_new hwf he, hel, hr]
  have hw1 : (abs s).1 = s.heap.room := rfl
  simp only [absStep, abs_lookup hv, hw1, hroom, if_true]

theorem sound_assign {s s1 : State Int} {dst src : Nat} (hwf : WellFormed s)
    (h : operator_assign s dst src = .ok s1) :
    WellFormed s1 ∧ absStep (abs s) (.assign dst src) = some (abs s1) := by
  by_cases hne : src = dst
  · have e : s1 = s := ok_inj h (by simp [operator_assign, hne])
    subst e
    exact ⟨hwf, by simp [absStep, hne]⟩
  · rcases hv0 : s.objs[dst]? with _ | v0
    · simp [operator_assign, hne, hv0] at h
    · have ha : dst < s.objs.length := (List.getElem?_eq_some_iff.mp hv0).1
      have hvalD := hwf.1 dst ha
      obtain ⟨v, r, hv, hr, hroom⟩ := operator_assign_ok hne hvalD h
      have hb : src < s.objs.length := (List.getElem?_eq_some_iff.mp hr).1
      have hvalS := hwf.1 src hb
      obtain ⟨s2, hok, hobjs, hval, hbuf, hconf, hroom2, _⟩ :=
        operator_assign_spec s dst src v r hne hv hr hvalD hvalS
          (hwf.2 dst src ha hb (fun e => hne e.symm)) hroom
      have e : s1 = s2 := ok_inj h hok
      subst e
      have he := effect_of_set hv hobjs hconf hval (Or.inr (Nat.lt_succ_self _))
      have hv1 : s1.objs[dst]? = some ⟨s.heap.blocks.length + 1, r.size_, r.size_⟩ := by
        rw [hobjs]; simp [ha]
      have hel := elems_full hv1 hbuf (by rw [elems_length hr hvalS])
      refine ⟨effect_wf hwf he, ?_⟩
      rw [abs_old hwf he ha, hel]
      have hw1 : (abs s).1 = s.heap.room := rfl
      have hr1 : s1.heap.room = s.heap.room + v.capacity_ - r.size_ := by omega
      simp only [absStep, hne, if_false, abs_lookup hv, abs_lookup hr, hw1, hroom, if_true, hr1]

theorem sound_write {s s1 : State Int} {a : Nat} {i x : Int} (hwf : WellFormed s)
    (h : index_assign s a i x = .ok s1) :
    WellFormed s1 ∧ absStep (abs s) (.write a i x) = some (abs s1) := by
  rcases hv : s.objs[a]? with _ | v
  · simp [index_assign, hv] at h
  · have ha : a < s.objs.length := (List.getElem?_eq_some_iff.mp hv).1
    have hvalA := hwf.1 a ha
    obtain ⟨h0, hi⟩ := index_assign_ok hv hvalA h
    obtain ⟨s2, hok, hobjs, hval, hconf, hbuf, hr, _⟩ :=
      index_assign_spec s a v i x hv hvalA h0 hi
    have e : s1 = s2 := ok_inj h hok
    subst e
    have hset : s1.objs = s.objs.set a v := by rw [hobjs, set_of_getElem? _ _ _ hv]
    have he := effect_of_set hv hset hconf hval (Or.inl rfl)
    have hv1 : s1.objs[a]? = some v := by rw [hobjs, hv]
    have hel : elems s1 a = (elems s a).set i.toNat (some x) := by
      rw [elems_of_buffer hv1, hbuf, elems_of_buffer hv, List.set_take]
    refine ⟨effect_wf hwf he, ?_⟩
    rw [abs_old hwf he ha, hel, hr]
    have hw1 : (abs s).1 = s.heap.room := rfl
    simp only [absStep, abs_lookup hv, hw1, h0, hi, and_self, if_true]

theorem sound_push {s s1 : State Int} {a : Nat} {x : Int} (hwf : WellFormed s)
    (h : PushBack s a x = .ok s1) :
    WellFormed s1 ∧ absStep (abs s) (.push a x) = some (abs s1) := by
  rcases hv : s.objs[a]? with _ | v
  · simp [PushBack, hv] at h
  · have ha : a < s.objs.length := (List.getElem?_eq_some_iff.mp hv).1
    have hvalA := hwf.1 a ha
    have hfit := PushBack_ok_fit hv hvalA h
    obtain ⟨s2, v1, hok, hobjs, hsize, hcap, hval, hel, hconf, hr, hdata, _⟩ :=
      PushBack_spec s a v x hv hvalA hfit
    have e : s1 = s2 := ok_inj h hok
    subst e
    have he := effect_of_set hv hobjs hconf hval hdata
    refine ⟨effect_wf hwf he, ?_⟩
    rw [abs_old hwf he ha, hel, hsize]
    have hw1 : (abs s).1 = s.heap.room := rfl
    simp only [absStep, abs_lookup hv, hw1]
    by_cases hfull : v.size_ = v.capacity_
    · obtain ⟨hf1, hf2⟩ := hfit hfull
      rw [if_pos hfull] at hcap
      have hr1 : s1.heap.room = s.heap.room + v.capacity_ - (2 * v.capacity_ + 1) := by omega
      simp only [hfull, hf1, hf2, and_self, if_true, hcap, hr1]
    · rw [if_neg hfull] at hcap
      have hr1 : s1.heap.room = s.heap.room := by omega
      simp only [hfull, if_false, hcap, hr1]

theorem step_sound {s s1 : State Int} (op : Op) (hwf : WellFormed s)
    (h : step s op = .ok s1) : WellFormed s1 ∧ absStep (abs s) op = some (abs s1) := by
  cases op with
  | construct => exact sound_construct hwf h
  | constructSized n => exact sound_sized hwf h
  | constructCopy a => exact sound_copy hwf h
  | assign dst src => exact sound_assign hwf h
  | write a i x => exact sound_write hwf h
  | push a x => exact sound_push hwf h

/-! ## Reachable states -/

theorem wellFormed_empty {T : Type} (s : State T) (h : s.objs = []) : WellFormed s := by
  refine ⟨?_, ?_⟩
  · intro a ha
    rw [h] at ha
    exact absurd ha (Nat.not_lt_zero a)
  · intro a b ha
    rw [h] at ha
    exact absurd ha (Nat.not_lt_zero a)

theorem run_sound (ops : List Op) : ∀ s s1 : State Int, WellFormed s → run s ops = .ok s1 →
    WellFormed s1 ∧ absRun (abs s) ops = some (abs s1) := by
  induction ops with
  | nil =>
    intro s s1 hwf h
    have e : s1 = s := ok_inj h rfl
    subst e
    exact ⟨hwf, rfl⟩
  | cons o os ih =>
    intro s s1 hwf h
    rcases ho : step s o with s2 | s2 | _
    · simp only [run, ho] at h
      obtain ⟨hwf2, habs⟩ := step_sound o hwf ho
      obtain ⟨hwf1, habs1⟩ := ih s2 s1 hwf2 h
      exact ⟨hwf1, by simp only [absRun, habs, habs1]⟩
    · simp [run, ho] at h
    · simp [run, ho] at h

theorem wellFormed_le {T : Type} {s : State T} (hwf : WellFormed s) {a : Nat} {v : Vector}
    (hv : s.objs[a]? = some v) :
    v.size_ ≤ v.capacity_ ∧ (0 < v.capacity_ → v.data_ ≠ 0) ∧
      (v.data_ ≠ 0 → (s.heap.cells v.data_).map List.length = some v.capacity_) := by
  have ha : a < s.objs.length := (List.getElem?_eq_some_iff.mp hv).1
  have hval := hwf.1 a ha
  simp only [Valid, hv] at hval
  obtain ⟨h1, _, h3⟩ := hval
  refine ⟨h1, ?_, ?_⟩
  · intro hpos h0
    rw [if_pos h0] at h3
    omega
  · intro hne
    rw [if_neg hne] at h3
    exact h3

/-- C11: `size_ ≤ capacity_` is an invariant.  Starting from any state that
satisfies the data-model invariant (in particular from a state without objects),
after every finite sequence of constructor calls (default, sized, copy),
copy-assignments (self-assignment included), indexed writes and `PushBack` calls
in which every call returns normally, the data-model invariant holds again and
every object has `size_ ≤ capacity_`. -/
theorem C11_size_le_capacity_invariant (s s1 : State Int) (ops : List Op)
    (hwf : WellFormed s) (hrun : run s ops = .ok s1) :
    WellFormed s1 ∧ ∀ (a : Nat) (v : Vector), s1.objs[a]? = some v → v.size_ ≤ v.capacity_ := by
  obtain ⟨hwf1, _⟩ := run_sound ops s s1 hwf hrun
  exact ⟨hwf1, fun a v hv => (wellFormed_le hwf1 hv).1⟩

theorem C11_witness :
    (WellFormed demoState ∧ ∃ s1, run demoState mainOps = .ok s1) ∧
    ∃ s1, run demoState mainOps = .ok s1 ∧
      (WellFormed s1 ∧ ∀ (a : Nat) (v : Vector), s1.objs[a]? = some v → v.size_ ≤ v.capacity_) :=
  ⟨⟨wellFormed_empty demoState rfl, ⟨_, rfl⟩⟩,
    ⟨_, rfl, C11_size_le_capacity_invariant demoState _ mainOps
      (wellFormed_empty demoState rfl) rfl⟩⟩

/-- C12 fails as stated: after `Vector(0)`, after copy-constructing from an empty
container and after copy-assigning from an empty container the object has a
non-null `data_` (a zero-length array) although its capacity is `0`. -/
theorem C12_counterexample :
    (∃ s1 v, run demoState [.constructSized 0] = .ok s1 ∧ s1.objs[0]? = some v ∧
      ¬ (v.data_ ≠ 0 ↔ 0 < v.capacity_)) ∧
    (∃ s1 v, run demoState [.construct, .constructCopy 0] = .ok s1 ∧ s1.objs[1]? = some v ∧
      ¬ (v.data_ ≠ 0 ↔ 0 < v.capacity_)) ∧
    (∃ s1 v, run demoState [.construct, .construct, .assign 1 0] = .ok s1 ∧
      s1.objs[1]? = some v ∧ ¬ (v.data_ ≠ 0 ↔ 0 < v.capacity_)) :=
  ⟨⟨_, _, rfl, rfl, by decide⟩, ⟨_, _, rfl, rfl, by decide⟩, ⟨_, _, rfl, rfl, by decide⟩⟩

/-- C12 as amended: in every state reached from a state satisfying the data-model
invariant by calls that return normally, an object with `capacity_ > 0` has a
non-null `data_` (so a null `data_` goes with capacity `0`), and a non-null `data_`
points to a live array of exactly `capacity_` slots, which may be zero slots. -/
theorem C12_nonnull_when_capacity_positive (s s1 : State Int) (ops : List Op)
    (hwf : WellFormed s) (hrun : run s ops = .ok s1) :
    ∀ (a : Nat) (v : Vector), s1.objs[a]? = some v →
      (0 < v.capacity_ → v.data_ ≠ 0) ∧
      (v.data_ ≠ 0 → (s1.heap.cells v.data_).map List.length = some v.capacity_) := by
  obtain ⟨hwf1, _⟩ := run_sound ops s s1 hwf hrun
  exact fun a v hv => (wellFormed_le hwf1 hv).2

theorem C12_witness :
    (WellFormed demoState ∧ ∃ s1, run demoState mainOps = .ok s1) ∧
    ∃ s1, run demoState mainOps = .ok s1 ∧
      ∀ (a : Nat) (v : Vector), s1.objs[a]? = some v →
        (0 < v.capacity_ → v.data_ ≠ 0) ∧
        (v.data_ ≠ 0 → (s1.heap.cells v.data_).map List.length = some v.capacity_) :=
  ⟨⟨wellFormed_empty demoState rfl, ⟨_, rfl⟩⟩,
    ⟨_, rfl, C12_nonnull_when_capacity_positive demoState _ mainOps
      (wellFormed_empty demoState rfl) rfl⟩⟩

/-! ## Copy assignment when the allocation fails -/

theorem free_backs_released {T : Type} {h h1 : Heap T} {v : Vector} {sc : List (Cell T)}
    (hb : Backs h v sc) (hfree : h.free v.data_ = some h1) : h1.cells v.data_ = none := by
  obtain ⟨_, ⟨h0, _⟩ | ⟨hne, hc⟩⟩ := hb
  · rw [h0, cells_zero]
  · obtain ⟨_, hle, _⟩ := cells_some hc
    rw [free_eq hc] at hfree
    cases hfree
    have e := cells_congr (Heap.mk (h.put v.data_ none).blocks (h.room + sc.length))
      (h.put v.data_ none) rfl v.data_
    rw [e, cells_put h v.data_ v.data_ none hne hle]
    simp

theorem operator_assign_throws (s : State Int) (dst src : Nat) (v r : Vector) (hne : src ≠ dst)
    (hv : s.objs[dst]? = some v) (hr : s.objs[src]? = some r)
    (hvalD : Valid s dst) (hfail : s.heap.room + v.capacity_ < r.size_) :
    ∃ h1, s.heap.free v.data_ = some h1 ∧
      operator_assign s dst src
        = .threw (State.mk h1 (s.objs.set dst ⟨v.data_, r.size_, r.size_⟩)) ∧
      h1.cells v.data_ = none ∧ ∀ q, q ≠ v.data_ → h1.cells q = s.heap.cells q := by
  obtain ⟨_, _, hb⟩ := valid_backs hv hvalD
  obtain ⟨h1, hfree, hroom1, _, hc1⟩ := free_backs hb
  have halloc : h1.alloc r.size_ (some (0 : Int)) = none := by
    apply alloc_none
    rw [hroom1]
    omega
  refine ⟨h1, hfree, ?_, free_backs_released hb hfree, hc1⟩
  simp only [operator_assign, hne, if_false, hv, hr, hfree, halloc]

/-- C13 fails as stated: in a run where the allocation inside `object 1 =
object 0` fails, the exception leaves object `1` outside the data-model
invariant: its old buffer is released while `data_` still points to it, so that
even reading element `0` is undefined and its destructor releases the buffer a
second time. -/
theorem C13_counterexample :
    ∃ s1, run tightState tightOps = .threw s1 ∧ ¬ Valid s1 1 ∧
      s1.objs[1]? = some ⟨4, 5, 5⟩ ∧ s1.heap.cells 4 = none ∧
      index s1 1 0 = none ∧ destructor s1 1 = .undefined :=
  ⟨_, rfl, by decide, by decide, by decide, by decide, by decide⟩

/-- C13 as amended: copy-assignment is not failure-atomic.  For distinct valid
objects owning different buffers, when the allocation of the replacement buffer
fails, the exception leaves `operator=` with the target in a partial state: its
old buffer is already released while `data_` is unchanged, and `size_` and
`capacity_` are already overwritten with the size of the source, so that the
target no longer satisfies the data-model invariant (only `size_ ≤ capacity_`
still holds); the source stays valid and is observed unchanged. -/
theorem C13_assign_failure_state (s : State Int) (dst src : Nat) (v r : Vector)
    (hne : src ≠ dst) (hv : s.objs[dst]? = some v) (hr : s.objs[src]? = some r)
    (hvalD : Valid s dst) (hvalS : Valid s src) (hdis : Disjoint s dst src)
    (hfail : s.heap.room + v.capacity_ < r.size_) :
    ∃ s1, operator_assign s dst src = .threw s1 ∧
      s1.objs[dst]? = some ⟨v.data_, r.size_, r.size_⟩ ∧
      s1.heap.cells v.data_ = none ∧ ¬ Valid s1 dst ∧
      Valid s1 src ∧ SameView s s1 src := by
  have ha : dst < s.objs.length := (List.getElem?_eq_some_iff.mp hv).1
  obtain ⟨h1, _, hthrow, hrel, hc1⟩ := operator_assign_throws s dst src v r hne hv hr hvalD hfail
  have hobj : (s.objs.set dst ⟨v.data_, r.size_, r.size_⟩)[dst]?
      = some ⟨v.data_, r.size_, r.size_⟩ := by simp [ha]
  have hconf : Confined s (State.mk h1 (s.objs.set dst ⟨v.data_, r.size_, r.size_⟩)) dst := by
    refine ⟨?_, ?_⟩
    · intro b hb
      simp only
      rw [List.getElem?_set_ne (fun e => hb e.symm)]
    · intro p cs hp hnot
      simp only
      rw [hc1 p (hnot v hv), hp]
  obtain ⟨hvalS1, hsame, _, _⟩ := confined_frame hconf hdis hvalS
  refine ⟨_, hthrow, hobj, hrel, ?_, hvalS1, hsame⟩
  intro hval
  simp only [Valid, hobj] at hval
  obtain ⟨_, _, h3⟩ := hval
  by_cases h0 : v.data_ = 0
  · rw [if_pos h0] at h3
    omega
  · rw [if_neg h0, hrel] at h3
    cases h3

theorem C13_witness :
    ((0 : Nat) ≠ 1 ∧ tightTwo.objs[1]? = some ⟨4, 1, 1⟩ ∧ tightTwo.objs[0]? = some demoV ∧
      Valid tightTwo 1 ∧ Valid tightTwo 0 ∧ Disjoint tightTwo 1 0 ∧
      tightTwo.heap.room + (Vector.mk 4 1 1).capacity_ < demoV.size_) ∧
    (∃ s1, operator_assign tightTwo 1 0 = .threw s1 ∧
      s1.objs[1]? = some ⟨(Vector.mk 4 1 1).data_, demoV.size_, demoV.size_⟩ ∧
      s1.heap.cells (Vector.mk 4 1 1).data_ = none ∧ ¬ Valid s1 1 ∧
      Valid s1 0 ∧ SameView tightTwo s1 0) ∧
    run tightState (tightOps.take 7) = .ok tightTwo :=
  ⟨⟨by decide, by decide, by decide, by decide, by decide, by decide, by decide⟩,
    C13_assign_failure_state tightTwo 1 0 ⟨4, 1, 1⟩ demoV (by decide) (by decide) (by decide)
      (by decide) (by decide) (by decide) (by decide),
    by decide⟩

/-! ## Counting the copies of the reallocation loop -/

theorem copyLoopCount_eq {T : Type} (dst src : Nat) (k : Nat) :
    ∀ (h : Heap T) (i : Nat),
      copyLoopCount h dst src i k = (copyLoop h dst src i k).map (fun h1 => (h1, k)) := by
  induction k with
  | zero => intro h i; rfl
  | succ k ih =>
    intro h i
    unfold copyLoopCount copyLoop
    rcases hl : h.load src i with _ | c
    · rfl
    · simp only
      rcases hs : h.store dst i c with _ | h1
      · rfl
      · simp only [ih h1 (i + 1)]
        rcases hc : copyLoop h1 dst src (i + 1) k with _ | h2 <;> rfl

theorem withCount_erase {σ : Type} (o : Outcome σ) (n : Nat) : (o.withCount n).erase = o := by
  cases o <;> rfl

theorem PushBackCount_erase {T : Type} (s : State T) (a : Nat) (x : T) :
    (PushBackCount s a x).erase = PushBack s a x := by
  unfold PushBackCount PushBack
  rcases hv : s.objs[a]? with _ | v
  · rfl
  · simp only
    split
    · rcases ha : s.heap.alloc ((v.capacity_ * 2 + 1) % SIZE_MOD) (none : Cell T)
        with _ | ⟨p, h1⟩
      · rfl
      · simp only [copyLoopCount_eq]
        rcases hc : copyLoop h1 p v.data_ 0 v.size_ with _ | h2
        · rfl
        · simp only [Option.map_some']
          rcases hf : h2.free v.data_ with _ | h3
          · rfl
          · exact withCount_erase _ _
    · exact withCount_erase _ _

theorem withCount_ok {σ : Type} {o : Outcome σ} {n m : Nat} {s : σ}
    (h : o.withCount n = .ok (s, m)) : m = n := by
  cases o with
  | ok s0 => simp only [Outcome.withCount, Outcome.ok.injEq, Prod.mk.injEq] at h; exact h.2.symm
  | threw s0 => simp [Outcome.withCount] at h
  | undefined => simp [Outcome.withCount] at h

theorem PushBackCount_count {T : Type} {s s1 : State T} {a : Nat} {x : T} {v : Vector} {n : Nat}
    (hv : s.objs[a]? = some v) (h : PushBackCount s a x = .ok (s1, n)) :
    n = if v.capacity_ ≤ v.size_ then v.size_ else 0 := by
  unfold PushBackCount at h
  rw [hv] at h
  simp only at h
  by_cases hfull : v.capacity_ ≤ v.size_
  · rw [if_pos hfull] at h ⊢
    rcases halloc : s.heap.alloc ((v.capacity_ * 2 + 1) % SIZE_MOD) (none : Cell T)
      with _ | ⟨p, h1⟩
    · simp [halloc] at h
    · simp only [halloc, copyLoopCount_eq] at h
      rcases hcopy : copyLoop h1 p v.data_ 0 v.size_ with _ | h2
      · simp [hcopy] at h
      · simp only [hcopy, Option.map_some'] at h
        rcases hfree : h2.free v.data_ with _ | h3
        · simp [hfree] at h
        · simp only [hfree] at h
          exact withCount_ok h
  · rw [if_neg hfull] at h ⊢
    exact withCount_ok h

theorem erase_ok {σ : Type} {o : Outcome (σ × Nat)} {s : σ} (h : o.erase = .ok s) :
    ∃ n, o = .ok (s, n) := by
  cases o with
  | ok r =>
    simp only [Outcome.erase, Outcome.ok.injEq] at h
    exact ⟨r.2, by rw [← h]⟩
  | threw r => simp [Outcome.erase] at h
  | undefined => simp [Outcome.erase] at h

theorem pushAllCount_erase {T : Type} (a : Nat) (xs : List T) :
    ∀ s : State T, (pushAllCount s a xs).erase = pushAll s a xs := by
  induction xs with
  | nil => intro s; rfl
  | cons x xs ih =>
    intro s
    have h1 := PushBackCount_erase s a x
    unfold pushAllCount pushAll
    rcases hc : PushBackCount s a x with ⟨s1, n⟩ | r | _
    · rw [hc] at h1
      simp only [Outcome.erase] at h1
      rw [← h1]
      simp only
      have h2 := ih s1
      rcases hc2 : pushAllCount s1 a xs with ⟨s2, m⟩ | ⟨s2, m⟩ | _ <;>
        rw [hc2] at h2 <;> simp only [Outcome.erase] at h2 ⊢ <;> rw [← h2]
    · rw [hc] at h1
      simp only [Outcome.erase] at h1
      rw [← h1]
      rfl
    · rw [hc] at h1
      simp only [Outcome.erase] at h1
      rw [← h1]
      rfl

theorem pushAllCount_spec {T : Type} (a : Nat) (xs : List T) :
    ∀ (s : State T) (v : Vector), s.objs[a]? = some v → Valid s a →
      3 * (v.size_ + xs.length) ≤ s.heap.room + v.capacity_ →
      2 * (v.size_ + xs.length) ≤ MAX_ALLOC →
      ∃ s1 v1 n, pushAllCount s a xs = .ok (s1, n) ∧ s1.objs[a]? = some v1 ∧
        v1.size_ = v.size_ + xs.length ∧ n + v.capacity_ ≤ v1.capacity_ ∧
        (v.capacity_ ≤ 2 * v.size_ → v1.capacity_ ≤ 2 * v1.size_) := by
  induction xs with
  | nil =>
    intro s v hv _ _ _
    exact ⟨s, v, 0, rfl, hv, rfl, by omega, fun h => h⟩
  | cons x xs ih =>
    intro s v hv hval hroom hmax
    have ha : a < s.objs.length := (List.getElem?_eq_some_iff.mp hv).1
    obtain ⟨hsz, _, _⟩ := valid_backs hv hval
    simp only [List.length_cons] at hroom hmax
    obtain ⟨s1, v1, hpush, hobjs, hsize, hcap, hval1, _, _, hr, _, _⟩ :=
      PushBack_spec s a v x hv hval (by intro heq; omega)
    have hv1 : s1.objs[a]? = some v1 := by rw [hobjs]; simp [ha]
    obtain ⟨n, hcount⟩ := erase_ok ((PushBackCount_erase s a x).trans hpush)
    have hn := PushBackCount_count hv hcount
    obtain ⟨s2, v2, m, hall, hv2, hsize2, hcost, hcap2⟩ :=
      ih s1 v1 hv1 hval1 (by rw [hsize]; omega) (by rw [hsize]; omega)
    refine ⟨s2, v2, n + m, ?_, hv2, ?_, ?_, ?_⟩
    · simp only [pushAllCount, hcount, hall]
    · rw [hsize2, hsize, List.length_cons]; omega
    · by_cases hfull : v.size_ = v.capacity_
      · rw [if_pos hfull] at hcap
        rw [if_pos (by omega)] at hn
        omega
      · rw [if_neg hfull] at hcap
        rw [if_neg (by omega)] at hn
        omega
    · intro h2
      apply hcap2
      by_cases hfull : v.size_ = v.capacity_
      · rw [if_pos hfull] at hcap
        omega
      · rw [if_neg hfull] at hcap
        omega

/-- C14: amortized cost of appending.  For every list `xs` of `N` values, the run
of `N` appends to a default-constructed container (given an allocator with room
for the reallocations) returns normally, and the total number of existing-element
copies performed by the reallocation loops of its `PushBack` calls is at most
`2 * N`. -/
theorem C14_amortized_copies {T : Type} (s : State T) (xs : List T)
    (hroom : 3 * xs.length ≤ s.heap.room) (hmax : 2 * xs.length ≤ MAX_ALLOC) :
    ∃ s0 s1 n, Vector_default s = .ok s0 ∧
      pushAllCount s0 s.objs.length xs = .ok (s1, n) ∧
      pushAll s0 s.objs.length xs = .ok s1 ∧ n ≤ 2 * xs.length := by
  obtain ⟨hv0, hval0, _⟩ := default_valid s
  obtain ⟨s1, v1, n, hall, _, hsize, hcost, hcap⟩ :=
    pushAllCount_spec s.objs.length xs _ _ hv0 hval0 (by simpa using hroom) (by simpa using hmax)
  refine ⟨_, s1, n, rfl, hall, ?_, ?_⟩
  · have h := pushAllCount_erase s.objs.length xs (State.mk s.heap (s.objs ++ [⟨0, 0, 0⟩]))
    rw [hall] at h
    exact h.symm
  · have h2 := hcap (Nat.zero_le _)
    simp only at hsize
    omega

theorem C14_witness :
    (3 * (demoValues ++ [5, 6, 7]).length ≤ demoState.heap.room ∧
      2 * (demoValues ++ [5, 6, 7]).length ≤ MAX_ALLOC) ∧
    (∃ s0 s1 n, Vector_default demoState = .ok s0 ∧
      pushAllCount s0 demoState.objs.length (demoValues ++ [5, 6, 7]) = .ok (s1, n) ∧
      pushAll s0 demoState.objs.length (demoValues ++ [5, 6, 7]) = .ok s1 ∧
      n ≤ 2 * (demoValues ++ [5, 6, 7]).length) ∧
    (∃ s1, pushAllCount (State.mk demoState.heap [⟨0, 0, 0⟩]) 0 (demoValues ++ [5, 6, 7])
      = .ok (s1, 0 + 1 + 3 + 7)) :=
  ⟨⟨by decide, by decide⟩,
    C14_amortized_copies demoState (demoValues ++ [5, 6, 7]) (by decide) (by decide),
    ⟨_, rfl⟩⟩

/-! ## Every effect on the observable state is realized by the call -/

theorem step_complete {s : State Int} (op : Op) {w : AbsState} (hwf : WellFormed s)
    (h : absStep (abs s) op = some w) : ∃ s1, step s op = .ok s1 := by
  have hw1 : (abs s).1 = s.heap.room := rfl
  cases op with
  | construct => exact ⟨_, rfl⟩
  | constructSized n =>
    by_cases hc : 0 ≤ n ∧ n.toNat ≤ MAX_ALLOC ∧ n.toNat ≤ s.heap.room
    · obtain ⟨s1, hok, _⟩ := Vector_sized_spec s n hc.1 hc.2.1 hc.2.2
      exact ⟨s1, hok⟩
    · simp only [absStep, hw1, hc, if_false] at h
      cases h
  | constructCopy a =>
    rcases hl : (abs s).2[a]? with _ | ⟨sz, cap, es⟩
    · simp [absStep, hl] at h
    · obtain ⟨v, hv, hx⟩ := abs_lookup_some hl
      have ha : a < s.objs.length := (List.getElem?_eq_some_iff.mp hv).1
      cases hx
      by_cases hc : v.size_ ≤ s.heap.room
      · obtain ⟨s1, hok, _⟩ := Vector_copy_spec s a v hv (hwf.1 a ha) hc
        exact ⟨s1, hok⟩
      · simp [absStep, hl, hw1, hc] at h
  | assign dst src =>
    by_cases hne : src = dst
    · exact ⟨s, by simp [step, operator_assign, hne]⟩
    · rcases hl : (abs s).2[dst]? with _ | ⟨sz, cap, es⟩
      · simp [absStep, hne, hl] at h
      · rcases hl2 : (abs s).2[src]? with _ | ⟨sz2, cap2, es2⟩
        · simp [absStep, hne, hl, hl2] at h
        · obtain ⟨v, hv, hx⟩ := abs_lookup_some hl
          obtain ⟨r, hr, hx2⟩ := abs_lookup_some hl2
          have ha : dst < s.objs.length := (List.getElem?_eq_some_iff.mp hv).1
          have hb : src < s.objs.length := (List.getElem?_eq_some_iff.mp hr).1
          cases hx
          cases hx2
          by_cases hc : r.size_ ≤ s.heap.room + v.capacity_
          · obtain ⟨s1, hok, _⟩ := operator_assign_spec s dst src v r hne hv hr
              (hwf.1 dst ha) (hwf.1 src hb) (hwf.2 dst src ha hb (fun e => hne e.symm)) hc
            exact ⟨s1, hok⟩
          · simp [absStep, hne, hl, hl2, hw1, hc] at h
  | write a i x =>
    rcases hl : (abs s).2[a]? with _ | ⟨sz, cap, es⟩
    · simp [absStep, hl] at h
    · obtain ⟨v, hv, hx⟩ := abs_lookup_some hl
      have ha : a < s.objs.length := (List.getElem?_eq_some_iff.mp hv).1
      cases hx
      by_cases hc : 0 ≤ i ∧ i.toNat < v.capacity_
      · obtain ⟨s1, hok, _⟩ := index_assign_spec s a v i x hv (hwf.1 a ha) hc.1 hc.2
        exact ⟨s1, hok⟩
      · simp only [absStep, hl, hc, if_false] at h
        cases h
  | push a x =>
    rcases hl : (abs s).2[a]? with _ | ⟨sz, cap, es⟩
    · simp [absStep, hl] at h
    · obtain ⟨v, hv, hx⟩ := abs_lookup_some hl
      have ha : a < s.objs.length := (List.getElem?_eq_some_iff.mp hv).1
      cases hx
      by_cases hc : v.size_ = v.capacity_ →
          2 * v.capacity_ + 1 ≤ MAX_ALLOC ∧ 2 * v.capacity_ + 1 ≤ s.heap.room
      · obtain ⟨s1, _, hok, _⟩ := PushBack_spec s a v x hv (hwf.1 a ha) hc
        exact ⟨s1, hok⟩
      · have hfull : v.size_ = v.capacity_ := by
          by_contra hn
          exact hc (fun e => absurd e hn)
        have hno : ¬ (2 * v.capacity_ + 1 ≤ MAX_ALLOC ∧ 2 * v.capacity_ + 1 ≤ s.heap.room) :=
          fun e => hc (fun _ => e)
        simp only [absStep, hl, hfull, if_true, hw1, hno, if_false] at h
        cases h

theorem run_complete (ops : List Op) : ∀ (s : State Int) (w : AbsState), WellFormed s →
    absRun (abs s) ops = some w → ∃ s1, run s ops = .ok s1 ∧ abs s1 = w ∧ WellFormed s1 := by
  induction ops with
  | nil =>
    intro s w hwf h
    simp only [absRun, Option.some.injEq] at h
    exact ⟨s, rfl, h, hwf⟩
  | cons o os ih =>
    intro s w hwf h
    rcases ha : absStep (abs s) o with _ | w1
    · simp [absRun, ha] at h
    · simp only [absRun, ha] at h
      obtain ⟨s1, hs1⟩ := step_complete o hwf ha
      obtain ⟨hwf1, habs⟩ := step_sound o hwf hs1
      have e : abs s1 = w1 := by
        rw [ha] at habs
        exact (Option.some.inj habs).symm
      rw [← e] at h
      obtain ⟨s2, hrun, habs2, hwf2⟩ := ih s1 w hwf1 h
      exact ⟨s2, by simp only [run, hs1, hrun], habs2, hwf2⟩

theorem run_equiv {s t s1 : State Int} (ops : List Op) (hs : WellFormed s) (ht : WellFormed t)
    (habs : abs s = abs t) (hrun : run s ops = .ok s1) :
    ∃ t1, run t ops = .ok t1 ∧ abs s1 = abs t1 ∧ WellFormed s1 ∧ WellFormed t1 := by
  obtain ⟨hwf1, h1⟩ := run_sound ops s s1 hs hrun
  rw [habs] at h1
  obtain ⟨t1, hrun2, habs2, hwf2⟩ := run_complete ops t (abs s1) ht h1
  exact ⟨t1, hrun2, habs2.symm, hwf1, hwf2⟩

/-! ## Observational equivalence -/

theorem flatMap_single {α β : Type} (l : List α) (f : α → β) :
    l.flatMap (fun a => [f a]) = l.map f := by
  induction l with
  | nil => rfl
  | cons x xs ih => simp [ih]

theorem readAll_elems {T : Type} {s : State T} {b : Nat} {v : Vector}
    (hv : s.objs[b]? = some v) (hval : Valid s b) :
    readAll s b = (List.range v.size_).map (fun i => (elems s b)[i]?) := by
  have e : readAll s b = (List.range v.size_).map (fun i : Nat => index s b (i : Int)) := by
    simp only [readAll, Size_eq hv]
    have e2 : (do let a ← List.range v.size_; pure (a : Int) : List Int)
        = (List.range v.size_).map (fun a : Nat => (a : Int)) := by
      simp [flatMap_single]
    rw [e2, List.map_map]
    rfl
  rw [e]
  apply List.map_congr_left
  intro i hi
  exact index_elems hv hval i (List.mem_range.mp hi)

theorem obsEq_of_abs {s1 s2 : State Int} (h1 : WellFormed s1) (h2 : WellFormed s2)
    (habs : abs s1 = abs s2) : ObsEq s1 s2 := by
  intro b
  have hlen : s1.objs.length = s2.objs.length := by
    rw [← abs_length s1, ← abs_length s2, habs]
  by_cases hb : b < s1.objs.length
  · have hb2 : b < s2.objs.length := by omega
    have hv1 : s1.objs[b]? = some s1.objs[b] := List.getElem?_eq_getElem hb
    have hv2 : s2.objs[b]? = some s2.objs[b] := List.getElem?_eq_getElem hb2
    have e1 := abs_lookup hv1
    have e2 := abs_lookup hv2
    rw [habs, e2] at e1
    simp only [Option.some.injEq, Prod.mk.injEq] at e1
    obtain ⟨es, ec, ee⟩ := e1
    refine ⟨?_, ?_, ?_⟩
    · rw [Size_eq hv1, Size_eq hv2, es]
    · rw [Capacity_eq hv1, Capacity_eq hv2, ec]
    · rw [readAll_elems hv1 (h1.1 b hb), readAll_elems hv2 (h2.1 b hb2), es, ee]
  · have hn1 : s1.objs[b]? = none := List.getElem?_eq_none (by omega)
    have hn2 : s2.objs[b]? = none := List.getElem?_eq_none (by omega)
    simp [Size, Capacity, readAll, hn1, hn2]

/-- C15: `Vector(0)` is observably equivalent to `Vector()`.  From any state
satisfying the data-model invariant both constructors return normally with a new
object reporting `Size() == 0` and `Capacity() == 0`; and for every finite
sequence of later calls (constructors, copies, copy-assignments, indexed writes,
appends, on any objects) the run after `Vector()` returns normally exactly when
the run after `Vector(0)` does, and then both final states report the same
`Size()`, the same `Capacity()` and the same elements below the size for every
object.  As every prefix of a sequence is a sequence, this holds at every step. -/
theorem C15_sized_zero_equivalent_to_default (s : State Int) (hwf : WellFormed s) :
    ∃ sd sz, Vector_default s = .ok sd ∧ Vector_sized s 0 = .ok sz ∧
      Size sd s.objs.length = some 0 ∧ Capacity sd s.objs.length = some 0 ∧
      Size sz s.objs.length = some 0 ∧ Capacity sz s.objs.length = some 0 ∧
      ∀ ops : List Op,
        (∀ s1, run sd ops = .ok s1 → ∃ s2, run sz ops = .ok s2 ∧ ObsEq s1 s2) ∧
        (∀ s2, run sz ops = .ok s2 → ∃ s1, run sd ops = .ok s1 ∧ ObsEq s1 s2) := by
  obtain ⟨sz, hsz, hobjs, _⟩ :=
    Vector_sized_spec s 0 (Int.le_refl 0) (Nat.zero_le _) (Nat.zero_le _)
  obtain ⟨hwfd, habsd⟩ := sound_construct hwf (rfl : Vector_default s = .ok _)
  obtain ⟨hwfz, habsz⟩ := sound_sized hwf hsz
  have hsame : abs (State.mk s.heap (s.objs ++ [⟨0, 0, 0⟩])) = abs sz := by
    have e : absStep (abs s) .construct = absStep (abs s) (.constructSized 0) := by
      simp [absStep]
    rw [habsd, habsz] at e
    exact Option.some.inj e
  have hvz : sz.objs[s.objs.length]? = some ⟨s.heap.blocks.length + 1, 0, 0⟩ := by
    rw [hobjs]; simp
  have hvd : (State.mk s.heap (s.objs ++ [⟨0, 0, 0⟩])).objs[s.objs.length]?
      = some ⟨0, 0, 0⟩ := by simp
  refine ⟨_, sz, rfl, hsz, by rw [Size_eq hvd], by rw [Capacity_eq hvd],
    by rw [Size_eq hvz], by rw [Capacity_eq hvz], ?_⟩
  intro ops
  refine ⟨?_, ?_⟩
  · intro s1 hrun
    obtain ⟨s2, hrun2, habs, hw1, hw2⟩ := run_equiv ops hwfd hwfz hsame hrun
    exact ⟨s2, hrun2, obsEq_of_abs hw1 hw2 habs⟩
  · intro s2 hrun
    obtain ⟨s1, hrun1, habs, hw2, hw1⟩ := run_equiv ops hwfz hwfd hsame.symm hrun
    exact ⟨s1, hrun1, obsEq_of_abs hw1 hw2 habs.symm⟩

theorem C15_witness :
    WellFormed demoState ∧
    ∃ sd sz, Vector_default demoState = .ok sd ∧ Vector_sized demoState 0 = .ok sz ∧
      Size sd demoState.objs.length = some 0 ∧ Capacity sd demoState.objs.length = some 0 ∧
      Size sz demoState.objs.length = some 0 ∧ Capacity sz demoState.objs.length = some 0 ∧
      ∀ ops : List Op,
        (∀ s1, run sd ops = .ok s1 → ∃ s2, run sz ops = .ok s2 ∧ ObsEq s1 s2) ∧
        (∀ s2, run sz ops = .ok s2 → ∃ s1, run sd ops = .ok s1 ∧ ObsEq s1 s2) :=
  ⟨wellFormed_empty demoState rfl,
    C15_sized_zero_equivalent_to_default demoState (wellFormed_empty demoState rfl)⟩

/-! ## Which arrays are live after a call -/

theorem store_live {T : Type} {h h1 : Heap T} {p i : Nat} {c : Cell T}
    (hs : h.store p i c = some h1) (q : Nat) :
    (h1.cells q).isSome ↔ (h.cells q).isSome := by
  obtain ⟨cs, hc, hi⟩ := store_some hs
  obtain ⟨hp, hle, _⟩ := cells_some hc
  rw [store_eq hc i hi] at hs
  cases hs
  rw [cells_put h p q _ hp hle]
  by_cases hq : q = p
  · subst hq; simp [hc]
  · simp [hq]

theorem copyLoop_live {T : Type} (dst src : Nat) (k : Nat) :
    ∀ (h h1 : Heap T) (i : Nat), copyLoop h dst src i k = some h1 →
      ∀ q, (h1.cells q).isSome ↔ (h.cells q).isSome := by
  induction k with
  | zero =>
    intro h h1 i hc q
    simp only [copyLoop, Option.some.injEq] at hc
    rw [hc]
  | succ k ih =>
    intro h h1 i hc q
    unfold copyLoop at hc
    rcases hl : h.load src i with _ | c
    · simp [hl] at hc
    · simp only [hl] at hc
      rcases hs : h.store dst i c with _ | h2
      · simp [hs] at hc
      · simp only [hs] at hc
        rw [ih h2 h1 (i + 1) hc q, store_live hs q]

theorem alloc_live {T : Type} {h h1 : Heap T} {n p : Nat} {init : Cell T}
    (ha : h.alloc n init = some (p, h1)) :
    p = h.blocks.length + 1 ∧ h1.room = h.room - n ∧
      ∀ q, (h1.cells q).isSome ↔ ((h.cells q).isSome ∨ q = p) := by
  by_cases hfit : n ≤ MAX_ALLOC ∧ n ≤ h.room
  · rw [alloc_eq h init hfit.1 hfit.2] at ha
    cases ha
    refine ⟨rfl, rfl, ?_⟩
    intro q
    rw [cells_snoc h.blocks _ h.room]
    by_cases hq : q = h.blocks.length + 1
    · simp [hq]
    · simp [hq]
  · rw [alloc_none h n init hfit] at ha
    cases ha

theorem free_live {T : Type} {h h1 : Heap T} {p : Nat} (hf : h.free p = some h1) (q : Nat) :
    (h1.cells q).isSome ↔ ((h.cells q).isSome ∧ q ≠ p) := by
  cases p with
  | zero =>
    simp only [Heap.free, Option.some.injEq] at hf
    rw [← hf]
    constructor
    · intro hq
      refine ⟨hq, ?_⟩
      intro e
      rw [e, cells_zero] at hq
      cases hq
    · exact fun hq => hq.1
  | succ p0 =>
    rcases hb : h.blocks[p0]? with _ | (_ | cs)
    · simp [Heap.free, hb] at hf
    · simp [Heap.free, hb] at hf
    · have hc : h.cells (p0 + 1) = some cs := by rw [cells_succ, hb]; rfl
      obtain ⟨hp, hle, _⟩ := cells_some hc
      rw [free_eq hc] at hf
      cases hf
      have e := cells_congr (Heap.mk (h.put (p0 + 1) none).blocks (h.room + cs.length))
        (h.put (p0 + 1) none) rfl q
      rw [e, cells_put h (p0 + 1) q none hp hle]
      by_cases hq : q = p0 + 1
      · simp [hq]
      · simp [hq]

theorem live_ne_zero {T : Type} {h : Heap T} {q : Nat} (hq : (h.cells q).isSome) : q ≠ 0 := by
  intro e
  rw [e, cells_zero] at hq
  cases hq

theorem owned_step {T : Type} {s s1 : State T} (d a : Nat) (v1 : Vector)
    (hown : OwnedBelow s s.objs.length) (hlen : s.objs.length ≤ s1.objs.length)
    (hv1 : s1.objs[a]? = some v1)
    (hother : ∀ b, b ≠ a → s1.objs[b]? = s.objs[b]?)
    (hold : ∀ v, s.objs[a]? = some v → v.data_ = d)
    (hlive : ∀ q, (s1.heap.cells q).isSome →
      q = v1.data_ ∨ ((s.heap.cells q).isSome ∧ q ≠ d)) :
    OwnedBelow s1 s1.objs.length := by
  intro q hq
  rcases hlive q hq with e | ⟨hl, hne⟩
  · exact ⟨a, v1, (List.getElem?_eq_some_iff.mp hv1).1, hv1, e.symm⟩
  · obtain ⟨b, w, hb, hw, hwd⟩ := hown q hl
    have hba : b ≠ a := by
      intro e
      rw [e] at hw
      exact hne ((hold w hw).symm.trans hwd).symm
    exact ⟨b, w, by omega, by rw [hother b hba, hw], hwd⟩

theorem set_other {α : Type} (l : List α) (a : Nat) (x : α) :
    ∀ b, b ≠ a → (l.set a x)[b]? = l[b]? := by
  intro b hb
  rw [List.getElem?_set_ne (fun e => hb e.symm)]

theorem append_other {α : Type} (l : List α) (x : α) :
    ∀ b, b ≠ l.length → (l ++ [x])[b]? = l[b]? := by
  intro b hb
  by_cases hlt : b < l.length
  · rw [List.getElem?_append_left hlt]
  · rw [List.getElem?_eq_none (by simp; omega), List.getElem?_eq_none (by omega)]

theorem absent_data {T : Type} (s : State T) (d : Nat) :
    ∀ v, s.objs[s.objs.length]? = some v → v.data_ = d := by
  intro v hv
  rw [List.getElem?_eq_none (Nat.le_refl _)] at hv
  cases hv

theorem step_owned {s s1 : State Int} (op : Op) (hown : OwnedBelow s s.objs.length)
    (h : step s op = .ok s1) : OwnedBelow s1 s1.objs.length := by
  cases op with
  | construct =>
    have e : s1 = State.mk s.heap (s.objs ++ [⟨0, 0, 0⟩]) := ok_inj h rfl
    subst e
    refine owned_step 0 s.objs.length ⟨0, 0, 0⟩ hown (by simp) (by simp) (append_other _ _)
      (absent_data s 0) ?_
    intro q hq
    exact Or.inr ⟨hq, live_ne_zero hq⟩
  | constructSized n =>
    simp only [step, Vector_sized, show (default : Int) = 0 from rfl] at h
    by_cases hneg : n < 0
    · simp [hneg] at h
    · rcases ha : s.heap.alloc n.toNat (some (0 : Int)) with _ | ⟨p, h1⟩
      · simp [hneg, ha] at h
      · simp only [hneg, if_false, ha, Outcome.ok.injEq] at h
        subst h
        obtain ⟨_, _, hl⟩ := alloc_live ha
        refine owned_step 0 s.objs.length ⟨p, n.toNat % SIZE_MOD, n.toNat % SIZE_MOD⟩ hown
          (by simp) (by simp) (append_other _ _) (absent_data s 0) ?_
        intro q hq
        rcases (hl q).mp hq with hq1 | hq1
        · exact Or.inr ⟨hq1, live_ne_zero hq1⟩
        · exact Or.inl hq1
  | constructCopy a =>
    simp only [step, Vector_copy, show (default : Int) = 0 from rfl] at h
    rcases hr : s.objs[a]? with _ | r
    · simp [hr] at h
    · rcases ha : s.heap.alloc r.size_ (some (0 : Int)) with _ | ⟨p, h1⟩
      · simp [hr, ha] at h
      · rcases hc : copyLoop h1 p r.data_ 0 r.size_ with _ | h2
        · simp [hr, ha, hc] at h
        · simp only [hr, ha, hc, Outcome.ok.injEq] at h
          subst h
          obtain ⟨_, _, hl⟩ := alloc_live ha
          refine owned_step 0 s.objs.length ⟨p, r.size_, r.size_⟩ hown (by simp) (by simp)
            (append_other _ _) (absent_data s 0) ?_
          intro q hq
          rcases (hl q).mp ((copyLoop_live _ _ _ _ _ _ hc q).mp hq) with hq1 | hq1
          · exact Or.inr ⟨hq1, live_ne_zero hq1⟩
          · exact Or.inl hq1
  | assign dst src =>
    by_cases hne : src = dst
    · have e : s1 = s := ok_inj h (by simp [step, operator_assign, hne])
      subst e
      exact hown
    · simp only [step, operator_assign, hne, if_false] at h
      rcases hv : s.objs[dst]? with _ | v
      · simp [hv] at h
      · rcases hr : s.objs[src]? with _ | r
        · simp [hv, hr] at h
        · rcases hf : s.heap.free v.data_ with _ | h1
          · simp [hv, hr, hf] at h
          · rcases ha : h1.alloc r.size_ (some (0 : Int)) with _ | ⟨p, h2⟩
            · simp [hv, hr, hf, ha] at h
            · rcases hc : copyLoop h2 p r.data_ 0 r.size_ with _ | h3
              · simp [hv, hr, hf, ha, hc] at h
              · simp only [hv, hr, hf, ha, hc, Outcome.ok.injEq] at h
                subst h
                obtain ⟨_, _, hl⟩ := alloc_live ha
                have hd : dst < s.objs.length := (List.getElem?_eq_some_iff.mp hv).1
                refine owned_step v.data_ dst ⟨p, r.size_, r.size_⟩ hown (by simp)
                  (by simp [hd]) (set_other _ _ _) (fun w hw => by rw [hv] at hw; cases hw; rfl) ?_
                intro q hq
                rcases (hl q).mp ((copyLoop_live _ _ _ _ _ _ hc q).mp hq) with hq1 | hq1
                · exact Or.inr ((free_live hf q).mp hq1)
                · exact Or.inl hq1
  | write a i x =>
    simp only [step, index_assign] at h
    rcases hv : s.objs[a]? with _ | v
    · simp [hv] at h
    · by_cases hneg : i < 0
      · simp [hv, hneg] at h
      · rcases hs : s.heap.store v.data_ i.toNat (some x) with _ | h1
        · simp [hv, hneg, hs] at h
        · simp only [hv, hneg, if_false, hs, Outcome.ok.injEq] at h
          subst h
          refine owned_step v.data_ a v hown (Nat.le_refl _) hv (fun _ _ => rfl)
            (fun w hw => by rw [hv] at hw; cases hw; rfl) ?_
          intro q hq
          have hq1 := (store_live hs q).mp hq
          by_cases hqd : q = v.data_
          · exact Or.inl hqd
          · exact Or.inr ⟨hq1, hqd⟩
  | push a x =>
    simp only [step, PushBack] at h
    rcases hv : s.objs[a]? with _ | v
    · simp [hv] at h
    · have hd : a < s.objs.length := (List.getElem?_eq_some_iff.mp hv).1
      by_cases hfull : v.capacity_ ≤ v.size_
      · rcases ha : s.heap.alloc ((v.capacity_ * 2 + 1) % SIZE_MOD) (none : Cell Int)
          with _ | ⟨p, h1⟩
        · simp [hv, hfull, ha] at h
        · rcases hc : copyLoop h1 p v.data_ 0 v.size_ with _ | h2
          · simp [hv, hfull, ha, hc] at h
          · rcases hf : h2.free v.data_ with _ | h3
            · simp [hv, hfull, ha, hc, hf] at h
            · rcases hs : h3.store p v.size_ (some x) with _ | h4
              · simp [hv, hfull, ha, hc, hf, PushBack_store, hs] at h
              · simp only [hv, hfull, if_true, ha, hc, hf, PushBack_store, hs,
                  Outcome.ok.injEq] at h
                subst h
                obtain ⟨_, _, hl⟩ := alloc_live ha
                refine owned_step v.data_ a
                  ⟨p, (v.size_ + 1) % SIZE_MOD, (v.capacity_ * 2 + 1) % SIZE_MOD⟩ hown (by simp)
                  (by simp [hd]) (set_other _ _ _) (fun w hw => by rw [hv] at hw; cases hw; rfl) ?_
                intro q hq
                have hq3 := (free_live hf q).mp ((store_live hs q).mp hq)
                rcases (hl q).mp ((copyLoop_live _ _ _ _ _ _ hc q).mp hq3.1) with hq1 | hq1
                · exact Or.inr ⟨hq1, hq3.2⟩
                · exact Or.inl hq1
      · rcases hs : s.heap.store v.data_ v.size_ (some x) with _ | h1
        · simp [hv, hfull, PushBack_store, hs] at h
        · simp only [hv, hfull, if_false, PushBack_store, hs, Outcome.ok.injEq] at h
          subst h
          refine owned_step v.data_ a ⟨v.data_, (v.size_ + 1) % SIZE_MOD, v.capacity_⟩ hown
            (by simp) (by simp [hd]) (set_other _ _ _) (fun w hw => by rw [hv] at hw; cases hw; rfl) ?_
          intro q hq
          have hq1 := (store_live hs q).mp hq
          by_cases hqd : q = v.data_
          · exact Or.inl hqd
          · exact Or.inr ⟨hq1, hqd⟩

theorem run_owned (ops : List Op) : ∀ s s1 : State Int, OwnedBelow s s.objs.length →
    run s ops = .ok s1 → OwnedBelow s1 s1.objs.length := by
  induction ops with
  | nil =>
    intro s s1 hown h
    have e : s1 = s := ok_inj h rfl
    subst e
    exact hown
  | cons o os ih =>
    intro s s1 hown h
    rcases ho : step s o with s2 | s2 | _
    · simp only [run, ho] at h
      exact ih s2 s1 (step_owned o hown ho) h
    · simp [run, ho] at h
    · simp [run, ho] at h

/-! ## Destruction -/

theorem destroyAll_spec {T : Type} (n : Nat) : ∀ s : State T,
    (∀ a, a < n → Valid s a) → (∀ a b, a < n → b < n → a ≠ b → Disjoint s a b) →
    OwnedBelow s n →
    ∃ s2, destroyAll s n = .ok s2 ∧ (∀ p, s2.heap.cells p = none) ∧ s2.objs = s.objs := by
  induction n with
  | zero =>
    intro s _ _ hown
    refine ⟨s, rfl, ?_, rfl⟩
    intro p
    by_contra hp
    obtain ⟨a, _, ha, _⟩ := hown p (Option.isSome_iff_ne_none.mpr hp)
    exact absurd ha (Nat.not_lt_zero a)
  | succ n ih =>
    intro s hval hdis hown
    obtain ⟨v, hv⟩ := valid_obj (hval n (Nat.lt_succ_self n))
    obtain ⟨_, _, hb⟩ := valid_backs hv (hval n (Nat.lt_succ_self n))
    obtain ⟨h1, hfree, _, _, hc1⟩ := free_backs hb
    have hd : destructor s n = .ok (State.mk h1 s.objs) := by
      simp only [destructor, hv, hfree]
    have hconf : Confined s (State.mk h1 s.objs) n := by
      refine ⟨fun _ _ => rfl, ?_⟩
      intro p cs hp hnot
      simp only
      rw [hc1 p (hnot v hv), hp]
    have hval1 : ∀ a, a < n → Valid (State.mk h1 s.objs) a := by
      intro a ha
      exact (confined_frame hconf (hdis n a (Nat.lt_succ_self n) (by omega) (by omega))
        (hval a (by omega))).1
    have hdis1 : ∀ a b, a < n → b < n → a ≠ b → Disjoint (State.mk h1 s.objs) a b := by
      intro a b ha hb hab
      exact hdis a b (by omega) (by omega) hab
    have hown1 : OwnedBelow (State.mk h1 s.objs) n := by
      intro q hq
      obtain ⟨hq1, hqne⟩ := (free_live hfree q).mp hq
      obtain ⟨a, w, ha, hw, hwd⟩ := hown q hq1
      have han : a ≠ n := by
        intro e
        rw [e, hv] at hw
        cases hw
        exact hqne hwd.symm
      exact ⟨a, w, by omega, hw, hwd⟩
    obtain ⟨s2, hrun, hnone, hobjs⟩ := ih (State.mk h1 s.objs) hval1 hdis1 hown1
    exact ⟨s2, by simp only [destroyAll, hd, hrun], hnone, hobjs⟩

/-- C16: every buffer is released exactly once.  Start from a state that
satisfies the data-model invariant and in which every live array is the buffer
of an object (in particular a state without objects and without live arrays).
After every finite sequence of constructor calls, appends, copy-assignments and
indexed writes that return normally, destroying all objects returns normally
and leaves no live array in the free store: every allocated buffer has been
released, and none twice, as a second `delete[]` of an array is undefined
behaviour and would not return normally.  Destroying an object whose `data_` is
null changes nothing. -/
theorem C16_released_exactly_once (s s1 : State Int) (ops : List Op)
    (hwf : WellFormed s) (hown : OwnedBelow s s.objs.length) (hrun : run s ops = .ok s1) :
    (∃ s2, destroyAll s1 s1.objs.length = .ok s2 ∧
      (∀ p, s2.heap.cells p = none) ∧ ∀ b ∈ s2.heap.blocks, b = none) ∧
    ∀ (t : State Int) (a : Nat) (v : Vector),
      t.objs[a]? = some v → v.data_ = 0 → destructor t a = .ok t := by
  obtain ⟨hwf1, _⟩ := run_sound ops s s1 hwf hrun
  have hown1 := run_owned ops s s1 hown hrun
  obtain ⟨s2, hd, hnone, _⟩ := destroyAll_spec s1.objs.length s1 hwf1.1 hwf1.2 hown1
  refine ⟨⟨s2, hd, hnone, ?_⟩, ?_⟩
  · intro b hb
    obtain ⟨q, hq, hget⟩ := List.getElem_of_mem hb
    have hc := hnone (q + 1)
    rw [cells_succ, List.getElem?_eq_getElem hq, hget] at hc
    rcases b with _ | cs
    · rfl
    · simp at hc
  · intro t a v hv h0
    simp only [destructor, hv, h0, Heap.free]

theorem C16_witness :
    (WellFormed demoState ∧ OwnedBelow demoState demoState.objs.length ∧
      ∃ s1, run demoState mainOps = .ok s1) ∧
    ∃ s1, run demoState mainOps = .ok s1 ∧
      ((∃ s2, destroyAll s1 s1.objs.length = .ok s2 ∧
        (∀ p, s2.heap.cells p = none) ∧ ∀ b ∈ s2.heap.blocks, b = none) ∧
      ∀ (t : State Int) (a : Nat) (v : Vector),
        t.objs[a]? = some v → v.data_ = 0 → destructor t a = .ok t) :=
  ⟨⟨wellFormed_empty demoState rfl,
      fun p hp => absurd hp (by cases p <;> simp [demoState, Heap.cells]), ⟨_, rfl⟩⟩,
    ⟨_, rfl, C16_released_exactly_once demoState _ mainOps (wellFormed_empty demoState rfl)
      (fun p hp => absurd hp (by cases p <;> simp [demoState, Heap.cells])) rfl⟩⟩

/-! ## Copy assignment against the copy constructor -/

/-- C17, the part that holds: for `T = int`, the one element type for which the
replacement buffer `new int[size_]{}` has the type of `data_`, copy assignment
between distinct valid objects owning different buffers leaves the target with
the same `Size()`, `Capacity()` and elements as the object the copy constructor
builds from the same source. -/
theorem C17_assign_matches_copy_for_int (s : State Int) (dst src : Nat) (v r : Vector)
    (hne : src ≠ dst) (hv : s.objs[dst]? = some v) (hr : s.objs[src]? = some r)
    (hvalD : Valid s dst) (hvalS : Valid s src) (hdis : Disjoint s dst src)
    (hroom : r.size_ ≤ s.heap.room) :
    ∃ s1 s2, operator_assign s dst src = .ok s1 ∧ Vector_copy s src = .ok s2 ∧
      Size s1 dst = Size s2 s.objs.length ∧ Capacity s1 dst = Capacity s2 s.objs.length ∧
      readAll s1 dst = readAll s2 s.objs.length := by
  have ha : dst < s.objs.length := (List.getElem?_eq_some_iff.mp hv).1
  obtain ⟨s1, hasg, hobjs1, hval1, hbuf1, _⟩ :=
    operator_assign_spec s dst src v r hne hv hr hvalD hvalS hdis (by omega)
  obtain ⟨s2, hcopy, hobjs2, hval2, hbuf2, _⟩ := Vector_copy_spec s src r hr hvalS hroom
  have hv1 : s1.objs[dst]? = some ⟨s.heap.blocks.length + 1, r.size_, r.size_⟩ := by
    rw [hobjs1]; simp [ha]
  have hv2 : s2.objs[s.objs.length]? = some ⟨s.heap.blocks.length + 1, r.size_, r.size_⟩ := by
    rw [hobjs2]; simp
  have hel1 := elems_full hv1 hbuf1 (by rw [elems_length hr hvalS])
  have hel2 := elems_full hv2 hbuf2 (by rw [elems_length hr hvalS])
  refine ⟨s1, s2, hasg, hcopy, by rw [Size_eq hv1, Size_eq hv2],
    by rw [Capacity_eq hv1, Capacity_eq hv2], ?_⟩
  rw [readAll_elems hv1 hval1, readAll_elems hv2 hval2, hel1, hel2]

theorem C17_witness :
    ((0 : Nat) ≠ 1 ∧ demoTwo.objs[1]? = some demoN ∧ demoTwo.objs[0]? = some demoV ∧
      Valid demoTwo 1 ∧ Valid demoTwo 0 ∧ Disjoint demoTwo 1 0 ∧
      demoV.size_ ≤ demoTwo.heap.room) ∧
    ∃ s1 s2, operator_assign demoTwo 1 0 = .ok s1 ∧ Vector_copy demoTwo 0 = .ok s2 ∧
      Size s1 1 = Size s2 demoTwo.objs.length ∧
      Capacity s1 1 = Capacity s2 demoTwo.objs.length ∧
      readAll s1 1 = readAll s2 demoTwo.objs.length :=
  ⟨⟨by decide, by decide, by decide, by decide, by decide, by decide, by decide⟩,
    C17_assign_matches_copy_for_int demoTwo 1 0 demoN demoV (by decide) (by decide)
      (by decide) (by decide) (by decide) (by decide) (by decide)⟩

/-! ## Indexed access -/

theorem index_int {T : Type} {s : State T} {a : Nat} {v : Vector}
    (hv : s.objs[a]? = some v) (hval : Valid s a) (j : Int) (hj : 0 ≤ j) :
    index s a j = (buffer s a)[j.toNat]? := by
  have h := index_buffer hv hval j.toNat
  rw [Int.toNat_of_nonneg hj] at h
  exact h

theorem index_neg {T : Type} (s : State T) (a : Nat) (j : Int) (hj : j < 0) :
    index s a j = none := by
  unfold index
  rcases s.objs[a]? with _ | v
  · rfl
  · simp [hj]

/-- C18: the get/set laws of indexed access.  On a valid object and for
`0 ≤ i < size_`, reading `c[i]` yields the element at logical index `i` (the read
is a function of the state and changes nothing); the write `c[i] = x` returns
normally, after it a read of `c[i]` yields `x`, `Size()` and `Capacity()` are
unchanged, and the element at every other index is unchanged. -/
theorem C18_index_get_set {T : Type} (s : State T) (a : Nat) (v : Vector) (i : Int) (x : T)
    (hv : s.objs[a]? = some v) (hval : Valid s a) (h0 : 0 ≤ i) (hi : i < (v.size_ : Int)) :
    (∃ c, index s a i = some c ∧ (elems s a)[i.toNat]? = some c) ∧
    ∃ s1, index_assign s a i x = .ok s1 ∧ index s1 a i = some (some x) ∧
      Size s1 a = Size s a ∧ Capacity s1 a = Capacity s a ∧
      ∀ j : Int, j ≠ i → index s1 a j = index s a j := by
  obtain ⟨hsz, _, hlen, _⟩ := valid_backs hv hval
  have hin : i.toNat < v.size_ := by omega
  have hel : (elems s a)[i.toNat]? = (buffer s a)[i.toNat]? := by
    rw [elems_of_buffer hv, List.getElem?_take_of_lt hin]
  refine ⟨?_, ?_⟩
  · have hb : i.toNat < (buffer s a).length := by omega
    refine ⟨(buffer s a)[i.toNat], ?_, ?_⟩
    · rw [index_int hv hval i h0, List.getElem?_eq_getElem hb]
    · rw [hel, List.getElem?_eq_getElem hb]
  · obtain ⟨s1, hw, hobjs, hval1, _, hbuf, _⟩ :=
      index_assign_spec s a v i x hv hval h0 (by omega)
    have hv1 : s1.objs[a]? = some v := by rw [hobjs, hv]
    refine ⟨s1, hw, ?_, by rw [Size_eq hv1, Size_eq hv],
      by rw [Capacity_eq hv1, Capacity_eq hv], ?_⟩
    · rw [index_int hv1 hval1 i h0, hbuf, List.getElem?_set_self (by omega)]
    · intro j hj
      by_cases hneg : j < 0
      · rw [index_neg s1 a j hneg, index_neg s a j hneg]
      · rw [index_int hv1 hval1 j (by omega), index_int hv hval j (by omega), hbuf,
          List.getElem?_set_ne (by omega)]

theorem C18_witness :
    (demoFive.objs[0]? = some demoV ∧ Valid demoFive 0 ∧ (0 : Int) ≤ 2 ∧
      (2 : Int) < (demoV.size_ : Int)) ∧
    ((∃ c, index demoFive 0 2 = some c ∧ (elems demoFive 0)[(2 : Int).toNat]? = some c) ∧
    ∃ s1, index_assign demoFive 0 2 9 = .ok s1 ∧ index s1 0 2 = some (some 9) ∧
      Size s1 0 = Size demoFive 0 ∧ Capacity s1 0 = Capacity demoFive 0 ∧
      ∀ j : Int, j ≠ 2 → index s1 0 j = index demoFive 0 j) ∧
    (∃ s1, index_assign demoFive 0 2 9 = .ok s1 ∧
      readAll demoFive 0
        = [some (some 0), some (some 1), some (some 2), some (some 3), some (some 4)] ∧
      readAll s1 0
        = [some (some 0), some (some 1), some (some 9), some (some 3), some (some 4)]) :=
  ⟨⟨by decide, by decide, by decide, by decide⟩,
    C18_index_get_set demoFive 0 demoV 2 9 (by decide) (by decide) (by decide) (by decide),
    ⟨_, rfl, by decide, by decide⟩⟩

/-! ## The closed form of the capacity sequence -/

theorem refCapacity_closed (k : Nat) :
    ∃ m, refCapacity k = 2 ^ m - 1 ∧ k ≤ 2 ^ m - 1 ∧ (m = 0 ∨ 2 ^ (m - 1) ≤ k) := by
  induction k with
  | zero => exact ⟨0, rfl, by simp, Or.inl rfl⟩
  | succ k ih =>
    obtain ⟨m, hc, hle, hleast⟩ := ih
    have hpos : 1 ≤ 2 ^ m := Nat.one_le_two_pow
    have hstep : refCapacity (k + 1) = growStep k (refCapacity k) := rfl
    by_cases hfull : k = 2 ^ m - 1
    · refine ⟨m + 1, ?_, ?_, Or.inr ?_⟩
      · rw [hstep, hc, growStep, if_pos hfull, Nat.pow_succ]
        omega
      · rw [Nat.pow_succ]
        omega
      · simp only [Nat.add_sub_cancel]
        omega
    · refine ⟨m, ?_, by omega, ?_⟩
      · rw [hstep, hc, growStep, if_neg hfull]
      · rcases hleast with h0 | h1
        · rw [h0] at hfull hle
          simp at hle
          simp [hle] at hfull
        · exact Or.inr (by omega)

theorem least_exponent {k m : Nat} (hleast : m = 0 ∨ 2 ^ (m - 1) ≤ k) :
    ∀ n, k ≤ 2 ^ n - 1 → m ≤ n := by
  intro n hn
  rcases hleast with h0 | h1
  · omega
  · have hpos : 1 ≤ 2 ^ n := Nat.one_le_two_pow
    have hlt : 2 ^ (m - 1) < 2 ^ n := by omega
    have := (Nat.pow_lt_pow_iff_right (by decide : 1 < 2)).mp hlt
    omega

theorem closed_upper {k m : Nat} (hleast : m = 0 ∨ 2 ^ (m - 1) ≤ k) : 2 ^ m - 1 ≤ 2 * k := by
  rcases hleast with h0 | h1
  · rw [h0]; simp
  · cases m with
    | zero => simp
    | succ j =>
      simp only [Nat.add_sub_cancel] at h1
      rw [Nat.pow_succ]
      omega

/-- C19: closed form of the capacity sequence.  After `k` consecutive `PushBack`
calls on a default-constructed container (`k` the length of `xs`, with room in
the allocator), `Capacity()` is `2 ^ m - 1` for the least `m` with
`k ≤ 2 ^ m - 1`; hence it is one less than a power of two and lies between `k`
and `2 * k`. -/
theorem C19_capacity_closed_form {T : Type} (s : State T) (xs : List T)
    (hroom : 3 * xs.length ≤ s.heap.room) (hmax : 2 * xs.length ≤ MAX_ALLOC) :
    ∃ s0 s1 m, Vector_default s = .ok s0 ∧ pushAll s0 s.objs.length xs = .ok s1 ∧
      Capacity s1 s.objs.length = some (2 ^ m - 1) ∧
      xs.length ≤ 2 ^ m - 1 ∧ (∀ n, xs.length ≤ 2 ^ n - 1 → m ≤ n) ∧
      2 ^ m - 1 ≤ 2 * xs.length := by
  obtain ⟨hv0, hval0, _⟩ := default_valid s
  obtain ⟨s1, v1, hall, hv1, _, _, hcap, _⟩ :=
    pushAll_spec s.objs.length xs _ _ hv0 hval0 (by simpa using hroom) (by simpa using hmax)
  obtain ⟨m, hc, hle, hleast⟩ := refCapacity_closed xs.length
  refine ⟨_, s1, m, rfl, hall, ?_, hle, least_exponent hleast, closed_upper hleast⟩
  rw [Capacity_eq hv1, hcap]
  exact congrArg some ((capAfter_zero xs.length).trans hc)

theorem C19_witness :
    (3 * demoValues.length ≤ demoState.heap.room ∧ 2 * demoValues.length ≤ MAX_ALLOC) ∧
    (∃ s0 s1 m, Vector_default demoState = .ok s0 ∧
      pushAll s0 demoState.objs.length demoValues = .ok s1 ∧
      Capacity s1 demoState.objs.length = some (2 ^ m - 1) ∧
      demoValues.length ≤ 2 ^ m - 1 ∧ (∀ n, demoValues.length ≤ 2 ^ n - 1 → m ≤ n) ∧
      2 ^ m - 1 ≤ 2 * demoValues.length) ∧
    Capacity demoFive 0 = some (2 ^ 3 - 1) :=
  ⟨⟨by decide, by decide⟩,
    C19_capacity_closed_form demoState demoValues (by decide) (by decide), by decide⟩

/-! ## Accesses stay inside allocated storage -/

theorem PushBack_defined {T : Type} (s : State T) (a : Nat) (v : Vector) (x : T)
    (hv : s.objs[a]? = some v) (hval : Valid s a) :
    (∃ s1, PushBack s a x = .ok s1) ∨ (∃ s1, PushBack s a x = .threw s1) := by
  by_cases hfit : v.size_ = v.capacity_ →
      2 * v.capacity_ + 1 ≤ MAX_ALLOC ∧ 2 * v.capacity_ + 1 ≤ s.heap.room
  · obtain ⟨s1, _, hok, _⟩ := PushBack_spec s a v x hv hval hfit
    exact Or.inl ⟨s1, hok⟩
  · right
    obtain ⟨_, hmax, _⟩ := valid_backs hv hval
    have hM := max_alloc_lt
    have hfull : v.size_ = v.capacity_ := by
      by_contra hn
      exact hfit (fun e => absurd e hn)
    have hno : ¬ (2 * v.capacity_ + 1 ≤ MAX_ALLOC ∧ 2 * v.capacity_ + 1 ≤ s.heap.room) :=
      fun e => hfit (fun _ => e)
    have hcap : (v.capacity_ * 2 + 1) % SIZE_MOD = 2 * v.capacity_ + 1 := by
      rw [Nat.mod_eq_of_lt (by unfold MAX_ALLOC SIZE_MOD at *; omega)]; omega
    have hle : v.capacity_ ≤ v.size_ := by omega
    refine ⟨State.mk s.heap (s.objs.set a ⟨v.data_, v.size_, 2 * v.capacity_ + 1⟩), ?_⟩
    simp only [PushBack, hv, hle, if_true, hcap,
      alloc_none s.heap (2 * v.capacity_ + 1) (none : Cell T) hno]

theorem Vector_copy_defined {T : Type} [Inhabited T] (s : State T) (a : Nat) (v : Vector)
    (hv : s.objs[a]? = some v) (hval : Valid s a) :
    (∃ s1, Vector_copy s a = .ok s1) ∨ Vector_copy s a = .threw s := by
  by_cases hroom : v.size_ ≤ s.heap.room
  · obtain ⟨s1, hok, _⟩ := Vector_copy_spec s a v hv hval hroom
    exact Or.inl ⟨s1, hok⟩
  · right
    have hno : ¬ (v.size_ ≤ MAX_ALLOC ∧ v.size_ ≤ s.heap.room) := fun e => hroom e.2
    simp only [Vector_copy, hv, alloc_none s.heap v.size_ (some default) hno]

/-- C20: the accesses made by the container's own code stay inside allocated
storage.  In the model a read or write outside a live array makes the loop return
nothing and the call end as `undefined`.  On a valid object `PushBack` never ends
that way (it returns normally or leaves with the allocation failure, before any
access): once the new buffer is allocated, its copy loop over the indices below
`size_` completes, so every read is inside the old buffer and every write inside
the new one, and the final store is at index `size_`, which is below the capacity
in force after the growth check.  Likewise the copy constructor on a valid
source, and copy assignment between valid objects owning different buffers, never
end as `undefined`, and their copy loops over the indices below the size of the
source (at most its capacity, and equal to the new capacity) complete. -/
theorem C20_accesses_in_bounds {T : Type} [Inhabited T] (s : State T) (a : Nat) (v : Vector)
    (x : T) (t : State Int) (dst src : Nat) (w r : Vector)
    (hv : s.objs[a]? = some v) (hval : Valid s a)
    (hw : t.objs[dst]? = some w) (hr : t.objs[src]? = some r)
    (hvalD : Valid t dst) (hvalS : Valid t src) (hdis : Disjoint t dst src) :
    PushBack s a x ≠ .undefined ∧
    (v.capacity_ ≤ v.size_ → ∀ p h1,
      s.heap.alloc ((v.capacity_ * 2 + 1) % SIZE_MOD) none = some (p, h1) →
      (copyLoop h1 p v.data_ 0 v.size_).isSome) ∧
    v.size_ < (if v.capacity_ ≤ v.size_ then 2 * v.capacity_ + 1 else v.capacity_) ∧
    Vector_copy s a ≠ .undefined ∧
    (∀ p h1, s.heap.alloc v.size_ (some default) = some (p, h1) →
      (copyLoop h1 p v.data_ 0 v.size_).isSome) ∧
    operator_assign t dst src ≠ .undefined ∧
    (∀ h1 p h2, t.heap.free w.data_ = some h1 → h1.alloc r.size_ (some 0) = some (p, h2) →
      (copyLoop h2 p r.data_ 0 r.size_).isSome) ∧
    v.size_ ≤ v.capacity_ ∧ r.size_ ≤ r.capacity_ := by
  obtain ⟨hsz, _, _⟩ := valid_backs hv hval
  obtain ⟨hszS, _, _⟩ := valid_backs hr hvalS
  have hne : src ≠ dst := fun e => hdis.1 e.symm
  have hpush : PushBack s a x ≠ .undefined := by
    rcases PushBack_defined s a v x hv hval with ⟨s1, h⟩ | ⟨s1, h⟩ <;> rw [h] <;> simp
  have hcopy : Vector_copy s a ≠ .undefined := by
    rcases Vector_copy_defined s a v hv hval with ⟨s1, h⟩ | h <;> rw [h] <;> simp
  have hassign : operator_assign t dst src ≠ .undefined := by
    by_cases hroom : r.size_ ≤ t.heap.room + w.capacity_
    · obtain ⟨s1, hok, _⟩ :=
        operator_assign_spec t dst src w r hne hw hr hvalD hvalS hdis hroom
      rw [hok]; simp
    · obtain ⟨h1, _, hthrow, _⟩ :=
        operator_assign_throws t dst src w r hne hw hr hvalD (by omega)
      rw [hthrow]; simp
  refine ⟨hpush, ?_, ?_, hcopy, ?_, hassign, ?_, hsz, hszS⟩
  · intro hfull p h1 ha
    by_contra hnone
    apply hpush
    rcases hc : copyLoop h1 p v.data_ 0 v.size_ with _ | h2
    · simp only [PushBack, hv, hfull, if_true, ha, hc]
    · simp [hc] at hnone
  · split <;> omega
  · intro p h1 ha
    by_contra hnone
    apply hcopy
    rcases hc : copyLoop h1 p v.data_ 0 v.size_ with _ | h2
    · simp only [Vector_copy, hv, ha, hc]
    · simp [hc] at hnone
  · intro h1 p h2 hf ha
    by_contra hnone
    apply hassign
    rcases hc : copyLoop h2 p r.data_ 0 r.size_ with _ | h3
    · simp only [operator_assign, hne, if_false, hw, hr, hf, ha, hc]
    · simp [hc] at hnone

theorem C20_witness :
    (demoTwo.objs[1]? = some demoN ∧ Valid demoTwo 1 ∧ demoTwo.objs[1]? = some demoN ∧
      demoTwo.objs[0]? = some demoV ∧ Valid demoTwo 1 ∧ Valid demoTwo 0 ∧
      Disjoint demoTwo 1 0) ∧
    (PushBack demoTwo 1 5 ≠ .undefined ∧
    (demoN.capacity_ ≤ demoN.size_ → ∀ p h1,
      demoTwo.heap.alloc ((demoN.capacity_ * 2 + 1) % SIZE_MOD) none = some (p, h1) →
      (copyLoop h1 p demoN.data_ 0 demoN.size_).isSome) ∧
    demoN.size_ < (if demoN.capacity_ ≤ demoN.size_ then 2 * demoN.capacity_ + 1
      else demoN.capacity_) ∧
    Vector_copy demoTwo 1 ≠ .undefined ∧
    (∀ p h1, demoTwo.heap.alloc demoN.size_ (some default) = some (p, h1) →
      (copyLoop h1 p demoN.data_ 0 demoN.size_).isSome) ∧
    operator_assign demoTwo 1 0 ≠ .undefined ∧
    (∀ h1 p h2, demoTwo.heap.free demoN.data_ = some h1 →
      h1.alloc demoV.size_ (some 0) = some (p, h2) →
      (copyLoop h2 p demoV.data_ 0 demoV.size_).isSome) ∧
    demoN.size_ ≤ demoN.capacity_ ∧ demoV.size_ ≤ demoV.capacity_) :=
  ⟨⟨by decide, by decide, by decide, by decide, by decide, by decide, by decide⟩,
    C20_accesses_in_bounds demoTwo 1 demoN 5 demoTwo 1 0 demoN demoV (by decide) (by decide)
      (by decide) (by decide) (by decide) (by decide) (by decide)⟩

/-! ## Copy-assign independence -/

theorem readAll_sameView {T : Type} {s s1 : State T} {b : Nat} (h : SameView s s1 b) :
    readAll s1 b = readAll s b := by
  simp only [readAll, h.1]
  rcases Size s b with _ | n
  · rfl
  · simp only
    apply List.map_congr_left
    intro i _
    exact h.2.2 i

/-- C6: copy-assign independence.  After `B = A` between two valid objects that
are different objects owning different buffers, `Size()` of `B` equals `Size()`
of `A`, `Capacity()` of `B` equals that size, the elements of `B` read at the
indices below its size are exactly those of `A` at the time of the assignment,
and `A` itself is observed unchanged.  A later indexed write `A[i] = x`
(`0 ≤ i < size`) or `PushBack` on `A` (with room to grow) returns normally and
leaves `Size()`, `Capacity()` and the element at every index of `B` unchanged,
as does every finite sequence of indexed writes and appends on `A` that runs to
completion: afterwards `B` still holds the contents `A` had when it was
assigned. -/
theorem C6_copy_assign_independence (s : State Int) (a b : Nat) (va vb : Vector) (hne : a ≠ b)
    (hva : s.objs[a]? = some va) (hvb : s.objs[b]? = some vb)
    (hvalA : Valid s a) (hvalB : Valid s b) (hdis : Disjoint s b a)
    (hroom : va.size_ ≤ s.heap.room + vb.capacity_) :
    ∃ s1, operator_assign s b a = .ok s1 ∧
      Size s1 b = Size s a ∧ Size s1 b = some va.size_ ∧ Capacity s1 b = some va.size_ ∧
      readAll s1 b = readAll s a ∧
      (∀ i : Nat, i < va.size_ → index s1 b (i : Int) = index s a (i : Int)) ∧
      SameView s s1 a ∧
      (∀ (i : Int) (x : Int), 0 ≤ i → i < (va.size_ : Int) →
        ∃ s2, index_assign s1 a i x = .ok s2 ∧ SameView s1 s2 b ∧
          readAll s2 b = readAll s a) ∧
      (∀ x : Int, (va.size_ = va.capacity_ →
          2 * va.capacity_ + 1 ≤ MAX_ALLOC ∧ 2 * va.capacity_ + 1 ≤ s1.heap.room) →
        ∃ s2, PushBack s1 a x = .ok s2 ∧ SameView s1 s2 b ∧ readAll s2 b = readAll s a) ∧
      (∀ (ms : List (Mutation Int)) (s2 : State Int),
        mutateAll s1 a ms = .ok s2 → SameView s1 s2 b ∧ readAll s2 b = readAll s a) := by
  obtain ⟨hsz, _, _⟩ := valid_backs hva hvalA
  obtain ⟨s1, hasg, hobjs, hval1B, hbuf, hconf, _, _⟩ :=
    operator_assign_spec s b a vb va hne hvb hva hvalB hvalA hdis hroom
  have hb : b < s.objs.length := (List.getElem?_eq_some_iff.mp hvb).1
  have hobjB : s1.objs[b]? = some ⟨s.heap.blocks.length + 1, va.size_, va.size_⟩ := by
    rw [hobjs]; simp [hb]
  obtain ⟨hval1A, hsameA, hobjA0, _⟩ := confined_frame hconf hdis hvalA
  have hobjA : s1.objs[a]? = some va := by rw [hobjA0, hva]
  have hdis1 : Disjoint s1 a b :=
    assign_disjoint hne hobjA hobjB (valid_data_le hva hvalA) (Nat.lt_succ_self _)
  have hel : elems s1 b = elems s a := elems_full hobjB hbuf (by rw [elems_length hva hvalA])
  have hread : readAll s1 b = readAll s a := by
    rw [readAll_elems hobjB hval1B, readAll_elems hva hvalA, hel]
  refine ⟨s1, hasg, by rw [Size_eq hobjB, Size_eq hva], by rw [Size_eq hobjB],
    by rw [Capacity_eq hobjB], hread, ?_, hsameA, ?_, ?_, ?_⟩
  · intro i hi
    rw [index_buffer hobjB hval1B, hbuf, index_elems hva hvalA i hi]
  · intro i x h0 hi
    obtain ⟨s2, hw, _, _, hc2, _⟩ :=
      index_assign_spec s1 a va i x hobjA hval1A h0 (by omega)
    have hsame := (confined_frame hc2 hdis1 hval1B).2.1
    exact ⟨s2, hw, hsame, (readAll_sameView hsame).trans hread⟩
  · intro x hfit
    obtain ⟨s2, _, hp, _, _, _, _, _, hc2, _⟩ := PushBack_spec s1 a va x hobjA hval1A hfit
    have hsame := (confined_frame hc2 hdis1 hval1B).2.1
    exact ⟨s2, hp, hsame, (readAll_sameView hsame).trans hread⟩
  · intro ms s2 h
    have hsame := mutateAll_frame a b ms s1 s2 hval1A hval1B hdis1 h
    exact ⟨hsame, (readAll_sameView hsame).trans hread⟩

theorem C6_witness :
    (0 ≠ 1 ∧ demoTwo.objs[0]? = some demoV ∧ demoTwo.objs[1]? = some demoN ∧
      Valid demoTwo 0 ∧ Valid demoTwo 1 ∧ Disjoint demoTwo 1 0 ∧
      demoV.size_ ≤ demoTwo.heap.room + demoN.capacity_) ∧
    (∃ s1, operator_assign demoTwo 1 0 = .ok s1 ∧
      Size s1 1 = Size demoTwo 0 ∧ Size s1 1 = some demoV.size_ ∧
      Capacity s1 1 = some demoV.size_ ∧
      readAll s1 1 = readAll demoTwo 0 ∧
      (∀ i : Nat, i < demoV.size_ → index s1 1 (i : Int) = index demoTwo 0 (i : Int)) ∧
      SameView demoTwo s1 0 ∧
      (∀ (i : Int) (x : Int), 0 ≤ i → i < (demoV.size_ : Int) →
        ∃ s2, index_assign s1 0 i x = .ok s2 ∧ SameView s1 s2 1 ∧
          readAll s2 1 = readAll demoTwo 0) ∧
      (∀ x : Int, (demoV.size_ = demoV.capacity_ →
          2 * demoV.capacity_ + 1 ≤ MAX_ALLOC ∧ 2 * demoV.capacity_ + 1 ≤ s1.heap.room) →
        ∃ s2, PushBack s1 0 x = .ok s2 ∧ SameView s1 s2 1 ∧
          readAll s2 1 = readAll demoTwo 0) ∧
      (∀ (ms : List (Mutation Int)) (s2 : State Int),
        mutateAll s1 0 ms = .ok s2 → SameView s1 s2 1 ∧ readAll s2 1 = readAll demoTwo 0)) ∧
    (∃ s1 s2, operator_assign demoTwo 1 0 = .ok s1 ∧
      mutateAll s1 0 [.write 0 7, .push 8, .push 9, .push 10] = .ok s2 ∧
      Size s1 1 = some 5 ∧ Capacity s1 1 = some 5 ∧
      readAll s1 1
        = [some (some 6), some (some 1), some (some 2), some (some 3), some (some 4)] ∧
      Size s2 1 = some 5 ∧ Capacity s2 1 = some 5 ∧
      readAll s2 1
        = [some (some 6), some (some 1), some (some 2), some (some 3), some (some 4)] ∧
      readAll s2 0
        = [some (some 7), some (some 1), some (some 2), some (some 3), some (some 4),
           some (some 8), some (some 9), some (some 10)]) :=
  ⟨⟨by decide, by decide, by decide, by decide, by decide, by decide, by decide⟩,
    C6_copy_assign_independence demoTwo 0 1 demoV demoN (by decide) (by decide) (by decide)
      (by decide) (by decide) (by decide) (by decide),
    ⟨_, _, rfl, rfl, by decide, by decide, by decide, by decide, by decide, by decide,
      by decide⟩⟩

end DynamicArray
